import Mathlib

/-!
Verification of the deterministic limit-order-book matching engine.

The definitions below are a shallow embedding of the engine's core
(`orderbook.hpp` with the arena-allocated `ObjectPool`, the intrusive
per-price `LimitLevel` lists of `order.hpp`, the event log of `events.hpp`
and the replayer of `replay.hpp`).

Modelling conventions:
* `uint64_t` quantities, ids and timestamps are `Nat`; `int64_t` scaled
  prices are `Int` (prices are only ever compared, never arithmetically
  combined, so the 64-bit range is immaterial).
* `Order*` pool pointers become handles (`Nat` indices into the arena
  vector `slots`).  The pool's `free_list_` is a stack whose top (the
  `back()` of the C++ vector) is the head of the `free` list; the freshly
  constructed pool therefore has `free = (List.range capacity).reverse`.
* `std::map<int64_t, LimitLevel, greater/less>` side books become
  association lists kept in iteration (best-first) order.
* `std::unordered_map<uint64_t, Order*>` becomes an association list with
  the operations the engine actually uses (find, assign, erase).
* The aggressive order is mutated through its pool pointer in C++; here it
  is threaded by value through the match loop and written back to its slot
  when matching finishes (nothing reads the slot in between, because the
  aggressive order is never resting while it matches).
-/

/-- Side of an order (`Side` in types.hpp). -/
inductive Side where
  | BUY
  | SELL
deriving DecidableEq, Repr

/-- An order record (`struct Order` in order.hpp).  The intrusive
`next`/`prev` pointers are represented by the position of the order's
handle inside its level's `orders` list. -/
structure Order where
  id : Nat
  timestamp : Nat
  side : Side
  price : Int
  original_qty : Nat
  remaining_qty : Nat
deriving DecidableEq, Repr

/-- `Order::is_filled`. -/
def Order.isFilled (o : Order) : Bool :=
  o.remaining_qty == 0

/-- The default-constructed order used to pre-fill the pool
(`Order(OrderId(0), Timestamp(0), Side::BUY, Price(0), Quantity(0))`). -/
def defaultOrder : Order :=
  { id := 0, timestamp := 0, side := Side.BUY, price := 0,
    original_qty := 0, remaining_qty := 0 }

/-- A price level (`struct LimitLevel` in order.hpp): FIFO list of order
handles (head of the list = head of the intrusive list), plus the
aggregate statistics maintained by the engine. -/
structure LimitLevel where
  price : Int
  orders : List Nat
  total_volume : Nat
  order_count : Nat
deriving DecidableEq, Repr

/-- `LimitLevel::LimitLevel(Price p)`. -/
def LimitLevel.init (p : Int) : LimitLevel :=
  { price := p, orders := [], total_volume := 0, order_count := 0 }

/-- `LimitLevel::add_order`: link at the tail, add the order's remaining
quantity to `total_volume`, increment `order_count`. -/
def LimitLevel.addOrder (L : LimitLevel) (h : Nat) (rem : Nat) : LimitLevel :=
  { L with orders := L.orders ++ [h],
           total_volume := L.total_volume + rem,
           order_count := L.order_count + 1 }

/-- `LimitLevel::pop`: if the list is non-empty, unlink the head and
decrement `order_count`.  `total_volume` is not touched. -/
def LimitLevel.pop (L : LimitLevel) : LimitLevel :=
  match L.orders with
  | [] => L
  | _ :: rest => { L with orders := rest, order_count := L.order_count - 1 }

/-- Events (`events.hpp`).  `newOrder` is the `NewOrderEvent` ack,
`cancelOrder` the `CancelOrderEvent` ack, `trade` a `TradeEvent`. -/
inductive Event where
  | newOrder (ts : Nat) (id : Nat) (side : Side) (price : Int) (qty : Nat)
  | cancelOrder (ts : Nat) (id : Nat)
  | trade (ts : Nat) (passive_id : Nat) (aggressive_id : Nat) (price : Int) (qty : Nat)
deriving DecidableEq, Repr

/-- The timestamp of an event (`get_timestamp`). -/
def Event.ts : Event → Nat
  | .newOrder t _ _ _ _ => t
  | .cancelOrder t _ => t
  | .trade t _ _ _ _ => t

/-- Whether an event is a trade. -/
def Event.isTrade : Event → Bool
  | .trade _ _ _ _ _ => true
  | _ => false

/-- The whole engine state (`class OrderBook`):
arena (`slots` = `pool_`, `free` = `free_list_` with the stack top first),
the two side books in iteration order (bids descending, asks ascending),
the id index, the event log and the logical clock. -/
structure OrderBookState where
  slots : List Order
  free : List Nat
  bids : List (Int × LimitLevel)
  asks : List (Int × LimitLevel)
  index : List (Nat × Nat)
  log : List Event
  time : Nat
deriving DecidableEq, Repr

/-- Dereference a pool handle. -/
def slotGet (slots : List Order) (h : Nat) : Order :=
  slots.getD h defaultOrder

/-- `order_index_[id] = h` (`unordered_map` assignment: overwrite the
binding if present, otherwise add one). -/
def idxInsert (id h : Nat) : List (Nat × Nat) → List (Nat × Nat)
  | [] => [(id, h)]
  | (i, g) :: rest =>
    if i = id then (i, h) :: rest else (i, g) :: idxInsert id h rest

/-- `order_index_.erase(id)`. -/
def idxErase (id : Nat) : List (Nat × Nat) → List (Nat × Nat)
  | [] => []
  | (i, g) :: rest =>
    if i = id then rest else (i, g) :: idxErase id rest

/-- `order_index_.find(id)`. -/
def idxFind (id : Nat) : List (Nat × Nat) → Option Nat
  | [] => none
  | (i, g) :: rest => if i = id then some g else idxFind id rest

/-- `add_to_book`'s `try_emplace` + `add_order` on one side book, kept in
iteration order.  `before p q` is the map's comparator (`std::greater`
for bids, `std::less` for asks). -/
def addToLevels (before : Int → Int → Prop) [DecidableRel before] (p : Int) (h : Nat)
    (rem : Nat) : List (Int × LimitLevel) → List (Int × LimitLevel)
  | [] => [(p, (LimitLevel.init p).addOrder h rem)]
  | (q, L) :: rest =>
    if p = q then (q, L.addOrder h rem) :: rest
    else if before p q then (p, (LimitLevel.init p).addOrder h rem) :: (q, L) :: rest
    else (q, L) :: addToLevels before p h rem rest

/-- Comparator of `bids_` (`std::greater<int64_t>`). -/
def bidBefore (p q : Int) : Prop := q < p

/-- Comparator of `asks_` (`std::less<int64_t>`). -/
def askBefore (p q : Int) : Prop := p < q

instance : DecidableRel bidBefore := fun p q => inferInstanceAs (Decidable (q < p))

instance : DecidableRel askBefore := fun p q => inferInstanceAs (Decidable (p < q))

/-- `remove_from_level` restricted to one side book: find the level at
key `p`, unlink handle `h`, subtract the order's remaining quantity from
`total_volume`, decrement `order_count`, and erase the level if it became
empty.  If the level is absent nothing happens (the C++ code returns). -/
def unlinkInLevels (p : Int) (h : Nat) (rem : Nat) :
    List (Int × LimitLevel) → List (Int × LimitLevel)
  | [] => []
  | (q, L) :: rest =>
    if p = q then
      let L' : LimitLevel :=
        { L with orders := L.orders.erase h,
                 total_volume := L.total_volume - rem,
                 order_count := L.order_count - 1 }
      if L'.orders.isEmpty then rest else (q, L') :: rest
    else (q, L) :: unlinkInLevels p h rem rest

/-- Result of `match_level`. -/
structure LevelMatchResult where
  agg : Order
  orders : List Nat
  vol : Nat
  cnt : Nat
  st : OrderBookState
deriving Repr

/-- `OrderBook::match_level`: while the level is non-empty and the
aggressive order is not filled, trade against the front passive order,
log the trade (advancing the clock first), update both remaining
quantities and the level volume, and pop + unindex + deallocate the
passive order once it is filled.  The level's list, volume and count are
threaded explicitly; `price` is the level (match) price. -/
def matchLevel (agg : Order) (hs : List Nat) (vol cnt : Nat) (price : Int)
    (s : OrderBookState) : LevelMatchResult :=
  match hs with
  | [] => ⟨agg, [], vol, cnt, s⟩
  | h :: rest =>
    if agg.remaining_qty = 0 then ⟨agg, h :: rest, vol, cnt, s⟩
    else
      let passive := slotGet s.slots h
      let t := min agg.remaining_qty passive.remaining_qty
      let time' := s.time + 1
      let log' := s.log ++ [Event.trade time' passive.id agg.id price t]
      let agg' := { agg with remaining_qty := agg.remaining_qty - t }
      let passive' := { passive with remaining_qty := passive.remaining_qty - t }
      let s' := { s with slots := s.slots.set h passive', log := log', time := time' }
      if passive'.remaining_qty = 0 then
        let s2 := { s' with index := idxErase passive'.id s'.index,
                            free := h :: s'.free }
        matchLevel agg' rest (vol - t) (cnt - 1) price s2
      else
        ⟨agg', h :: rest, vol - t, cnt, s'⟩

/-- Result of `match_order_buy` / `match_order_sell`. -/
structure SideMatchResult where
  agg : Order
  levels : List (Int × LimitLevel)
  st : OrderBookState
deriving Repr

/-- `OrderBook::match_order_buy`'s loop over the ask levels: stop when
there are no levels left or the aggressive order is filled or the price
no longer crosses (`aggressive.price < level_price`); otherwise match
against the level, erase it if it became empty, and move on. -/
def matchOrderBuyGo (agg : Order) (asks : List (Int × LimitLevel))
    (s : OrderBookState) : SideMatchResult :=
  match asks with
  | [] => ⟨agg, [], s⟩
  | (p, L) :: rest =>
    if agg.remaining_qty = 0 then ⟨agg, (p, L) :: rest, s⟩
    else if agg.price < p then ⟨agg, (p, L) :: rest, s⟩
    else
      let r := matchLevel agg L.orders L.total_volume L.order_count p s
      let L' : LimitLevel :=
        { price := L.price, orders := r.orders,
          total_volume := r.vol, order_count := r.cnt }
      if L'.orders.isEmpty then
        matchOrderBuyGo r.agg rest r.st
      else
        let r2 := matchOrderBuyGo r.agg rest r.st
        ⟨r2.agg, (p, L') :: r2.levels, r2.st⟩

/-- `OrderBook::match_order_sell`'s loop over the bid levels; the
crossing test is `aggressive.price > level_price → break`. -/
def matchOrderSellGo (agg : Order) (bids : List (Int × LimitLevel))
    (s : OrderBookState) : SideMatchResult :=
  match bids with
  | [] => ⟨agg, [], s⟩
  | (p, L) :: rest =>
    if agg.remaining_qty = 0 then ⟨agg, (p, L) :: rest, s⟩
    else if p < agg.price then ⟨agg, (p, L) :: rest, s⟩
    else
      let r := matchLevel agg L.orders L.total_volume L.order_count p s
      let L' : LimitLevel :=
        { price := L.price, orders := r.orders,
          total_volume := r.vol, order_count := r.cnt }
      if L'.orders.isEmpty then
        matchOrderSellGo r.agg rest r.st
      else
        let r2 := matchOrderSellGo r.agg rest r.st
        ⟨r2.agg, (p, L') :: r2.levels, r2.st⟩

/-- `OrderBook::process_new_order`: advance the clock, log the ack,
allocate a pool slot (on exhaustion the command is dropped), initialise
the order, index it, match against the opposite side, then either rest
the residual on the book or unindex and deallocate the filled order. -/
def processNewOrder (id : Nat) (side : Side) (price : Int) (qty : Nat)
    (s : OrderBookState) : OrderBookState :=
  let time1 := s.time + 1
  let s1 := { s with time := time1,
                     log := s.log ++ [Event.newOrder time1 id side price qty] }
  match s1.free with
  | [] => s1
  | h :: freeRest =>
    let o : Order := { id := id, timestamp := time1, side := side, price := price,
                       original_qty := qty, remaining_qty := qty }
    let s2 := { s1 with free := freeRest,
                        slots := s1.slots.set h o,
                        index := idxInsert id h s1.index }
    match side with
    | Side.BUY =>
      let r := matchOrderBuyGo o s2.asks s2
      let s3 := { r.st with asks := r.levels, slots := r.st.slots.set h r.agg }
      if r.agg.remaining_qty = 0 then
        { s3 with index := idxErase id s3.index, free := h :: s3.free }
      else
        { s3 with bids := addToLevels bidBefore price h r.agg.remaining_qty s3.bids }
    | Side.SELL =>
      let r := matchOrderSellGo o s2.bids s2
      let s3 := { r.st with bids := r.levels, slots := r.st.slots.set h r.agg }
      if r.agg.remaining_qty = 0 then
        { s3 with index := idxErase id s3.index, free := h :: s3.free }
      else
        { s3 with asks := addToLevels askBefore price h r.agg.remaining_qty s3.asks }

/-- `OrderBook::process_cancel`: advance the clock, log the ack, look the
id up in the index (absent ids are a no-op beyond the ack), unlink the
order from its level, erase the index entry and free the slot. -/
def processCancel (id : Nat) (s : OrderBookState) : OrderBookState :=
  let time1 := s.time + 1
  let s1 := { s with time := time1,
                     log := s.log ++ [Event.cancelOrder time1 id] }
  match idxFind id s1.index with
  | none => s1
  | some h =>
    let o := slotGet s1.slots h
    let s2 :=
      match o.side with
      | Side.BUY => { s1 with bids := unlinkInLevels o.price h o.remaining_qty s1.bids }
      | Side.SELL => { s1 with asks := unlinkInLevels o.price h o.remaining_qty s1.asks }
    { s2 with index := idxErase id s2.index, free := h :: s2.free }

/-- A freshly constructed `OrderBook(capacity)`: the pool holds
`capacity` default orders and the free list stores them with the last
slot on top of the stack. -/
def initState (capacity : Nat) : OrderBookState :=
  { slots := List.replicate capacity defaultOrder,
    free := (List.range capacity).reverse,
    bids := [], asks := [], index := [], log := [], time := 0 }

/-- An input command of the engine. -/
inductive Cmd where
  | newOrder (id : Nat) (side : Side) (price : Int) (qty : Nat)
  | cancel (id : Nat)
deriving DecidableEq, Repr

/-- Apply one command. -/
def applyCmd (c : Cmd) (s : OrderBookState) : OrderBookState :=
  match c with
  | .newOrder id side price qty => processNewOrder id side price qty s
  | .cancel id => processCancel id s

/-- Run a command sequence. -/
def runCmds (s : OrderBookState) : List Cmd → OrderBookState
  | [] => s
  | c :: cs => runCmds (applyCmd c s) cs

/-- The replayer's dispatch (`ReplayEngine::replay_from_log`'s visitor):
acks are reissued as commands, trades are skipped. -/
def eventToCmd : Event → Option Cmd
  | .newOrder _ id side price qty => some (.newOrder id side price qty)
  | .cancelOrder _ id => some (.cancel id)
  | .trade _ _ _ _ _ => none

/-- The command sequence a log is replayed as. -/
def extractCmds (log : List Event) : List Cmd :=
  log.filterMap eventToCmd

/-- `ReplayEngine::replay_from_log`: build a fresh book whose capacity is
twice the log size and feed it the logged input events. -/
def replayFromLog (log : List Event) : OrderBookState :=
  runCmds (initState (log.length * 2)) (extractCmds log)

/-- `OrderBook::best_bid`. -/
def bestBid (s : OrderBookState) : Option Int :=
  s.bids.head?.map Prod.fst

/-- `OrderBook::best_ask`. -/
def bestAsk (s : OrderBookState) : Option Int :=
  s.asks.head?.map Prod.fst

/-- Observable content of one level: price, aggregates and the queue of
resting order ids in FIFO order. -/
structure LevelObs where
  price : Int
  total_volume : Nat
  order_count : Nat
  queue : List Nat
deriving DecidableEq, Repr

/-- Observable content of a state: best bid/ask and the per-level data on
both sides, in iteration order. -/
structure BookObs where
  best_bid : Option Int
  best_ask : Option Int
  bids : List LevelObs
  asks : List LevelObs
deriving DecidableEq, Repr

/-- Observe one keyed level. -/
def levelObs (slots : List Order) (pl : Int × LimitLevel) : LevelObs :=
  { price := pl.1, total_volume := pl.2.total_volume,
    order_count := pl.2.order_count,
    queue := pl.2.orders.map (fun h => (slotGet slots h).id) }

/-- Observe a state. -/
def observe (s : OrderBookState) : BookObs :=
  { best_bid := bestBid s, best_ask := bestAsk s,
    bids := s.bids.map (levelObs s.slots),
    asks := s.asks.map (levelObs s.slots) }

/-- States reachable from a fresh engine of some capacity by a finite
command sequence. -/
inductive Reachable : OrderBookState → Prop
  | init (capacity : Nat) : Reachable (initState capacity)
  | step (c : Cmd) {s : OrderBookState} : Reachable s → Reachable (applyCmd c s)

/-- States reachable when every new-order command uses an id that is not
currently live (not bound in the index) — the discipline the engine
assumes of its clients. -/
inductive ReachableFresh : OrderBookState → Prop
  | init (capacity : Nat) : ReachableFresh (initState capacity)
  | stepNew (id : Nat) (side : Side) (price : Int) (qty : Nat) {s : OrderBookState} :
      ReachableFresh s → idxFind id s.index = none →
      ReachableFresh (processNewOrder id side price qty s)
  | stepCancel (id : Nat) {s : OrderBookState} :
      ReachableFresh s → ReachableFresh (processCancel id s)

/-- No new-order command of the sequence meets an exhausted pool. -/
def noFailB (s : OrderBookState) : List Cmd → Bool
  | [] => true
  | c :: cs =>
    (match c with
     | Cmd.newOrder _ _ _ _ => !s.free.isEmpty
     | Cmd.cancel _ => true) && noFailB (applyCmd c s) cs

/-- All handles resting on a list of levels, in iteration order. -/
def levelsHandles (ls : List (Int × LimitLevel)) : List Nat :=
  ls.flatMap (fun pl => pl.2.orders)

/-- All handles resting on either side of the book. -/
def allHandles (s : OrderBookState) : List Nat :=
  levelsHandles s.bids ++ levelsHandles s.asks

/-- Whether a resting order with the given id exists on some level. -/
def restingB (s : OrderBookState) (id : Nat) : Bool :=
  (allHandles s).any (fun h => (slotGet s.slots h).id == id)

/-- Index/arena consistency invariant: the index binds exactly the
resting orders (by their slot's id), handles are unique, live and within
the arena, the free list is disjoint from the book, and every resting
order's slot agrees with its level's side and price key. -/
structure IdxInv (s : OrderBookState) : Prop where
  entries : ∀ e ∈ s.index, e.2 ∈ allHandles s ∧ (slotGet s.slots e.2).id = e.1
  complete : ∀ h ∈ allHandles s, ((slotGet s.slots h).id, h) ∈ s.index
  keysNodup : (s.index.map Prod.fst).Nodup
  handlesNodup : (allHandles s).Nodup
  freeDisjoint : ∀ h ∈ s.free, h ∉ allHandles s
  freeNodup : s.free.Nodup
  handlesLt : ∀ h ∈ allHandles s, h < s.slots.length
  freeLt : ∀ h ∈ s.free, h < s.slots.length
  bidsSide : ∀ pl ∈ s.bids, ∀ h ∈ pl.2.orders,
    (slotGet s.slots h).side = Side.BUY ∧ (slotGet s.slots h).price = pl.1
  asksSide : ∀ pl ∈ s.asks, ∀ h ∈ pl.2.orders,
    (slotGet s.slots h).side = Side.SELL ∧ (slotGet s.slots h).price = pl.1

/-- Shift every pool handle of a state up by `d`, padding the arena with
`d` unused slots below and `d` never-used free slots at the bottom of the
free stack.  A book of capacity `c + d` run on commands that never
exhaust a capacity-`c` pool is exactly the shift of the capacity-`c`
book. -/
def shiftState (d : Nat) (s : OrderBookState) : OrderBookState :=
  { slots := List.replicate d defaultOrder ++ s.slots,
    free := s.free.map (· + d) ++ (List.range d).reverse,
    bids := s.bids.map (fun pl => (pl.1, { pl.2 with orders := pl.2.orders.map (· + d) })),
    asks := s.asks.map (fun pl => (pl.1, { pl.2 with orders := pl.2.orders.map (· + d) })),
    index := s.index.map (fun e => (e.1, e.2 + d)),
    log := s.log,
    time := s.time }

/-- The passive-order id of a trade event. -/
def tradePassiveId : Event → Option Nat
  | .trade _ pid _ _ _ => some pid
  | _ => none

/-- The FIFO scenario of the specification: ten SELL orders `id=1..10`
at the same (scaled) price 1000000 with quantity 10 each, followed by one
BUY `id=100` at that price with quantity 100. -/
def fifoScenario : List Cmd :=
  (List.range 10).map (fun i => Cmd.newOrder (i + 1) Side.SELL 1000000 10) ++
    [Cmd.newOrder 100 Side.BUY 1000000 100]

/-- Structural order invariant of the two side books: bid keys strictly
descending, ask keys strictly ascending (the `std::map` comparators), and
the book does not cross. -/
def BookInv (s : OrderBookState) : Prop :=
  (s.bids.map Prod.fst).Pairwise (fun a b => b < a) ∧
  (s.asks.map Prod.fst).Pairwise (fun a b => a < b) ∧
  ∀ pb pa : Int, (s.bids.map Prod.fst).head? = some pb →
    (s.asks.map Prod.fst).head? = some pa → pb < pa

/-! ### Basic lemmas about the index operations -/

theorem idxFind_idxInsert_self (id h : Nat) (l : List (Nat × Nat)) :
    idxFind id (idxInsert id h l) = some h := by
  induction l with
  | nil => simp [idxInsert, idxFind]
  | cons e rest ih =>
    by_cases he : e.1 = id
    · simp [idxInsert, idxFind, he]
    · simpa [idxInsert, idxFind, he] using ih

theorem idxErase_idxInsert_of_find_none (id h : Nat) (l : List (Nat × Nat))
    (hnone : idxFind id l = none) : idxErase id (idxInsert id h l) = l := by
  induction l with
  | nil => simp [idxInsert, idxErase]
  | cons e rest ih =>
    by_cases he : e.1 = id
    · simp [idxFind, he] at hnone
    · have hr : idxFind id rest = none := by simpa [idxFind, he] using hnone
      simp [idxInsert, idxErase, he, ih hr]

theorem idxFind_idxErase_of_ne (id j : Nat) (l : List (Nat × Nat)) (hne : j ≠ id) :
    idxFind j (idxErase id l) = idxFind j l := by
  induction l with
  | nil => simp [idxErase]
  | cons e rest ih =>
    by_cases he : e.1 = id
    · simp [idxErase, idxFind, he, Ne.symm hne]
    · by_cases hej : e.1 = j
      · simp [idxErase, idxFind, he, hej, hne]
      · simp [idxErase, idxFind, he, hej, ih]

/-! ### Matching is a no-op for an already-filled aggressive order -/

theorem matchOrderBuyGo_of_filled (agg : Order) (asks : List (Int × LimitLevel))
    (s : OrderBookState) (h : agg.remaining_qty = 0) :
    matchOrderBuyGo agg asks s = ⟨agg, asks, s⟩ := by
  cases asks with
  | nil => simp [matchOrderBuyGo]
  | cons a rest => cases a with
    | mk p L => simp [matchOrderBuyGo, h]

theorem matchOrderSellGo_of_filled (agg : Order) (bids : List (Int × LimitLevel))
    (s : OrderBookState) (h : agg.remaining_qty = 0) :
    matchOrderSellGo agg bids s = ⟨agg, bids, s⟩ := by
  cases bids with
  | nil => simp [matchOrderSellGo]
  | cons a rest => cases a with
    | mk p L => simp [matchOrderSellGo, h]

/-! ### Log-extension lemmas: matching appends only trade events -/

/-- `l'` extends `l` by trade events only. -/
def TradeExt (l l' : List Event) : Prop :=
  ∃ tr : List Event, l' = l ++ tr ∧ ∀ e ∈ tr, e.isTrade = true

theorem TradeExt.rfl (l : List Event) : TradeExt l l :=
  ⟨[], by simp, by simp⟩

theorem TradeExt.trans {a b c : List Event} (h1 : TradeExt a b) (h2 : TradeExt b c) :
    TradeExt a c := by
  obtain ⟨t1, hb, ha1⟩ := h1
  obtain ⟨t2, hc, ha2⟩ := h2
  refine ⟨t1 ++ t2, by simp [hc, hb], ?_⟩
  intro e he
  rcases List.mem_append.mp he with he | he
  · exact ha1 e he
  · exact ha2 e he

theorem tradeExt_single (l : List Event) (ts pid aid : Nat) (p : Int) (q : Nat) :
    TradeExt l (l ++ [Event.trade ts pid aid p q]) := by
  refine ⟨[Event.trade ts pid aid p q], by simp, ?_⟩
  intro e he
  rw [List.mem_singleton] at he
  subst he
  rfl

theorem matchLevel_log (agg : Order) (hs : List Nat) (vol cnt : Nat) (price : Int)
    (s : OrderBookState) :
    TradeExt s.log (matchLevel agg hs vol cnt price s).st.log := by
  induction hs generalizing agg vol cnt s with
  | nil => exact TradeExt.rfl _
  | cons h rest ih =>
    by_cases hq : agg.remaining_qty = 0
    · simp only [matchLevel, hq, if_true]
      exact TradeExt.rfl _
    · simp only [matchLevel, hq, if_false]
      split
    
      · exact TradeExt.trans (tradeExt_single _ _ _ _ _ _) (ih _ _ _ _)
      · exact tradeExt_single _ _ _ _ _ _

theorem matchOrderBuyGo_log (agg : Order) (asks : List (Int × LimitLevel))
    (s : OrderBookState) :
    TradeExt s.log (matchOrderBuyGo agg asks s).st.log := by
  induction asks generalizing agg s with
  | nil => exact TradeExt.rfl _
  | cons a rest ih =>
    obtain ⟨p, L⟩ := a
    by_cases hq : agg.remaining_qty = 0
    · simp only [matchOrderBuyGo, hq, if_true]
      exact TradeExt.rfl _
    · by_cases hp : agg.price < p
      · simp only [matchOrderBuyGo, hq, hp, if_true, if_false]
        exact TradeExt.rfl _
      · simp only [matchOrderBuyGo, hq, hp, if_false]
        split
        · exact TradeExt.trans (matchLevel_log agg L.orders L.total_volume L.order_count p s)
            (ih _ _)
        · exact TradeExt.trans (matchLevel_log agg L.orders L.total_volume L.order_count p s)
            (ih _ _)

theorem matchOrderSellGo_log (agg : Order) (bids : List (Int × LimitLevel))
    (s : OrderBookState) :
    TradeExt s.log (matchOrderSellGo agg bids s).st.log := by
  induction bids generalizing agg s with
  | nil => exact TradeExt.rfl _
  | cons a rest ih =>
    obtain ⟨p, L⟩ := a
    by_cases hq : agg.remaining_qty = 0
    · simp only [matchOrderSellGo, hq, if_true]
      exact TradeExt.rfl _
    · by_cases hp : p < agg.price
      · simp only [matchOrderSellGo, hq, hp, if_true, if_false]
        exact TradeExt.rfl _
      · simp only [matchOrderSellGo, hq, hp, if_false]
        split
        · exact TradeExt.trans (matchLevel_log agg L.orders L.total_volume L.order_count p s)
            (ih _ _)
        · exact TradeExt.trans (matchLevel_log agg L.orders L.total_volume L.order_count p s)
            (ih _ _)

theorem tradeExt_len {a b : List Event} (h : TradeExt a b) : a.length ≤ b.length := by
  obtain ⟨tr, hb, _⟩ := h
  simp [hb]

theorem matchLevel_len_ge (agg : Order) (hs : List Nat) (vol cnt : Nat) (price : Int)
    (s : OrderBookState) :
    s.log.length ≤ (matchLevel agg hs vol cnt price s).st.log.length :=
  tradeExt_len (matchLevel_log agg hs vol cnt price s)

theorem matchOrderBuyGo_len_ge (agg : Order) (asks : List (Int × LimitLevel))
    (s : OrderBookState) :
    s.log.length ≤ (matchOrderBuyGo agg asks s).st.log.length :=
  tradeExt_len (matchOrderBuyGo_log agg asks s)

theorem matchOrderSellGo_len_ge (agg : Order) (bids : List (Int × LimitLevel))
    (s : OrderBookState) :
    s.log.length ≤ (matchOrderSellGo agg bids s).st.log.length :=
  tradeExt_len (matchOrderSellGo_log agg bids s)

theorem matchLevel_log_len_gt (agg : Order) (h : Nat) (rest : List Nat) (vol cnt : Nat)
    (price : Int) (s : OrderBookState) (hq : agg.remaining_qty ≠ 0) :
    s.log.length < (matchLevel agg (h :: rest) vol cnt price s).st.log.length := by
  simp only [matchLevel, hq, if_false]
  split
  · exact Nat.lt_of_lt_of_le (by simp) (matchLevel_len_ge _ _ _ _ _ _)
  · simp

theorem matchOrderBuyGo_log_len_gt (agg : Order) (p : Int) (L : LimitLevel)
    (rest : List (Int × LimitLevel)) (s : OrderBookState)
    (hq : agg.remaining_qty ≠ 0) (hp : ¬agg.price < p) (hord : L.orders ≠ []) :
    s.log.length < (matchOrderBuyGo agg ((p, L) :: rest) s).st.log.length := by
  obtain ⟨Lp, Lo, Lv, Lc⟩ := L
  cases Lo with
  | nil => cases hord rfl
  | cons h0 rest0 =>
    simp only [matchOrderBuyGo, hq, hp, if_false]
    split
    · exact Nat.lt_of_lt_of_le (matchLevel_log_len_gt agg h0 rest0 Lv Lc p s hq)
        (matchOrderBuyGo_len_ge _ _ _)
    · exact Nat.lt_of_lt_of_le (matchLevel_log_len_gt agg h0 rest0 Lv Lc p s hq)
        (matchOrderBuyGo_len_ge _ _ _)

theorem matchOrderSellGo_log_len_gt (agg : Order) (p : Int) (L : LimitLevel)
    (rest : List (Int × LimitLevel)) (s : OrderBookState)
    (hq : agg.remaining_qty ≠ 0) (hp : ¬p < agg.price) (hord : L.orders ≠ []) :
    s.log.length < (matchOrderSellGo agg ((p, L) :: rest) s).st.log.length := by
  obtain ⟨Lp, Lo, Lv, Lc⟩ := L
  cases Lo with
  | nil => cases hord rfl
  | cons h0 rest0 =>
    simp only [matchOrderSellGo, hq, hp, if_false]
    split
    · exact Nat.lt_of_lt_of_le (matchLevel_log_len_gt agg h0 rest0 Lv Lc p s hq)
        (matchOrderSellGo_len_ge _ _ _)
    · exact Nat.lt_of_lt_of_le (matchLevel_log_len_gt agg h0 rest0 Lv Lc p s hq)
        (matchOrderSellGo_len_ge _ _ _)

/-! ### Claim C5: the frame of `LimitLevel::pop` -/

/-- C5 (counterexample): it is not the case that `pop` on a non-empty
level leaves both `total_volume` and `order_count` unchanged — popping a
one-order level decrements `order_count` from 1 to 0. -/
theorem c5_pop_counterexample :
    ¬ ((LimitLevel.mk 10 [7] 5 1).pop.total_volume =
         (LimitLevel.mk 10 [7] 5 1).total_volume ∧
       (LimitLevel.mk 10 [7] 5 1).pop.order_count =
         (LimitLevel.mk 10 [7] 5 1).order_count) := by
  decide

/-- C5 (amended): on every non-empty level, `pop` unlinks the head and
decrements `order_count` by one, but does not update `total_volume`; the
volume adjustment is the caller's (the match-loop's) responsibility. -/
theorem c5_pop_frame (L : LimitLevel) (h : L.orders ≠ []) :
    L.pop.orders = L.orders.tail ∧ L.pop.total_volume = L.total_volume ∧
      L.pop.order_count = L.order_count - 1 := by
  obtain ⟨p, os, v, c⟩ := L
  cases os with
  | nil => cases h rfl
  | cons a t => exact ⟨rfl, rfl, rfl⟩

/-- Witness for C5's amended theorem at a concrete one-order level. -/
theorem c5_pop_frame_witness :
    (LimitLevel.mk 10 [7] 5 1).orders ≠ [] ∧
    ((LimitLevel.mk 10 [7] 5 1).pop.orders = (LimitLevel.mk 10 [7] 5 1).orders.tail ∧
     (LimitLevel.mk 10 [7] 5 1).pop.total_volume = (LimitLevel.mk 10 [7] 5 1).total_volume ∧
     (LimitLevel.mk 10 [7] 5 1).pop.order_count = (LimitLevel.mk 10 [7] 5 1).order_count - 1) :=
  ⟨by decide, c5_pop_frame (LimitLevel.mk 10 [7] 5 1) (by decide)⟩

/-! ### Claim C8: pool exhaustion is a pure rejection after the ack -/

/-- C8: when the free list is empty, `process_new_order` logs the
`NewOrderAck` (the ack precedes the allocation attempt), advances the
clock by one, and changes nothing else: no trade is emitted, nothing
rests, and the books, index and pool are untouched. -/
theorem c8_exhausted_frame (s : OrderBookState) (id : Nat) (side : Side) (price : Int)
    (qty : Nat) (hfree : s.free = []) :
    processNewOrder id side price qty s =
      { s with time := s.time + 1,
               log := s.log ++ [Event.newOrder (s.time + 1) id side price qty] } := by
  simp [processNewOrder, hfree]

/-- Witness for C8 on a zero-capacity book. -/
theorem c8_exhausted_frame_witness :
    (initState 0).free = [] ∧
    processNewOrder 1 Side.BUY 5 7 (initState 0) =
      { initState 0 with
          time := (initState 0).time + 1,
          log := (initState 0).log ++ [Event.newOrder ((initState 0).time + 1) 1 Side.BUY 5 7] } :=
  ⟨rfl, c8_exhausted_frame (initState 0) 1 Side.BUY 5 7 rfl⟩

/-! ### Claim C10: zero-quantity new orders -/

/-- C10 (counterexample): with a live order of the same id already
indexed, a zero-quantity new order does change the Index — the insert
overwrites the live binding and the fill-cleanup erases it, so the
previously indexed id disappears. -/
theorem c10_zero_qty_counterexample :
    (processNewOrder 1 Side.BUY 7 0
        (runCmds (initState 4) [Cmd.newOrder 1 Side.SELL 10 5])).index ≠
      (runCmds (initState 4) [Cmd.newOrder 1 Side.SELL 10 5]).index := by
  decide

/-- C10 (amended): provided the incoming id is not currently bound in the
Index, a zero-quantity new order appends exactly one `NewOrderAck` and no
trade, never rests, and leaves the books, the best prices, the Index and
the pool free-list unchanged (the order counts as filled, so the id is
unindexed and the slot deallocated before the call returns). -/
theorem c10_zero_qty_frame (s : OrderBookState) (id : Nat) (side : Side) (price : Int)
    (hfresh : idxFind id s.index = none) :
    (processNewOrder id side price 0 s).log =
        s.log ++ [Event.newOrder (s.time + 1) id side price 0] ∧
    (processNewOrder id side price 0 s).bids = s.bids ∧
    (processNewOrder id side price 0 s).asks = s.asks ∧
    (processNewOrder id side price 0 s).index = s.index ∧
    (processNewOrder id side price 0 s).free = s.free ∧
    bestBid (processNewOrder id side price 0 s) = bestBid s ∧
    bestAsk (processNewOrder id side price 0 s) = bestAsk s := by
  cases hf : s.free with
  | nil =>
    rw [c8_exhausted_frame s id side price 0 hf]
    exact ⟨rfl, rfl, rfl, rfl, by simp [hf], rfl, rfl⟩
  | cons h t =>
    cases side with
    | BUY =>
      simp only [processNewOrder, hf, matchOrderBuyGo_of_filled, bestBid, bestAsk]
      exact ⟨rfl, rfl, rfl, idxErase_idxInsert_of_find_none id h s.index hfresh, rfl, rfl, rfl⟩
    | SELL =>
      simp only [processNewOrder, hf, matchOrderSellGo_of_filled, bestBid, bestAsk]
      exact ⟨rfl, rfl, rfl, idxErase_idxInsert_of_find_none id h s.index hfresh, rfl, rfl, rfl⟩

/-- Witness for C10's amended theorem: a fresh id on a book with one
resting ask. -/
theorem c10_zero_qty_frame_witness :
    idxFind 1 (runCmds (initState 4) [Cmd.newOrder 2 Side.SELL 10 5]).index = none ∧
    ((processNewOrder 1 Side.BUY 7 0
        (runCmds (initState 4) [Cmd.newOrder 2 Side.SELL 10 5])).log =
      (runCmds (initState 4) [Cmd.newOrder 2 Side.SELL 10 5]).log ++
        [Event.newOrder ((runCmds (initState 4) [Cmd.newOrder 2 Side.SELL 10 5]).time + 1)
          1 Side.BUY 7 0] ∧
    (processNewOrder 1 Side.BUY 7 0
        (runCmds (initState 4) [Cmd.newOrder 2 Side.SELL 10 5])).bids =
      (runCmds (initState 4) [Cmd.newOrder 2 Side.SELL 10 5]).bids ∧
    (processNewOrder 1 Side.BUY 7 0
        (runCmds (initState 4) [Cmd.newOrder 2 Side.SELL 10 5])).asks =
      (runCmds (initState 4) [Cmd.newOrder 2 Side.SELL 10 5]).asks ∧
    (processNewOrder 1 Side.BUY 7 0
        (runCmds (initState 4) [Cmd.newOrder 2 Side.SELL 10 5])).index =
      (runCmds (initState 4) [Cmd.newOrder 2 Side.SELL 10 5]).index ∧
    (processNewOrder 1 Side.BUY 7 0
        (runCmds (initState 4) [Cmd.newOrder 2 Side.SELL 10 5])).free =
      (runCmds (initState 4) [Cmd.newOrder 2 Side.SELL 10 5]).free ∧
    bestBid (processNewOrder 1 Side.BUY 7 0
        (runCmds (initState 4) [Cmd.newOrder 2 Side.SELL 10 5])) =
      bestBid (runCmds (initState 4) [Cmd.newOrder 2 Side.SELL 10 5]) ∧
    bestAsk (processNewOrder 1 Side.BUY 7 0
        (runCmds (initState 4) [Cmd.newOrder 2 Side.SELL 10 5])) =
      bestAsk (runCmds (initState 4) [Cmd.newOrder 2 Side.SELL 10 5])) :=
  ⟨by decide, c10_zero_qty_frame (runCmds (initState 4) [Cmd.newOrder 2 Side.SELL 10 5])
    1 Side.BUY 7 (by decide)⟩

/-! ### Claim C6: the crossing predicate at the best level -/

/-- C6: inside the match loop an unfilled BUY trades against the current
best level iff `aggressive.price ≥ level price`, an unfilled SELL iff
`aggressive.price ≤ level price`, and a level that fails the predicate
stops matching entirely (the loop returns with the book and state
untouched, deeper levels never examined).  In the crossing case at a
non-empty level, at least one trade event is appended and every appended
event is a trade. -/
theorem c6_crossing_boundary (agg : Order) (p : Int) (L : LimitLevel)
    (rest : List (Int × LimitLevel)) (s : OrderBookState)
    (hq : agg.remaining_qty ≠ 0) (hord : L.orders ≠ []) :
    (agg.price < p →
      matchOrderBuyGo agg ((p, L) :: rest) s = ⟨agg, (p, L) :: rest, s⟩) ∧
    (p ≤ agg.price →
      ∃ tr : List Event, (matchOrderBuyGo agg ((p, L) :: rest) s).st.log = s.log ++ tr ∧
        tr ≠ [] ∧ ∀ e ∈ tr, e.isTrade = true) ∧
    (p < agg.price →
      matchOrderSellGo agg ((p, L) :: rest) s = ⟨agg, (p, L) :: rest, s⟩) ∧
    (agg.price ≤ p →
      ∃ tr : List Event, (matchOrderSellGo agg ((p, L) :: rest) s).st.log = s.log ++ tr ∧
        tr ≠ [] ∧ ∀ e ∈ tr, e.isTrade = true) := by
  refine ⟨?_, ?_, ?_, ?_⟩
  · intro hlt
    simp [matchOrderBuyGo, hq, hlt]
  · intro hle
    have hp : ¬agg.price < p := not_lt.mpr hle
    obtain ⟨tr, htr, hall⟩ := matchOrderBuyGo_log agg ((p, L) :: rest) s
    refine ⟨tr, htr, ?_, hall⟩
    intro hnil
    have := matchOrderBuyGo_log_len_gt agg p L rest s hq hp hord
    rw [htr, hnil] at this
    simp at this
  · intro hlt
    simp [matchOrderSellGo, hq, hlt]
  · intro hle
    have hp : ¬p < agg.price := not_lt.mpr hle
    obtain ⟨tr, htr, hall⟩ := matchOrderSellGo_log agg ((p, L) :: rest) s
    refine ⟨tr, htr, ?_, hall⟩
    intro hnil
    have := matchOrderSellGo_log_len_gt agg p L rest s hq hp hord
    rw [htr, hnil] at this
    simp at this

/-- Witness for C6 at a concrete book: a BUY at exactly the best ask
price (which must trade) and the same data seen as a SELL boundary. -/
theorem c6_crossing_boundary_witness :
    (Order.mk 9 1 Side.BUY 100 5 5).remaining_qty ≠ 0 ∧
    (LimitLevel.mk 100 [0] 5 1).orders ≠ [] ∧
    (((Order.mk 9 1 Side.BUY 100 5 5).price < 100 →
      matchOrderBuyGo (Order.mk 9 1 Side.BUY 100 5 5)
          [(100, LimitLevel.mk 100 [0] 5 1)] (initState 1) =
        ⟨Order.mk 9 1 Side.BUY 100 5 5, [(100, LimitLevel.mk 100 [0] 5 1)], initState 1⟩) ∧
    ((100 : Int) ≤ (Order.mk 9 1 Side.BUY 100 5 5).price →
      ∃ tr : List Event,
        (matchOrderBuyGo (Order.mk 9 1 Side.BUY 100 5 5)
            [(100, LimitLevel.mk 100 [0] 5 1)] (initState 1)).st.log =
          (initState 1).log ++ tr ∧ tr ≠ [] ∧ ∀ e ∈ tr, e.isTrade = true) ∧
    ((100 : Int) < (Order.mk 9 1 Side.BUY 100 5 5).price →
      matchOrderSellGo (Order.mk 9 1 Side.BUY 100 5 5)
          [(100, LimitLevel.mk 100 [0] 5 1)] (initState 1) =
        ⟨Order.mk 9 1 Side.BUY 100 5 5, [(100, LimitLevel.mk 100 [0] 5 1)], initState 1⟩) ∧
    ((Order.mk 9 1 Side.BUY 100 5 5).price ≤ 100 →
      ∃ tr : List Event,
        (matchOrderSellGo (Order.mk 9 1 Side.BUY 100 5 5)
            [(100, LimitLevel.mk 100 [0] 5 1)] (initState 1)).st.log =
          (initState 1).log ++ tr ∧ tr ≠ [] ∧ ∀ e ∈ tr, e.isTrade = true)) :=
  ⟨by decide, by decide,
    c6_crossing_boundary (Order.mk 9 1 Side.BUY 100 5 5) 100 (LimitLevel.mk 100 [0] 5 1)
      [] (initState 1) (by decide) (by decide)⟩

/-! ### Clock/log invariant: every event advances the clock by one -/

theorem range'_one_concat (n : Nat) :
    List.range' 1 (n + 1) = List.range' 1 n ++ [n + 1] := by
  simpa [Nat.add_comm] using @List.range'_concat 1 1 n

theorem matchLevel_clock (agg : Order) (hs : List Nat) (vol cnt : Nat) (price : Int)
    (s : OrderBookState) (ht : s.time = s.log.length)
    (hm : s.log.map Event.ts = List.range' 1 s.log.length) :
    (matchLevel agg hs vol cnt price s).st.time =
        (matchLevel agg hs vol cnt price s).st.log.length ∧
      (matchLevel agg hs vol cnt price s).st.log.map Event.ts =
        List.range' 1 (matchLevel agg hs vol cnt price s).st.log.length := by
  induction hs generalizing agg vol cnt s with
  | nil => exact ⟨ht, hm⟩
  | cons h rest ih =>
    by_cases hq : agg.remaining_qty = 0
    · simp only [matchLevel, hq, if_true]
      exact ⟨ht, hm⟩
    · simp only [matchLevel, hq, if_false]
      split
      · apply ih
        · simp [ht]
        · simp only [List.map_append, List.length_append, hm, ht]
          simp [Event.ts, range'_one_concat]
      · constructor
        · simp [ht]
        · simp only [List.map_append, List.length_append, hm, ht]
          simp [Event.ts, range'_one_concat]

theorem matchOrderBuyGo_clock (agg : Order) (asks : List (Int × LimitLevel))
    (s : OrderBookState) (ht : s.time = s.log.length)
    (hm : s.log.map Event.ts = List.range' 1 s.log.length) :
    (matchOrderBuyGo agg asks s).st.time = (matchOrderBuyGo agg asks s).st.log.length ∧
      (matchOrderBuyGo agg asks s).st.log.map Event.ts =
        List.range' 1 (matchOrderBuyGo agg asks s).st.log.length := by
  induction asks generalizing agg s with
  | nil => exact ⟨ht, hm⟩
  | cons a rest ih =>
    obtain ⟨p, L⟩ := a
    by_cases hq : agg.remaining_qty = 0
    · simp only [matchOrderBuyGo, hq, if_true]
      exact ⟨ht, hm⟩
    · by_cases hp : agg.price < p
      · simp only [matchOrderBuyGo, hq, hp, if_true, if_false]
        exact ⟨ht, hm⟩
      · simp only [matchOrderBuyGo, hq, hp, if_false]
        have hlev := matchLevel_clock agg L.orders L.total_volume L.order_count p s ht hm
        split
        · exact ih _ _ hlev.1 hlev.2
        · exact ih _ _ hlev.1 hlev.2

theorem matchOrderSellGo_clock (agg : Order) (bids : List (Int × LimitLevel))
    (s : OrderBookState) (ht : s.time = s.log.length)
    (hm : s.log.map Event.ts = List.range' 1 s.log.length) :
    (matchOrderSellGo agg bids s).st.time = (matchOrderSellGo agg bids s).st.log.length ∧
      (matchOrderSellGo agg bids s).st.log.map Event.ts =
        List.range' 1 (matchOrderSellGo agg bids s).st.log.length := by
  induction bids generalizing agg s with
  | nil => exact ⟨ht, hm⟩
  | cons a rest ih =>
    obtain ⟨p, L⟩ := a
    by_cases hq : agg.remaining_qty = 0
    · simp only [matchOrderSellGo, hq, if_true]
      exact ⟨ht, hm⟩
    · by_cases hp : p < agg.price
      · simp only [matchOrderSellGo, hq, hp, if_true, if_false]
        exact ⟨ht, hm⟩
      · simp only [matchOrderSellGo, hq, hp, if_false]
        have hlev := matchLevel_clock agg L.orders L.total_volume L.order_count p s ht hm
        split
        · exact ih _ _ hlev.1 hlev.2
        · exact ih _ _ hlev.1 hlev.2

theorem processNewOrder_clock (id : Nat) (side : Side) (price : Int) (qty : Nat)
    (s : OrderBookState) (ht : s.time = s.log.length)
    (hm : s.log.map Event.ts = List.range' 1 s.log.length) :
    (processNewOrder id side price qty s).time =
        (processNewOrder id side price qty s).log.length ∧
      (processNewOrder id side price qty s).log.map Event.ts =
        List.range' 1 (processNewOrder id side price qty s).log.length := by
  have hack1 : (s.log ++ [Event.newOrder (s.time + 1) id side price qty]).map Event.ts =
      List.range' 1 (s.log ++ [Event.newOrder (s.time + 1) id side price qty]).length := by
    simp only [List.map_append, List.length_append, hm, ht]
    simp [Event.ts, range'_one_concat]
  have hack2 : s.time + 1 =
      (s.log ++ [Event.newOrder (s.time + 1) id side price qty]).length := by
    simp [ht]
  cases hf : s.free with
  | nil =>
    simp only [processNewOrder, hf]
    exact ⟨hack2, hack1⟩
  | cons h t =>
    cases side with
    | BUY =>
      simp only [processNewOrder, hf]
      split
      · exact ⟨(matchOrderBuyGo_clock _ _ _ hack2 hack1).1,
          (matchOrderBuyGo_clock _ _ _ hack2 hack1).2⟩
      · exact ⟨(matchOrderBuyGo_clock _ _ _ hack2 hack1).1,
          (matchOrderBuyGo_clock _ _ _ hack2 hack1).2⟩
    | SELL =>
      simp only [processNewOrder, hf]
      split
      · exact ⟨(matchOrderSellGo_clock _ _ _ hack2 hack1).1,
          (matchOrderSellGo_clock _ _ _ hack2 hack1).2⟩
      · exact ⟨(matchOrderSellGo_clock _ _ _ hack2 hack1).1,
          (matchOrderSellGo_clock _ _ _ hack2 hack1).2⟩

theorem processCancel_clock (id : Nat) (s : OrderBookState) (ht : s.time = s.log.length)
    (hm : s.log.map Event.ts = List.range' 1 s.log.length) :
    (processCancel id s).time = (processCancel id s).log.length ∧
      (processCancel id s).log.map Event.ts =
        List.range' 1 (processCancel id s).log.length := by
  have hack1 : (s.log ++ [Event.cancelOrder (s.time + 1) id]).map Event.ts =
      List.range' 1 (s.log ++ [Event.cancelOrder (s.time + 1) id]).length := by
    simp only [List.map_append, List.length_append, hm, ht]
    simp [Event.ts, range'_one_concat]
  have hack2 : s.time + 1 = (s.log ++ [Event.cancelOrder (s.time + 1) id]).length := by
    simp [ht]
  simp only [processCancel]
  split
  · exact ⟨hack2, hack1⟩
  · split <;> exact ⟨hack2, hack1⟩

theorem runCmds_clock (cs : List Cmd) (s : OrderBookState) (ht : s.time = s.log.length)
    (hm : s.log.map Event.ts = List.range' 1 s.log.length) :
    (runCmds s cs).time = (runCmds s cs).log.length ∧
      (runCmds s cs).log.map Event.ts = List.range' 1 (runCmds s cs).log.length := by
  induction cs generalizing s with
  | nil => exact ⟨ht, hm⟩
  | cons c cs ih =>
    cases c with
    | newOrder id side price qty =>
      exact ih _ (processNewOrder_clock id side price qty s ht hm).1
        (processNewOrder_clock id side price qty s ht hm).2
    | cancel id =>
      exact ih _ (processCancel_clock id s ht hm).1 (processCancel_clock id s ht hm).2

/-! ### Claim C7: the logical clock -/

/-- C7: after any command sequence from a fresh engine, the `i`-th event
of the log carries timestamp `i + 1` — the clock is advanced by exactly
one immediately before each event is recorded — and consequently the
timestamps of successive log events are strictly increasing. -/
theorem c7_clock_increments (capacity : Nat) (cs : List Cmd) :
    (runCmds (initState capacity) cs).log.map Event.ts =
        List.range' 1 (runCmds (initState capacity) cs).log.length ∧
      ((runCmds (initState capacity) cs).log.map Event.ts).Pairwise (· < ·) := by
  have h := runCmds_clock cs (initState capacity) rfl rfl
  refine ⟨h.2, ?_⟩
  rw [h.2]
  exact List.pairwise_lt_range' 1 _

/-! ### Structural lemmas about the match loops -/

theorem matchLevel_frame (agg : Order) (hs : List Nat) (vol cnt : Nat) (price : Int)
    (s : OrderBookState) :
    (matchLevel agg hs vol cnt price s).st.bids = s.bids ∧
      (matchLevel agg hs vol cnt price s).st.asks = s.asks := by
  induction hs generalizing agg vol cnt s with
  | nil => exact ⟨rfl, rfl⟩
  | cons h rest ih =>
    by_cases hq : agg.remaining_qty = 0
    · simp [matchLevel, hq]
    · simp only [matchLevel, hq, if_false]
      split
      · exact ih _ _ _ _
      · exact ⟨rfl, rfl⟩

theorem matchLevel_agg_fix (agg : Order) (hs : List Nat) (vol cnt : Nat) (price : Int)
    (s : OrderBookState) :
    (matchLevel agg hs vol cnt price s).agg.id = agg.id ∧
      (matchLevel agg hs vol cnt price s).agg.side = agg.side ∧
      (matchLevel agg hs vol cnt price s).agg.price = agg.price ∧
      (matchLevel agg hs vol cnt price s).agg.timestamp = agg.timestamp ∧
      (matchLevel agg hs vol cnt price s).agg.original_qty = agg.original_qty := by
  induction hs generalizing agg vol cnt s with
  | nil => exact ⟨rfl, rfl, rfl, rfl, rfl⟩
  | cons h rest ih =>
    by_cases hq : agg.remaining_qty = 0
    · simp [matchLevel, hq]
    · simp only [matchLevel, hq, if_false]
      split
      · exact ih _ _ _ _
      · exact ⟨rfl, rfl, rfl, rfl, rfl⟩

theorem matchLevel_dichotomy (agg : Order) (hs : List Nat) (vol cnt : Nat) (price : Int)
    (s : OrderBookState) :
    (matchLevel agg hs vol cnt price s).orders = [] ∨
      (matchLevel agg hs vol cnt price s).agg.remaining_qty = 0 := by
  induction hs generalizing agg vol cnt s with
  | nil => exact Or.inl rfl
  | cons h rest ih =>
    by_cases hq : agg.remaining_qty = 0
    · simp [matchLevel, hq]
    · simp only [matchLevel, hq, if_false]
      split
      · exact ih _ _ _ _
      · rename_i hpass
        refine Or.inr ?_
      
        rcases Nat.le_total agg.remaining_qty (slotGet s.slots h).remaining_qty with hle | hle
        · simp [Nat.min_eq_left hle]
        · exfalso
          exact hpass (by simp [Nat.min_eq_right hle])

theorem matchOrderBuyGo_frame (agg : Order) (asks : List (Int × LimitLevel))
    (s : OrderBookState) :
    (matchOrderBuyGo agg asks s).st.bids = s.bids ∧
      (matchOrderBuyGo agg asks s).st.asks = s.asks := by
  induction asks generalizing agg s with
  | nil => exact ⟨rfl, rfl⟩
  | cons a rest ih =>
    obtain ⟨p, L⟩ := a
    by_cases hq : agg.remaining_qty = 0
    · simp [matchOrderBuyGo, hq]
    · by_cases hp : agg.price < p
      · simp [matchOrderBuyGo, hq, hp]
      · simp only [matchOrderBuyGo, hq, hp, if_false]
        have hfr := matchLevel_frame agg L.orders L.total_volume L.order_count p s
        split
        · exact ⟨(ih _ _).1.trans hfr.1, (ih _ _).2.trans hfr.2⟩
        · exact ⟨(ih _ _).1.trans hfr.1, (ih _ _).2.trans hfr.2⟩

theorem matchOrderSellGo_frame (agg : Order) (bids : List (Int × LimitLevel))
    (s : OrderBookState) :
    (matchOrderSellGo agg bids s).st.bids = s.bids ∧
      (matchOrderSellGo agg bids s).st.asks = s.asks := by
  induction bids generalizing agg s with
  | nil => exact ⟨rfl, rfl⟩
  | cons a rest ih =>
    obtain ⟨p, L⟩ := a
    by_cases hq : agg.remaining_qty = 0
    · simp [matchOrderSellGo, hq]
    · by_cases hp : p < agg.price
      · simp [matchOrderSellGo, hq, hp]
      · simp only [matchOrderSellGo, hq, hp, if_false]
        have hfr := matchLevel_frame agg L.orders L.total_volume L.order_count p s
        split
        · exact ⟨(ih _ _).1.trans hfr.1, (ih _ _).2.trans hfr.2⟩
        · exact ⟨(ih _ _).1.trans hfr.1, (ih _ _).2.trans hfr.2⟩

theorem matchOrderBuyGo_agg_fix (agg : Order) (asks : List (Int × LimitLevel))
    (s : OrderBookState) :
    (matchOrderBuyGo agg asks s).agg.id = agg.id ∧
      (matchOrderBuyGo agg asks s).agg.side = agg.side ∧
      (matchOrderBuyGo agg asks s).agg.price = agg.price ∧
      (matchOrderBuyGo agg asks s).agg.timestamp = agg.timestamp ∧
      (matchOrderBuyGo agg asks s).agg.original_qty = agg.original_qty := by
  induction asks generalizing agg s with
  | nil => exact ⟨rfl, rfl, rfl, rfl, rfl⟩
  | cons a rest ih =>
    obtain ⟨p, L⟩ := a
    by_cases hq : agg.remaining_qty = 0
    · simp [matchOrderBuyGo, hq]
    · by_cases hp : agg.price < p
      · simp [matchOrderBuyGo, hq, hp]
      · simp only [matchOrderBuyGo, hq, hp, if_false]
        have hml := matchLevel_agg_fix agg L.orders L.total_volume L.order_count p s
        split
        · obtain ⟨a1, a2, a3, a4, a5⟩ := ih (matchLevel agg L.orders L.total_volume L.order_count p s).agg
            (matchLevel agg L.orders L.total_volume L.order_count p s).st
          exact ⟨a1.trans hml.1, a2.trans hml.2.1, a3.trans hml.2.2.1,
            a4.trans hml.2.2.2.1, a5.trans hml.2.2.2.2⟩
        · obtain ⟨a1, a2, a3, a4, a5⟩ := ih (matchLevel agg L.orders L.total_volume L.order_count p s).agg
            (matchLevel agg L.orders L.total_volume L.order_count p s).st
          exact ⟨a1.trans hml.1, a2.trans hml.2.1, a3.trans hml.2.2.1,
            a4.trans hml.2.2.2.1, a5.trans hml.2.2.2.2⟩

theorem matchOrderSellGo_agg_fix (agg : Order) (bids : List (Int × LimitLevel))
    (s : OrderBookState) :
    (matchOrderSellGo agg bids s).agg.id = agg.id ∧
      (matchOrderSellGo agg bids s).agg.side = agg.side ∧
      (matchOrderSellGo agg bids s).agg.price = agg.price ∧
      (matchOrderSellGo agg bids s).agg.timestamp = agg.timestamp ∧
      (matchOrderSellGo agg bids s).agg.original_qty = agg.original_qty := by
  induction bids generalizing agg s with
  | nil => exact ⟨rfl, rfl, rfl, rfl, rfl⟩
  | cons a rest ih =>
    obtain ⟨p, L⟩ := a
    by_cases hq : agg.remaining_qty = 0
    · simp [matchOrderSellGo, hq]
    · by_cases hp : p < agg.price
      · simp [matchOrderSellGo, hq, hp]
      · simp only [matchOrderSellGo, hq, hp, if_false]
        have hml := matchLevel_agg_fix agg L.orders L.total_volume L.order_count p s
        split
        · obtain ⟨a1, a2, a3, a4, a5⟩ := ih (matchLevel agg L.orders L.total_volume L.order_count p s).agg
            (matchLevel agg L.orders L.total_volume L.order_count p s).st
          exact ⟨a1.trans hml.1, a2.trans hml.2.1, a3.trans hml.2.2.1,
            a4.trans hml.2.2.2.1, a5.trans hml.2.2.2.2⟩
        · obtain ⟨a1, a2, a3, a4, a5⟩ := ih (matchLevel agg L.orders L.total_volume L.order_count p s).agg
            (matchLevel agg L.orders L.total_volume L.order_count p s).st
          exact ⟨a1.trans hml.1, a2.trans hml.2.1, a3.trans hml.2.2.1,
            a4.trans hml.2.2.2.1, a5.trans hml.2.2.2.2⟩

theorem matchOrderBuyGo_keys_suffix (agg : Order) (asks : List (Int × LimitLevel))
    (s : OrderBookState) :
    ((matchOrderBuyGo agg asks s).levels.map Prod.fst) <:+ (asks.map Prod.fst) := by
  induction asks generalizing agg s with
  | nil => simp [matchOrderBuyGo]
  | cons a rest ih =>
    obtain ⟨p, L⟩ := a
    by_cases hq : agg.remaining_qty = 0
    · simp [matchOrderBuyGo, hq]
    · by_cases hp : agg.price < p
      · simp [matchOrderBuyGo, hq, hp]
      · simp only [matchOrderBuyGo, hq, hp, if_false]
        split
        · exact (ih _ _).trans (List.suffix_cons p (rest.map Prod.fst))
        · rename_i hne
          rcases matchLevel_dichotomy agg L.orders L.total_volume L.order_count p s with hemp | hfil
          · simp [hemp] at hne
          · rw [matchOrderBuyGo_of_filled _ _ _ hfil]
            simp

theorem matchOrderSellGo_keys_suffix (agg : Order) (bids : List (Int × LimitLevel))
    (s : OrderBookState) :
    ((matchOrderSellGo agg bids s).levels.map Prod.fst) <:+ (bids.map Prod.fst) := by
  induction bids generalizing agg s with
  | nil => simp [matchOrderSellGo]
  | cons a rest ih =>
    obtain ⟨p, L⟩ := a
    by_cases hq : agg.remaining_qty = 0
    · simp [matchOrderSellGo, hq]
    · by_cases hp : p < agg.price
      · simp [matchOrderSellGo, hq, hp]
      · simp only [matchOrderSellGo, hq, hp, if_false]
        split
        · exact (ih _ _).trans (List.suffix_cons p (rest.map Prod.fst))
        · rename_i hne
          rcases matchLevel_dichotomy agg L.orders L.total_volume L.order_count p s with hemp | hfil
          · simp [hemp] at hne
          · rw [matchOrderSellGo_of_filled _ _ _ hfil]
            simp

theorem matchOrderBuyGo_break (agg : Order) (asks : List (Int × LimitLevel))
    (s : OrderBookState) (hres : (matchOrderBuyGo agg asks s).agg.remaining_qty ≠ 0) :
    (matchOrderBuyGo agg asks s).levels = [] ∨
      ∃ pa : Int, ((matchOrderBuyGo agg asks s).levels.map Prod.fst).head? = some pa ∧
        agg.price < pa := by
  induction asks generalizing agg s with
  | nil => exact Or.inl (by simp [matchOrderBuyGo])
  | cons a rest ih =>
    obtain ⟨p, L⟩ := a
    by_cases hq : agg.remaining_qty = 0
    · rw [matchOrderBuyGo_of_filled _ _ _ hq] at hres
      exact absurd hq hres
    · by_cases hp : agg.price < p
      · refine Or.inr ⟨p, ?_, hp⟩
        simp [matchOrderBuyGo, hq, hp]
      · simp only [matchOrderBuyGo, hq, hp, if_false] at hres ⊢
        split
        · rename_i hempL
          rw [if_pos hempL] at hres
          rcases ih _ _ hres with hl | ⟨pa, hh, hlt⟩
          · exact Or.inl hl
          · refine Or.inr ⟨pa, hh, ?_⟩
            have := (matchLevel_agg_fix agg L.orders L.total_volume L.order_count p s).2.2.1
            rwa [this] at hlt
        · rename_i hne
          rcases matchLevel_dichotomy agg L.orders L.total_volume L.order_count p s with hemp | hfil
          · simp [hemp] at hne
          · rw [if_neg hne] at hres
            rw [matchOrderBuyGo_of_filled _ _ _ hfil] at hres
            exact absurd hfil hres

theorem matchOrderSellGo_break (agg : Order) (bids : List (Int × LimitLevel))
    (s : OrderBookState) (hres : (matchOrderSellGo agg bids s).agg.remaining_qty ≠ 0) :
    (matchOrderSellGo agg bids s).levels = [] ∨
      ∃ pb : Int, ((matchOrderSellGo agg bids s).levels.map Prod.fst).head? = some pb ∧
        pb < agg.price := by
  induction bids generalizing agg s with
  | nil => exact Or.inl (by simp [matchOrderSellGo])
  | cons a rest ih =>
    obtain ⟨p, L⟩ := a
    by_cases hq : agg.remaining_qty = 0
    · rw [matchOrderSellGo_of_filled _ _ _ hq] at hres
      exact absurd hq hres
    · by_cases hp : p < agg.price
      · refine Or.inr ⟨p, ?_, hp⟩
        simp [matchOrderSellGo, hq, hp]
      · simp only [matchOrderSellGo, hq, hp, if_false] at hres ⊢
        split
        · rename_i hempL
          rw [if_pos hempL] at hres
          rcases ih _ _ hres with hl | ⟨pb, hh, hlt⟩
          · exact Or.inl hl
          · refine Or.inr ⟨pb, hh, ?_⟩
            have := (matchLevel_agg_fix agg L.orders L.total_volume L.order_count p s).2.2.1
            rwa [this] at hlt
        · rename_i hne
          rcases matchLevel_dichotomy agg L.orders L.total_volume L.order_count p s with hemp | hfil
          · simp [hemp] at hne
          · rw [if_neg hne] at hres
            rw [matchOrderSellGo_of_filled _ _ _ hfil] at hres
            exact absurd hfil hres

/-! ### Sorted-insert lemmas for `add_to_book` -/

theorem addToLevels_keys_mem (before : Int → Int → Prop) [DecidableRel before] (p : Int) (h rem : Nat)
    (m : List (Int × LimitLevel)) (x : Int)
    (hx : x ∈ (addToLevels before p h rem m).map Prod.fst) :
    x = p ∨ x ∈ m.map Prod.fst := by
  induction m with
  | nil => simpa [addToLevels] using hx
  | cons a rest ih =>
    obtain ⟨q, L⟩ := a
    by_cases hpq : p = q
    · simp only [addToLevels, hpq, if_true] at hx
      rcases (by simpa using hx : x = q ∨ x ∈ rest.map Prod.fst) with h1 | h1
      · exact Or.inr (by simp [h1])
      · exact Or.inr (by simp [h1])
    · by_cases hb : before p q
      · simp only [addToLevels, hpq, hb, if_true, if_false] at hx
        rcases (by simpa using hx : x = p ∨ x = q ∨ x ∈ rest.map Prod.fst) with h1 | h1 | h1
        · exact Or.inl h1
        · exact Or.inr (by simp [h1])
        · exact Or.inr (by simp [h1])
      · simp only [addToLevels, hpq, hb, if_false] at hx
        rcases (by simpa using hx :
            x = q ∨ x ∈ (addToLevels before p h rem rest).map Prod.fst) with h1 | h1
        · exact Or.inr (by simp [h1])
        · rcases ih h1 with h2 | h2
          · exact Or.inl h2
          · exact Or.inr (by simp [h2])

theorem addToLevels_keys_head (before : Int → Int → Prop) [DecidableRel before] (p : Int) (h rem : Nat)
    (m : List (Int × LimitLevel)) :
    ((addToLevels before p h rem m).map Prod.fst).head? = some p ∨
      ((addToLevels before p h rem m).map Prod.fst).head? = (m.map Prod.fst).head? := by
  cases m with
  | nil => exact Or.inl (by simp [addToLevels])
  | cons a rest =>
    obtain ⟨q, L⟩ := a
    by_cases hpq : p = q
    · exact Or.inr (by simp [addToLevels, hpq])
    · by_cases hb : before p q
      · exact Or.inl (by simp [addToLevels, hpq, hb])
      · exact Or.inr (by simp [addToLevels, hpq, hb])

theorem addToLevels_sorted_desc (p : Int) (h rem : Nat) (m : List (Int × LimitLevel))
    (hs : (m.map Prod.fst).Pairwise (fun a b => b < a)) :
    ((addToLevels bidBefore p h rem m).map Prod.fst).Pairwise (fun a b => b < a) := by
  induction m with
  | nil => simp [addToLevels]
  | cons a rest ih =>
    obtain ⟨q, L⟩ := a
    simp only [List.map_cons, List.pairwise_cons] at hs
    by_cases hpq : p = q
    · simp only [addToLevels, hpq, if_true, List.map_cons, List.pairwise_cons]
      exact hs
    · by_cases hb : bidBefore p q
      · have hqp : q < p := by simpa [bidBefore] using hb
        simp only [addToLevels, hpq, hb, if_true, if_false, List.map_cons, List.pairwise_cons]
        refine ⟨?_, hs⟩
        intro x hx
        rcases (by simpa using hx : x = q ∨ x ∈ rest.map Prod.fst) with h1 | h1
        · exact h1 ▸ hqp
        · exact (hs.1 x h1).trans hqp
      · have hpq' : p < q := by
          have : ¬q < p := hb
          omega
        simp only [addToLevels, hpq, hb, if_false, List.map_cons, List.pairwise_cons]
        refine ⟨?_, ih hs.2⟩
        intro x hx
        rcases addToLevels_keys_mem bidBefore p h rem rest x hx with h1 | h1
        · exact h1 ▸ hpq'
        · exact hs.1 x h1

theorem addToLevels_sorted_asc (p : Int) (h rem : Nat) (m : List (Int × LimitLevel))
    (hs : (m.map Prod.fst).Pairwise (fun a b => a < b)) :
    ((addToLevels askBefore p h rem m).map Prod.fst).Pairwise (fun a b => a < b) := by
  induction m with
  | nil => simp [addToLevels]
  | cons a rest ih =>
    obtain ⟨q, L⟩ := a
    simp only [List.map_cons, List.pairwise_cons] at hs
    by_cases hpq : p = q
    · simp only [addToLevels, hpq, if_true, List.map_cons, List.pairwise_cons]
      exact hs
    · by_cases hb : askBefore p q
      · have hqp : p < q := by simpa [askBefore] using hb
        simp only [addToLevels, hpq, hb, if_true, if_false, List.map_cons, List.pairwise_cons]
        refine ⟨?_, hs⟩
        intro x hx
        rcases (by simpa using hx : x = q ∨ x ∈ rest.map Prod.fst) with h1 | h1
        · exact h1 ▸ hqp
        · exact hqp.trans (hs.1 x h1)
      · have hpq' : q < p := by
          have : ¬p < q := hb
          omega
        simp only [addToLevels, hpq, hb, if_false, List.map_cons, List.pairwise_cons]
        refine ⟨?_, ih hs.2⟩
        intro x hx
        rcases addToLevels_keys_mem askBefore p h rem rest x hx with h1 | h1
        · exact h1 ▸ hpq'
        · exact hs.1 x h1

/-! ### Key lemmas for `remove_from_level` -/

theorem unlinkInLevels_keys_sublist (p : Int) (h rem : Nat) (m : List (Int × LimitLevel)) :
    List.Sublist ((unlinkInLevels p h rem m).map Prod.fst) (m.map Prod.fst) := by
  induction m with
  | nil => simp [unlinkInLevels]
  | cons a rest ih =>
    obtain ⟨q, L⟩ := a
    by_cases hpq : p = q
    · simp only [unlinkInLevels, hpq, if_true]
      split
      · exact (List.sublist_cons_self q (rest.map Prod.fst))
      · simp
    · simp only [unlinkInLevels, hpq, if_false, List.map_cons]
      exact ih.cons₂ q

/-! ### Head/order helper lemmas on integer key lists -/

theorem sorted_asc_head_le (l : List Int) (hs : l.Pairwise (fun a b => a < b)) (a x : Int)
    (hh : l.head? = some a) (hx : x ∈ l) : a ≤ x := by
  cases l with
  | nil => simp at hh
  | cons b t =>
    have hab : b = a := by simpa using hh
    subst hab
    rcases List.mem_cons.mp hx with h1 | h1
    · exact le_of_eq h1.symm
    · exact le_of_lt ((List.pairwise_cons.mp hs).1 x h1)

theorem sorted_desc_mem_le (l : List Int) (hs : l.Pairwise (fun a b => b < a)) (a x : Int)
    (hh : l.head? = some a) (hx : x ∈ l) : x ≤ a := by
  cases l with
  | nil => simp at hh
  | cons b t =>
    have hab : b = a := by simpa using hh
    subst hab
    rcases List.mem_cons.mp hx with h1 | h1
    · exact le_of_eq h1
    · exact le_of_lt ((List.pairwise_cons.mp hs).1 x h1)

theorem head_mem_of_head_eq_some {l : List Int} {q : Int} (hh : l.head? = some q) : q ∈ l := by
  cases l with
  | nil => simp at hh
  | cons b t =>
    have hbq : b = q := by simpa using hh
    subst hbq
    exact List.mem_cons_self b t

theorem head_exists_of_mem (l : List Int) (x : Int) (hx : x ∈ l) :
    ∃ a, l.head? = some a := by
  cases l with
  | nil => simp at hx
  | cons b t => exact ⟨b, rfl⟩

/-! ### Preservation of the book order invariant -/

theorem processNewOrder_bookInv (id : Nat) (side : Side) (price : Int) (qty : Nat)
    (s : OrderBookState) (hinv : BookInv s) :
    BookInv (processNewOrder id side price qty s) := by
  obtain ⟨hbs, has, hnc⟩ := hinv
  cases hf : s.free with
  | nil =>
    simp only [processNewOrder, hf]
    exact ⟨hbs, has, hnc⟩
  | cons h t =>
    cases side with
    | BUY =>
      simp only [processNewOrder, hf]
      split
      · -- fully filled: bids unchanged, asks are a suffix
        rename_i hfil
        refine ⟨?_, ?_, ?_⟩
        · rw [(matchOrderBuyGo_frame _ _ _).1]
          exact hbs
        · exact List.Pairwise.sublist (matchOrderBuyGo_keys_suffix _ _ _).sublist has
        · intro pb pa hhb hha
          rw [(matchOrderBuyGo_frame _ _ _).1] at hhb
          have hpa_mem : pa ∈ s.asks.map Prod.fst :=
            (matchOrderBuyGo_keys_suffix _ _ _).subset (head_mem_of_head_eq_some hha)
          obtain ⟨a0, ha0⟩ := head_exists_of_mem _ _ hpa_mem
          have h1 : pb < a0 := hnc pb a0 hhb ha0
          have h2 : a0 ≤ pa := sorted_asc_head_le _ has a0 pa ha0 hpa_mem
          omega
      · -- residual rests on the bid side
        rename_i hfil
        refine ⟨?_, ?_, ?_⟩
        · rw [(matchOrderBuyGo_frame _ _ _).1]
          exact addToLevels_sorted_desc _ _ _ _ hbs
        · exact List.Pairwise.sublist (matchOrderBuyGo_keys_suffix _ _ _).sublist has
        · intro pb pa hhb hha
          rw [(matchOrderBuyGo_frame _ _ _).1] at hhb
          rcases matchOrderBuyGo_break _ _ _ hfil with hlev | ⟨pa', hha', hlt⟩
          · rw [hlev] at hha
            simp at hha
          · rw [hha'] at hha
            have hpa : pa = pa' := by simpa using hha.symm
            subst hpa
            have hpa_mem : pa ∈ s.asks.map Prod.fst :=
              (matchOrderBuyGo_keys_suffix _ _ _).subset (head_mem_of_head_eq_some hha')
            rcases addToLevels_keys_head bidBefore price h
                (matchOrderBuyGo (Order.mk id (s.time + 1) Side.BUY price qty qty) s.asks
                  { s with time := s.time + 1,
                           log := s.log ++ [Event.newOrder (s.time + 1) id Side.BUY price qty],
                           free := t,
                           slots := s.slots.set h (Order.mk id (s.time + 1) Side.BUY price qty qty),
                           index := idxInsert id h s.index }).agg.remaining_qty s.bids
              with hhead | hhead
            · rw [hhb] at hhead
              have : pb = price := by simpa using hhead
              subst this
              exact hlt
            · rw [hhb] at hhead
              obtain ⟨a0, ha0⟩ := head_exists_of_mem _ _ hpa_mem
              have h1 : pb < a0 := hnc pb a0 hhead.symm ha0
              have h2 : a0 ≤ pa := sorted_asc_head_le _ has a0 pa ha0 hpa_mem
              omega
    | SELL =>
      simp only [processNewOrder, hf]
      split
      · rename_i hfil
        refine ⟨?_, ?_, ?_⟩
        · exact List.Pairwise.sublist (matchOrderSellGo_keys_suffix _ _ _).sublist hbs
        · rw [(matchOrderSellGo_frame _ _ _).2]
          exact has
        · intro pb pa hhb hha
          rw [(matchOrderSellGo_frame _ _ _).2] at hha
          have hpb_mem : pb ∈ s.bids.map Prod.fst :=
            (matchOrderSellGo_keys_suffix _ _ _).subset (head_mem_of_head_eq_some hhb)
          obtain ⟨b0, hb0⟩ := head_exists_of_mem _ _ hpb_mem
          have h1 : b0 < pa := hnc b0 pa hb0 hha
          have h2 : pb ≤ b0 := sorted_desc_mem_le _ hbs b0 pb hb0 hpb_mem
          omega
      · rename_i hfil
        refine ⟨?_, ?_, ?_⟩
        · exact List.Pairwise.sublist (matchOrderSellGo_keys_suffix _ _ _).sublist hbs
        · rw [(matchOrderSellGo_frame _ _ _).2]
          exact addToLevels_sorted_asc _ _ _ _ has
        · intro pb pa hhb hha
          rw [(matchOrderSellGo_frame _ _ _).2] at hha
          rcases matchOrderSellGo_break _ _ _ hfil with hlev | ⟨pb', hhb', hlt⟩
          · rw [hlev] at hhb
            simp at hhb
          · rw [hhb'] at hhb
            have hpb : pb = pb' := by simpa using hhb.symm
            subst hpb
            have hpb_mem : pb ∈ s.bids.map Prod.fst :=
              (matchOrderSellGo_keys_suffix _ _ _).subset (head_mem_of_head_eq_some hhb')
            rcases addToLevels_keys_head askBefore price h
                (matchOrderSellGo (Order.mk id (s.time + 1) Side.SELL price qty qty) s.bids
                  { s with time := s.time + 1,
                           log := s.log ++ [Event.newOrder (s.time + 1) id Side.SELL price qty],
                           free := t,
                           slots := s.slots.set h (Order.mk id (s.time + 1) Side.SELL price qty qty),
                           index := idxInsert id h s.index }).agg.remaining_qty s.asks
              with hhead | hhead
            · rw [hha] at hhead
              have : pa = price := by simpa using hhead
              subst this
              exact hlt
            · rw [hha] at hhead
              obtain ⟨b0, hb0⟩ := head_exists_of_mem _ _ hpb_mem
              have h1 : b0 < pa := hnc b0 pa hb0 hhead.symm
              have h2 : pb ≤ b0 := sorted_desc_mem_le _ hbs b0 pb hb0 hpb_mem
              omega

theorem processCancel_bookInv (id : Nat) (s : OrderBookState) (hinv : BookInv s) :
    BookInv (processCancel id s) := by
  obtain ⟨hbs, has, hnc⟩ := hinv
  simp only [processCancel]
  split
  · exact ⟨hbs, has, hnc⟩
  · split
    · -- cancelling a BUY order: unlink on the bid side
      refine ⟨List.Pairwise.sublist (unlinkInLevels_keys_sublist _ _ _ _) hbs, has, ?_⟩
      intro pb pa hhb hha
      have hpb_mem : pb ∈ s.bids.map Prod.fst :=
        (unlinkInLevels_keys_sublist _ _ _ _).subset (head_mem_of_head_eq_some hhb)
      obtain ⟨b0, hb0⟩ := head_exists_of_mem _ _ hpb_mem
      have h1 : b0 < pa := hnc b0 pa hb0 hha
      have h2 : pb ≤ b0 := sorted_desc_mem_le _ hbs b0 pb hb0 hpb_mem
      omega
    · -- cancelling a SELL order: unlink on the ask side
      refine ⟨hbs, List.Pairwise.sublist (unlinkInLevels_keys_sublist _ _ _ _) has, ?_⟩
      intro pb pa hhb hha
      have hpa_mem : pa ∈ s.asks.map Prod.fst :=
        (unlinkInLevels_keys_sublist _ _ _ _).subset (head_mem_of_head_eq_some hha)
      obtain ⟨a0, ha0⟩ := head_exists_of_mem _ _ hpa_mem
      have h1 : pb < a0 := hnc pb a0 hhb ha0
      have h2 : a0 ≤ pa := sorted_asc_head_le _ has a0 pa ha0 hpa_mem
      omega

theorem reachable_bookInv (s : OrderBookState) (h : Reachable s) : BookInv s := by
  induction h with
  | init capacity => exact ⟨by simp [initState], by simp [initState], by simp [initState]⟩
  | step c hs ih =>
    cases c with
    | newOrder id side price qty => exact processNewOrder_bookInv id side price qty _ ih
    | cancel id => exact processCancel_bookInv id _ ih

/-! ### Claim C2: the book never crosses -/

/-- C2: in every reachable state in which both sides of the book are
non-empty, the best bid is strictly below the best ask. -/
theorem c2_non_crossing (s : OrderBookState) (hr : Reachable s) (pb pa : Int)
    (hb : bestBid s = some pb) (ha : bestAsk s = some pa) : pb < pa := by
  have hinv := reachable_bookInv s hr
  apply hinv.2.2 pb pa
  · rw [List.head?_map]
    simpa [bestBid] using hb
  · rw [List.head?_map]
    simpa [bestAsk] using ha

/-- Witness for C2: a book with one resting bid and one resting ask. -/
theorem c2_non_crossing_witness :
    Reachable (runCmds (initState 4)
      [Cmd.newOrder 1 Side.SELL 10 5, Cmd.newOrder 2 Side.BUY 8 5]) ∧
    bestBid (runCmds (initState 4)
      [Cmd.newOrder 1 Side.SELL 10 5, Cmd.newOrder 2 Side.BUY 8 5]) = some 8 ∧
    bestAsk (runCmds (initState 4)
      [Cmd.newOrder 1 Side.SELL 10 5, Cmd.newOrder 2 Side.BUY 8 5]) = some 10 ∧
    (8 : Int) < 10 :=
  ⟨Reachable.step (Cmd.newOrder 2 Side.BUY 8 5)
      (Reachable.step (Cmd.newOrder 1 Side.SELL 10 5) (Reachable.init 4)),
    by decide, by decide,
    c2_non_crossing (runCmds (initState 4)
        [Cmd.newOrder 1 Side.SELL 10 5, Cmd.newOrder 2 Side.BUY 8 5])
      (Reachable.step (Cmd.newOrder 2 Side.BUY 8 5)
        (Reachable.step (Cmd.newOrder 1 Side.SELL 10 5) (Reachable.init 4)))
      8 10 (by decide) (by decide)⟩

/-! ### Claim C9: integer price ordering of the side books -/

/-- C9: in every reachable state the side books key levels by the exact
integer scaled price — distinct prices occupy distinct levels — and the
iteration order is the integer order: bid keys strictly descending, ask
keys strictly ascending. -/
theorem c9_integer_price_order (s : OrderBookState) (hr : Reachable s) :
    (s.bids.map Prod.fst).Pairwise (fun a b => b < a) ∧
      (s.bids.map Prod.fst).Nodup ∧
      (s.asks.map Prod.fst).Pairwise (fun a b => a < b) ∧
      (s.asks.map Prod.fst).Nodup := by
  have hinv := reachable_bookInv s hr
  refine ⟨hinv.1, ?_, hinv.2.1, ?_⟩
  · exact hinv.1.imp (fun hlt => ne_of_gt hlt)
  · exact hinv.2.1.imp (fun hlt => ne_of_lt hlt)

/-- Witness for C9 on a concrete three-level book. -/
theorem c9_integer_price_order_witness :
    Reachable (runCmds (initState 8) [Cmd.newOrder 1 Side.SELL 10 5,
      Cmd.newOrder 2 Side.BUY 9 1, Cmd.newOrder 3 Side.BUY 7 1]) ∧
    (((runCmds (initState 8) [Cmd.newOrder 1 Side.SELL 10 5,
        Cmd.newOrder 2 Side.BUY 9 1, Cmd.newOrder 3 Side.BUY 7 1]).bids.map
        Prod.fst).Pairwise (fun a b => b < a) ∧
     ((runCmds (initState 8) [Cmd.newOrder 1 Side.SELL 10 5,
        Cmd.newOrder 2 Side.BUY 9 1, Cmd.newOrder 3 Side.BUY 7 1]).bids.map
        Prod.fst).Nodup ∧
     ((runCmds (initState 8) [Cmd.newOrder 1 Side.SELL 10 5,
        Cmd.newOrder 2 Side.BUY 9 1, Cmd.newOrder 3 Side.BUY 7 1]).asks.map
        Prod.fst).Pairwise (fun a b => a < b) ∧
     ((runCmds (initState 8) [Cmd.newOrder 1 Side.SELL 10 5,
        Cmd.newOrder 2 Side.BUY 9 1, Cmd.newOrder 3 Side.BUY 7 1]).asks.map
        Prod.fst).Nodup) :=
  ⟨Reachable.step (Cmd.newOrder 3 Side.BUY 7 1)
      (Reachable.step (Cmd.newOrder 2 Side.BUY 9 1)
        (Reachable.step (Cmd.newOrder 1 Side.SELL 10 5) (Reachable.init 8))),
    c9_integer_price_order
      (runCmds (initState 8) [Cmd.newOrder 1 Side.SELL 10 5,
        Cmd.newOrder 2 Side.BUY 9 1, Cmd.newOrder 3 Side.BUY 7 1])
      (Reachable.step (Cmd.newOrder 3 Side.BUY 7 1)
        (Reachable.step (Cmd.newOrder 2 Side.BUY 9 1)
          (Reachable.step (Cmd.newOrder 1 Side.SELL 10 5) (Reachable.init 8))))⟩

/-! ### Shift lemmas: a larger arena only renames handles -/

theorem slotGet_shift (d : Nat) (slots : List Order) (h : Nat) :
    slotGet (List.replicate d defaultOrder ++ slots) (h + d) = slotGet slots h := by
  unfold slotGet
  rw [List.getD_append_right]
  · simp
  · simp

theorem set_append_shift (d : Nat) (slots : List Order) (h : Nat) (o : Order) :
    (List.replicate d defaultOrder ++ slots).set (h + d) o =
      List.replicate d defaultOrder ++ slots.set h o := by
  induction d generalizing h with
  | zero => simp
  | succ n ih =>
    have : List.replicate (n + 1) defaultOrder = defaultOrder :: List.replicate n defaultOrder := by
      simp [List.replicate_succ]
    rw [this]
    have harith : h + (n + 1) = (h + n) + 1 := by omega
    simp only [List.cons_append, harith, List.set_cons_succ]
    rw [ih]

theorem idxFind_shift (d : Nat) (id : Nat) (l : List (Nat × Nat)) :
    idxFind id (l.map (fun e => (e.1, e.2 + d))) = (idxFind id l).map (· + d) := by
  induction l with
  | nil => simp [idxFind]
  | cons e rest ih =>
    by_cases he : e.1 = id
    · simp [idxFind, he]
    · simp [idxFind, he, ih]

theorem idxInsert_shift (d : Nat) (id h : Nat) (l : List (Nat × Nat)) :
    idxInsert id (h + d) (l.map (fun e => (e.1, e.2 + d))) =
      (idxInsert id h l).map (fun e => (e.1, e.2 + d)) := by
  induction l with
  | nil => simp [idxInsert]
  | cons e rest ih =>
    by_cases he : e.1 = id
    · simp [idxInsert, he]
    · simp [idxInsert, he, ih]

theorem idxErase_shift (d : Nat) (id : Nat) (l : List (Nat × Nat)) :
    idxErase id (l.map (fun e => (e.1, e.2 + d))) =
      (idxErase id l).map (fun e => (e.1, e.2 + d)) := by
  induction l with
  | nil => simp [idxErase]
  | cons e rest ih =>
    by_cases he : e.1 = id
    · simp [idxErase, he]
    · simp [idxErase, he, ih]

theorem erase_map_shift (d : Nat) (h : Nat) (l : List Nat) :
    (l.map (· + d)).erase (h + d) = (l.erase h).map (· + d) := by
  have hinj : Function.Injective (fun x : Nat => x + d) := fun a b hab => by
    simpa using hab
  exact (List.map_erase hinj l).symm

theorem matchLevel_shift (d : Nat) (agg : Order) (hs : List Nat) (vol cnt : Nat)
    (price : Int) (s : OrderBookState) :
    matchLevel agg (hs.map (· + d)) vol cnt price (shiftState d s) =
      ⟨(matchLevel agg hs vol cnt price s).agg,
       (matchLevel agg hs vol cnt price s).orders.map (· + d),
       (matchLevel agg hs vol cnt price s).vol,
       (matchLevel agg hs vol cnt price s).cnt,
       shiftState d (matchLevel agg hs vol cnt price s).st⟩ := by
  induction hs generalizing agg vol cnt s with
  | nil => simp [matchLevel]
  | cons h rest ih =>
    by_cases hq : agg.remaining_qty = 0
    · simp [matchLevel, hq]
    · have hpass : slotGet (shiftState d s).slots (h + d) = slotGet s.slots h :=
        slotGet_shift d s.slots h
      have hslots := set_append_shift d s.slots h
      simp only [List.map_cons, matchLevel, hq, if_false, hpass]
      split
      · rw [← ih]
        congr 1
        simp only [shiftState]
        rw [hslots]
        simp [idxErase_shift]
      · simp only [shiftState]
        rw [hslots]
        simp

theorem isEmpty_map_shift (d : Nat) (l : List Nat) :
    (l.map (· + d)).isEmpty = l.isEmpty := by
  cases l <;> simp

theorem matchOrderBuyGo_shift (d : Nat) (agg : Order) (asks : List (Int × LimitLevel))
    (s : OrderBookState) :
    matchOrderBuyGo agg
        (asks.map (fun pl => (pl.1, { pl.2 with orders := pl.2.orders.map (· + d) })))
        (shiftState d s) =
      ⟨(matchOrderBuyGo agg asks s).agg,
       (matchOrderBuyGo agg asks s).levels.map
         (fun pl => (pl.1, { pl.2 with orders := pl.2.orders.map (· + d) })),
       shiftState d (matchOrderBuyGo agg asks s).st⟩ := by
  induction asks generalizing agg s with
  | nil => simp [matchOrderBuyGo]
  | cons a rest ih =>
    obtain ⟨p, L⟩ := a
    by_cases hq : agg.remaining_qty = 0
    · simp [matchOrderBuyGo, hq]
    · by_cases hp : agg.price < p
      · simp [matchOrderBuyGo, hq, hp]
      · simp only [List.map_cons, matchOrderBuyGo, hq, hp, if_false]
        rw [matchLevel_shift]
        simp only [isEmpty_map_shift]
        split
        · exact ih _ _
        · rw [ih]
          simp

theorem matchOrderSellGo_shift (d : Nat) (agg : Order) (bids : List (Int × LimitLevel))
    (s : OrderBookState) :
    matchOrderSellGo agg
        (bids.map (fun pl => (pl.1, { pl.2 with orders := pl.2.orders.map (· + d) })))
        (shiftState d s) =
      ⟨(matchOrderSellGo agg bids s).agg,
       (matchOrderSellGo agg bids s).levels.map
         (fun pl => (pl.1, { pl.2 with orders := pl.2.orders.map (· + d) })),
       shiftState d (matchOrderSellGo agg bids s).st⟩ := by
  induction bids generalizing agg s with
  | nil => simp [matchOrderSellGo]
  | cons a rest ih =>
    obtain ⟨p, L⟩ := a
    by_cases hq : agg.remaining_qty = 0
    · simp [matchOrderSellGo, hq]
    · by_cases hp : p < agg.price
      · simp [matchOrderSellGo, hq, hp]
      · simp only [List.map_cons, matchOrderSellGo, hq, hp, if_false]
        rw [matchLevel_shift]
        simp only [isEmpty_map_shift]
        split
        · exact ih _ _
        · rw [ih]
          simp

theorem addToLevels_shift (before : Int → Int → Prop) [DecidableRel before] (d : Nat)
    (p : Int) (h rem : Nat) (m : List (Int × LimitLevel)) :
    addToLevels before p (h + d) rem
        (m.map (fun pl => (pl.1, { pl.2 with orders := pl.2.orders.map (· + d) }))) =
      (addToLevels before p h rem m).map
        (fun pl => (pl.1, { pl.2 with orders := pl.2.orders.map (· + d) })) := by
  induction m with
  | nil => simp [addToLevels, LimitLevel.addOrder, LimitLevel.init]
  | cons a rest ih =>
    obtain ⟨q, L⟩ := a
    by_cases hpq : p = q
    · simp [addToLevels, hpq, LimitLevel.addOrder]
    · by_cases hb : before p q
      · simp [addToLevels, hpq, hb, LimitLevel.addOrder, LimitLevel.init]
      · simp [addToLevels, hpq, hb, ih]

theorem unlinkInLevels_shift (d : Nat) (p : Int) (h rem : Nat)
    (m : List (Int × LimitLevel)) :
    unlinkInLevels p (h + d) rem
        (m.map (fun pl => (pl.1, { pl.2 with orders := pl.2.orders.map (· + d) }))) =
      (unlinkInLevels p h rem m).map
        (fun pl => (pl.1, { pl.2 with orders := pl.2.orders.map (· + d) })) := by
  induction m with
  | nil => simp [unlinkInLevels]
  | cons a rest ih =>
    obtain ⟨q, L⟩ := a
    by_cases hpq : p = q
    · simp only [List.map_cons, unlinkInLevels, hpq, if_true]
      rw [erase_map_shift]
      rw [isEmpty_map_shift]
      split
      · rfl
      · simp
    · simp [unlinkInLevels, hpq, ih]

theorem processNewOrder_shift (d : Nat) (id : Nat) (side : Side) (price : Int) (qty : Nat)
    (s : OrderBookState) (hfree : s.free ≠ []) :
    processNewOrder id side price qty (shiftState d s) =
      shiftState d (processNewOrder id side price qty s) := by
  cases hf : s.free with
  | nil => exact absurd hf hfree
  | cons h t =>
    have hsfree : (shiftState d s).free =
        (h + d) :: (t.map (· + d) ++ (List.range d).reverse) := by
      simp [shiftState, hf]
    cases side with
    | BUY =>
      simp only [processNewOrder, hf, hsfree]
      have hkey :
          ({ slots := (shiftState d s).slots.set (h + d)
                        (Order.mk id ((shiftState d s).time + 1) Side.BUY price qty qty),
             free := t.map (· + d) ++ (List.range d).reverse,
             bids := (shiftState d s).bids,
             asks := (shiftState d s).asks,
             index := idxInsert id (h + d) (shiftState d s).index,
             log := (shiftState d s).log ++
                      [Event.newOrder ((shiftState d s).time + 1) id Side.BUY price qty],
             time := (shiftState d s).time + 1 } : OrderBookState) =
          shiftState d
            { slots := s.slots.set h (Order.mk id (s.time + 1) Side.BUY price qty qty),
              free := t, bids := s.bids, asks := s.asks,
              index := idxInsert id h s.index,
              log := s.log ++ [Event.newOrder (s.time + 1) id Side.BUY price qty],
              time := s.time + 1 } := by
        simp [shiftState, set_append_shift, idxInsert_shift]
      rw [hkey]
      rw [show ((shiftState d s).asks) =
          s.asks.map (fun pl => (pl.1, { pl.2 with orders := pl.2.orders.map (· + d) }))
          from rfl]
      rw [show (Order.mk id ((shiftState d s).time + 1) Side.BUY price qty qty) =
          Order.mk id (s.time + 1) Side.BUY price qty qty from rfl]
      rw [matchOrderBuyGo_shift]
      rw [apply_ite (shiftState d)]
      split
      · simp [shiftState, set_append_shift, idxErase_shift]
      · simp [shiftState, set_append_shift, addToLevels_shift]
    | SELL =>
      simp only [processNewOrder, hf, hsfree]
      have hkey :
          ({ slots := (shiftState d s).slots.set (h + d)
                        (Order.mk id ((shiftState d s).time + 1) Side.SELL price qty qty),
             free := t.map (· + d) ++ (List.range d).reverse,
             bids := (shiftState d s).bids,
             asks := (shiftState d s).asks,
             index := idxInsert id (h + d) (shiftState d s).index,
             log := (shiftState d s).log ++
                      [Event.newOrder ((shiftState d s).time + 1) id Side.SELL price qty],
             time := (shiftState d s).time + 1 } : OrderBookState) =
          shiftState d
            { slots := s.slots.set h (Order.mk id (s.time + 1) Side.SELL price qty qty),
              free := t, bids := s.bids, asks := s.asks,
              index := idxInsert id h s.index,
              log := s.log ++ [Event.newOrder (s.time + 1) id Side.SELL price qty],
              time := s.time + 1 } := by
        simp [shiftState, set_append_shift, idxInsert_shift]
      rw [hkey]
      rw [show ((shiftState d s).bids) =
          s.bids.map (fun pl => (pl.1, { pl.2 with orders := pl.2.orders.map (· + d) }))
          from rfl]
      rw [show (Order.mk id ((shiftState d s).time + 1) Side.SELL price qty qty) =
          Order.mk id (s.time + 1) Side.SELL price qty qty from rfl]
      rw [matchOrderSellGo_shift]
      rw [apply_ite (shiftState d)]
      split
      · simp [shiftState, set_append_shift, idxErase_shift]
      · simp [shiftState, set_append_shift, addToLevels_shift]

theorem processCancel_shift (d : Nat) (id : Nat) (s : OrderBookState) :
    processCancel id (shiftState d s) = shiftState d (processCancel id s) := by
  have hidx : (shiftState d s).index = s.index.map (fun e => (e.1, e.2 + d)) := rfl
  cases hfind : idxFind id s.index with
  | none =>
    have hfindL : idxFind id (shiftState d s).index = none := by
      rw [hidx, idxFind_shift, hfind]
      rfl
    simp only [processCancel, hfind, hfindL]
    simp [shiftState]
  | some h =>
    have hfindL : idxFind id (shiftState d s).index = some (h + d) := by
      rw [hidx, idxFind_shift, hfind]
      rfl
    have hslot : slotGet (shiftState d s).slots (h + d) = slotGet s.slots h := by
      have : (shiftState d s).slots = List.replicate d defaultOrder ++ s.slots := rfl
      rw [this]
      exact slotGet_shift d s.slots h
    simp only [processCancel, hfind, hfindL, hslot]
    cases hside : (slotGet s.slots h).side with
    | BUY =>
      simp only [hside]
      have hb : (shiftState d s).bids =
          s.bids.map (fun pl => (pl.1, { pl.2 with orders := pl.2.orders.map (· + d) })) := rfl
      rw [hb, unlinkInLevels_shift]
      simp [shiftState, idxErase_shift]
    | SELL =>
      simp only [hside]
      have ha : (shiftState d s).asks =
          s.asks.map (fun pl => (pl.1, { pl.2 with orders := pl.2.orders.map (· + d) })) := rfl
      rw [ha, unlinkInLevels_shift]
      simp [shiftState, idxErase_shift]

theorem runCmds_shift (d : Nat) (cs : List Cmd) (s : OrderBookState)
    (hnf : noFailB s cs = true) :
    runCmds (shiftState d s) cs = shiftState d (runCmds s cs) := by
  induction cs generalizing s with
  | nil => rfl
  | cons c cs ih =>
    cases c with
    | newOrder id side price qty =>
      have hparts : (!s.free.isEmpty) = true ∧
          noFailB (processNewOrder id side price qty s) cs = true := by
        simpa [noFailB, Bool.and_eq_true] using hnf
      have hfree : s.free ≠ [] := by
        intro hc
        rw [hc] at hparts
        simp at hparts
      show runCmds (applyCmd (Cmd.newOrder id side price qty) (shiftState d s)) cs = _
      rw [show applyCmd (Cmd.newOrder id side price qty) (shiftState d s) =
          processNewOrder id side price qty (shiftState d s) from rfl]
      rw [processNewOrder_shift d id side price qty s hfree]
      exact ih _ hparts.2
    | cancel id =>
      have hrest : noFailB (processCancel id s) cs = true := by
        simpa [noFailB, Bool.and_eq_true] using hnf
      show runCmds (applyCmd (Cmd.cancel id) (shiftState d s)) cs = _
      rw [show applyCmd (Cmd.cancel id) (shiftState d s) =
          processCancel id (shiftState d s) from rfl]
      rw [processCancel_shift d id s]
      exact ih _ hrest

theorem reverse_range_add (c d : Nat) :
    (List.range (c + d)).reverse =
      ((List.range c).reverse.map (· + d)) ++ (List.range d).reverse := by
  induction c with
  | zero => simp
  | succ c ih =>
    have h1 : c + 1 + d = (c + d) + 1 := by omega
    rw [h1, List.range_succ, List.range_succ]
    simp only [List.reverse_append, List.reverse_cons, List.reverse_nil, List.nil_append,
      List.map_append, List.map_cons, List.map_nil, List.cons_append]
    rw [ih]

theorem initState_shift (capacity d : Nat) :
    initState (capacity + d) = shiftState d (initState capacity) := by
  simp only [initState, shiftState, OrderBookState.mk.injEq]
  refine ⟨?_, ?_, by simp, by simp, by simp, by simp, by simp⟩
  · rw [Nat.add_comm capacity d, List.replicate_add]
  · exact reverse_range_add capacity d

theorem observe_shift (d : Nat) (s : OrderBookState) :
    observe (shiftState d s) = observe s := by
  have hq : ∀ L : LimitLevel,
      (L.orders.map (· + d)).map
          (fun g => (slotGet (List.replicate d defaultOrder ++ s.slots) g).id) =
        L.orders.map (fun g => (slotGet s.slots g).id) := by
    intro L
    rw [List.map_map]
    apply List.map_congr_left
    intro g hg
    simp [Function.comp, slotGet_shift]
  simp only [observe, bestBid, bestAsk, shiftState, BookObs.mk.injEq]
  refine ⟨?_, ?_, ?_, ?_⟩
  · cases s.bids <;> simp
  · cases s.asks <;> simp
  · rw [List.map_map]
    apply List.map_congr_left
    intro pl hpl
    simp [Function.comp, levelObs, hq pl.2]
  · rw [List.map_map]
    apply List.map_congr_left
    intro pl hpl
    simp [Function.comp, levelObs, hq pl.2]

/-! ### Extraction: the log records exactly the input commands -/

theorem extractCmds_trades_nil {tr : List Event} (hall : ∀ e ∈ tr, e.isTrade = true) :
    extractCmds tr = [] := by
  induction tr with
  | nil => rfl
  | cons e rest ih =>
    have he := hall e (List.mem_cons_self e rest)
    cases e with
    | newOrder ts id side price qty => simp [Event.isTrade] at he
    | cancelOrder ts id => simp [Event.isTrade] at he
    | trade ts pid aid price qty =>
      simp only [extractCmds, List.filterMap_cons, eventToCmd]
      exact ih (fun e he => hall e (List.mem_cons_of_mem _ he))

theorem extractCmds_append (l1 l2 : List Event) :
    extractCmds (l1 ++ l2) = extractCmds l1 ++ extractCmds l2 := by
  simp [extractCmds]

theorem processNewOrder_extract (id : Nat) (side : Side) (price : Int) (qty : Nat)
    (s : OrderBookState) :
    extractCmds (processNewOrder id side price qty s).log =
      extractCmds s.log ++ [Cmd.newOrder id side price qty] := by
  cases hf : s.free with
  | nil =>
    simp only [processNewOrder, hf]
    simp [extractCmds_append, extractCmds, eventToCmd]
  | cons h t =>
    cases side with
    | BUY =>
      simp only [processNewOrder, hf]
      obtain ⟨tr, htr, hall⟩ := matchOrderBuyGo_log
        (Order.mk id (s.time + 1) Side.BUY price qty qty) s.asks
        { s with time := s.time + 1,
                 log := s.log ++ [Event.newOrder (s.time + 1) id Side.BUY price qty],
                 free := t,
                 slots := s.slots.set h (Order.mk id (s.time + 1) Side.BUY price qty qty),
                 index := idxInsert id h s.index }
      split
      · rw [htr]
        simp only [extractCmds_append]
        rw [extractCmds_trades_nil hall]
        simp [extractCmds, eventToCmd]
      · rw [htr]
        simp only [extractCmds_append]
        rw [extractCmds_trades_nil hall]
        simp [extractCmds, eventToCmd]
    | SELL =>
      simp only [processNewOrder, hf]
      obtain ⟨tr, htr, hall⟩ := matchOrderSellGo_log
        (Order.mk id (s.time + 1) Side.SELL price qty qty) s.bids
        { s with time := s.time + 1,
                 log := s.log ++ [Event.newOrder (s.time + 1) id Side.SELL price qty],
                 free := t,
                 slots := s.slots.set h (Order.mk id (s.time + 1) Side.SELL price qty qty),
                 index := idxInsert id h s.index }
      split
      · rw [htr]
        simp only [extractCmds_append]
        rw [extractCmds_trades_nil hall]
        simp [extractCmds, eventToCmd]
      · rw [htr]
        simp only [extractCmds_append]
        rw [extractCmds_trades_nil hall]
        simp [extractCmds, eventToCmd]

theorem processCancel_extract (id : Nat) (s : OrderBookState) :
    extractCmds (processCancel id s).log = extractCmds s.log ++ [Cmd.cancel id] := by
  simp only [processCancel]
  split
  · simp [extractCmds_append, extractCmds, eventToCmd]
  · split <;> simp [extractCmds_append, extractCmds, eventToCmd]

theorem runCmds_extract (cs : List Cmd) (s : OrderBookState) :
    extractCmds (runCmds s cs).log = extractCmds s.log ++ cs := by
  induction cs generalizing s with
  | nil => simp [runCmds]
  | cons c cs ih =>
    cases c with
    | newOrder id side price qty =>
      show extractCmds (runCmds (processNewOrder id side price qty s) cs).log = _
      rw [ih, processNewOrder_extract]
      simp
    | cancel id =>
      show extractCmds (runCmds (processCancel id s) cs).log = _
      rw [ih, processCancel_extract]
      simp

/-! ### The pool only refills during matching; enough capacity never fails -/

theorem matchLevel_free_len (agg : Order) (hs : List Nat) (vol cnt : Nat) (price : Int)
    (s : OrderBookState) :
    s.free.length ≤ (matchLevel agg hs vol cnt price s).st.free.length := by
  induction hs generalizing agg vol cnt s with
  | nil => exact le_refl _
  | cons h rest ih =>
    by_cases hq : agg.remaining_qty = 0
    · simp [matchLevel, hq]
    · simp only [matchLevel, hq, if_false]
      split
      · exact le_trans (by simp) (ih _ _ _ _)
      · simp

theorem matchOrderBuyGo_free_len (agg : Order) (asks : List (Int × LimitLevel))
    (s : OrderBookState) :
    s.free.length ≤ (matchOrderBuyGo agg asks s).st.free.length := by
  induction asks generalizing agg s with
  | nil => exact le_refl _
  | cons a rest ih =>
    obtain ⟨p, L⟩ := a
    by_cases hq : agg.remaining_qty = 0
    · simp [matchOrderBuyGo, hq]
    · by_cases hp : agg.price < p
      · simp [matchOrderBuyGo, hq, hp]
      · simp only [matchOrderBuyGo, hq, hp, if_false]
        have h1 := matchLevel_free_len agg L.orders L.total_volume L.order_count p s
        split
        · exact le_trans h1 (ih _ _)
        · exact le_trans h1 (ih _ _)

theorem matchOrderSellGo_free_len (agg : Order) (bids : List (Int × LimitLevel))
    (s : OrderBookState) :
    s.free.length ≤ (matchOrderSellGo agg bids s).st.free.length := by
  induction bids generalizing agg s with
  | nil => exact le_refl _
  | cons a rest ih =>
    obtain ⟨p, L⟩ := a
    by_cases hq : agg.remaining_qty = 0
    · simp [matchOrderSellGo, hq]
    · by_cases hp : p < agg.price
      · simp [matchOrderSellGo, hq, hp]
      · simp only [matchOrderSellGo, hq, hp, if_false]
        have h1 := matchLevel_free_len agg L.orders L.total_volume L.order_count p s
        split
        · exact le_trans h1 (ih _ _)
        · exact le_trans h1 (ih _ _)

theorem processNewOrder_free_len (id : Nat) (side : Side) (price : Int) (qty : Nat)
    (s : OrderBookState) :
    s.free.length - 1 ≤ (processNewOrder id side price qty s).free.length := by
  cases hf : s.free with
  | nil => simp [processNewOrder, hf]
  | cons h t =>
    cases side with
    | BUY =>
      simp only [processNewOrder, hf]
      have h1 := matchOrderBuyGo_free_len
        (Order.mk id (s.time + 1) Side.BUY price qty qty) s.asks
        { s with time := s.time + 1,
                 log := s.log ++ [Event.newOrder (s.time + 1) id Side.BUY price qty],
                 free := t,
                 slots := s.slots.set h (Order.mk id (s.time + 1) Side.BUY price qty qty),
                 index := idxInsert id h s.index }
      replace h1 : t.length ≤ _ := h1
      split
      · simp only [List.length_cons]
        omega
      · simp only [List.length_cons]
        omega
    | SELL =>
      simp only [processNewOrder, hf]
      have h1 := matchOrderSellGo_free_len
        (Order.mk id (s.time + 1) Side.SELL price qty qty) s.bids
        { s with time := s.time + 1,
                 log := s.log ++ [Event.newOrder (s.time + 1) id Side.SELL price qty],
                 free := t,
                 slots := s.slots.set h (Order.mk id (s.time + 1) Side.SELL price qty qty),
                 index := idxInsert id h s.index }
      replace h1 : t.length ≤ _ := h1
      split
      · simp only [List.length_cons]
        omega
      · simp only [List.length_cons]
        omega

theorem processCancel_free_len (id : Nat) (s : OrderBookState) :
    s.free.length ≤ (processCancel id s).free.length := by
  simp only [processCancel]
  split
  · exact le_refl _
  · split <;> simp

theorem noFailB_of_le (cs : List Cmd) (s : OrderBookState)
    (hlen : cs.length ≤ s.free.length) : noFailB s cs = true := by
  induction cs generalizing s with
  | nil => rfl
  | cons c cs ih =>
    cases c with
    | newOrder id side price qty =>
      have hne : s.free ≠ [] := by
        intro hc
        rw [hc] at hlen
        simp at hlen
      have hnext := processNewOrder_free_len id side price qty s
      simp only [noFailB, applyCmd, Bool.and_eq_true]
      constructor
      · simpa using hne
      · exact ih _ (by simp only [List.length_cons] at hlen; omega)
    | cancel id =>
      have hnext := processCancel_free_len id s
      simp only [noFailB, applyCmd, Bool.and_eq_true]
      refine ⟨by simp, ih _ ?_⟩
      simp only [List.length_cons] at hlen
      omega

/-! ### Claim C1: replay idempotence -/

/-- C1 (counterexample): replay equality fails when the arena is
exhausted.  A fresh engine of capacity 0 drops the order after logging
its ack; the replayer's fresh engine (capacity `2 * |log|`) replays the
ack successfully, so the rebuilt book differs from the original. -/
theorem c1_replay_counterexample :
    observe (replayFromLog ((runCmds (initState 0) [Cmd.newOrder 1 Side.BUY 5 7]).log)) ≠
      observe (runCmds (initState 0) [Cmd.newOrder 1 Side.BUY 5 7]) := by
  decide

/-- C1 (amended): for every capacity and command sequence during which
the arena is never exhausted, replaying the resulting event log
(reissuing acks as commands, skipping trades, into a fresh engine of
capacity `2 * |log|`) reproduces the state observably: same best bid and
ask and, per level, the same price, total volume, order count and FIFO
queue of order ids. -/
theorem c1_replay_idempotent_no_exhaustion (capacity : Nat) (cs : List Cmd)
    (hnf : noFailB (initState capacity) cs = true) :
    observe (replayFromLog ((runCmds (initState capacity) cs).log)) =
      observe (runCmds (initState capacity) cs) := by
  have hex : extractCmds ((runCmds (initState capacity) cs).log) = cs := by
    have h := runCmds_extract cs (initState capacity)
    simpa [initState, extractCmds] using h
  have hlen : cs.length ≤ ((runCmds (initState capacity) cs).log).length := by
    conv_lhs => rw [← hex]
    exact List.length_filterMap_le eventToCmd _
  rw [replayFromLog, hex]
  rcases Nat.le_total capacity (((runCmds (initState capacity) cs).log).length * 2)
    with hle | hle
  · obtain ⟨d, hd⟩ := Nat.exists_eq_add_of_le hle
    rw [hd, initState_shift, runCmds_shift d cs _ hnf, observe_shift]
  · obtain ⟨d, hd⟩ := Nat.exists_eq_add_of_le hle
    have hnf' : noFailB (initState (((runCmds (initState capacity) cs).log).length * 2))
        cs = true := by
      apply noFailB_of_le
      have : (initState (((runCmds (initState capacity) cs).log).length * 2)).free.length =
          ((runCmds (initState capacity) cs).log).length * 2 := by
        simp [initState]
      omega
    conv_rhs => rw [hd, initState_shift, runCmds_shift d cs _ hnf']
    rw [observe_shift]

/-- Witness for C1's amended theorem on a short crossing scenario. -/
theorem c1_replay_witness :
    noFailB (initState 4)
        [Cmd.newOrder 1 Side.SELL 10 5, Cmd.newOrder 2 Side.BUY 10 3, Cmd.cancel 1] = true ∧
    observe (replayFromLog ((runCmds (initState 4)
        [Cmd.newOrder 1 Side.SELL 10 5, Cmd.newOrder 2 Side.BUY 10 3, Cmd.cancel 1]).log)) =
      observe (runCmds (initState 4)
        [Cmd.newOrder 1 Side.SELL 10 5, Cmd.newOrder 2 Side.BUY 10 3, Cmd.cancel 1]) :=
  ⟨by decide, c1_replay_idempotent_no_exhaustion 4
    [Cmd.newOrder 1 Side.SELL 10 5, Cmd.newOrder 2 Side.BUY 10 3, Cmd.cancel 1] (by decide)⟩

/-! ### Claim C3: price-time priority on the FIFO scenario -/

/-- C3: running ten SELL orders `id=1..10` at the same price (qty 10
each) and then one BUY `id=100` at that price with qty 100, on a fresh
engine with capacity for the scenario, logs exactly ten Trade events
whose passive ids are 1,2,…,10 in that order: levels are matched
best-first and FIFO within a level. -/
theorem c3_fifo_price_time (capacity : Nat) (hcap : 11 ≤ capacity) :
    (runCmds (initState capacity) fifoScenario).log.filterMap tradePassiveId =
      [1, 2, 3, 4, 5, 6, 7, 8, 9, 10] := by
  obtain ⟨d, hd⟩ := Nat.exists_eq_add_of_le hcap
  subst hd
  rw [initState_shift, runCmds_shift d fifoScenario (initState 11) (by decide)]
  rw [show (shiftState d (runCmds (initState 11) fifoScenario)).log =
      (runCmds (initState 11) fifoScenario).log from rfl]
  decide

/-- Witness for C3 at capacity 11. -/
theorem c3_fifo_price_time_witness :
    11 ≤ 11 ∧
    (runCmds (initState 11) fifoScenario).log.filterMap tradePassiveId =
      [1, 2, 3, 4, 5, 6, 7, 8, 9, 10] :=
  ⟨by decide, c3_fifo_price_time 11 (by decide)⟩

/-! ### Index and handle bookkeeping lemmas for the Index invariant -/

theorem idxFind_eq_none_iff (k : Nat) (l : List (Nat × Nat)) :
    idxFind k l = none ↔ k ∉ l.map Prod.fst := by
  induction l with
  | nil => simp [idxFind]
  | cons e rest ih =>
    by_cases he : e.1 = k
    · simp [idxFind, he]
    · simp [idxFind, he, ih, Ne.symm he]

theorem idxFind_mem {k v : Nat} {l : List (Nat × Nat)} (hf : idxFind k l = some v) :
    (k, v) ∈ l := by
  induction l with
  | nil => simp [idxFind] at hf
  | cons e rest ih =>
    by_cases he : e.1 = k
    · simp only [idxFind, he, if_true] at hf
      have hv : e.2 = v := by simpa using hf
      have he2 : e = (k, v) := by
        obtain ⟨e1, e2⟩ := e
        simp only at he hv
        simp [he, hv]
      rw [← he2]
      exact List.mem_cons_self e rest
    · simp only [idxFind, he, if_false] at hf
      exact List.mem_cons_of_mem _ (ih hf)

theorem idxFind_of_mem_keysNodup {k v : Nat} {l : List (Nat × Nat)}
    (hnd : (l.map Prod.fst).Nodup) (hm : (k, v) ∈ l) : idxFind k l = some v := by
  induction l with
  | nil => simp at hm
  | cons e rest ih =>
    simp only [List.map_cons, List.nodup_cons] at hnd
    rcases List.mem_cons.mp hm with h1 | h1
    · rw [← h1]
      simp [idxFind]
    · have hk : e.1 ≠ k := by
        intro hc
        exact hnd.1 (hc ▸ (List.mem_map.mpr ⟨(k, v), h1, rfl⟩))
      simp only [idxFind, hk, if_false]
      exact ih hnd.2 h1

theorem idxErase_sub {k : Nat} {l : List (Nat × Nat)} {e : Nat × Nat}
    (he : e ∈ idxErase k l) : e ∈ l := by
  induction l with
  | nil => simp [idxErase] at he
  | cons a rest ih =>
    by_cases ha : a.1 = k
    · simp only [idxErase, ha, if_true] at he
      exact List.mem_cons_of_mem _ he
    · simp only [idxErase, ha, if_false] at he
      rcases List.mem_cons.mp he with h1 | h1
      · exact h1 ▸ List.mem_cons_self _ _
      · exact List.mem_cons_of_mem _ (ih h1)

theorem idxErase_keys_sublist (k : Nat) (l : List (Nat × Nat)) :
    List.Sublist ((idxErase k l).map Prod.fst) (l.map Prod.fst) := by
  induction l with
  | nil => simp [idxErase]
  | cons a rest ih =>
    by_cases ha : a.1 = k
    · simp only [idxErase, ha, if_true, List.map_cons]
      exact (List.sublist_cons_self _ _)
    · simp only [idxErase, ha, if_false, List.map_cons]
      exact ih.cons₂ _

theorem mem_idxErase_iff {k : Nat} {l : List (Nat × Nat)}
    (hnd : (l.map Prod.fst).Nodup) (e : Nat × Nat) :
    e ∈ idxErase k l ↔ e ∈ l ∧ e.1 ≠ k := by
  induction l with
  | nil => simp [idxErase]
  | cons a rest ih =>
    simp only [List.map_cons, List.nodup_cons] at hnd
    by_cases ha : a.1 = k
    · simp only [idxErase, ha, if_true]
      constructor
      · intro hmem
        refine ⟨List.mem_cons_of_mem _ hmem, ?_⟩
        intro hc
        exact hnd.1 (ha ▸ hc ▸ (List.mem_map.mpr ⟨e, hmem, rfl⟩))
      · intro ⟨hmem, hne⟩
        rcases List.mem_cons.mp hmem with h1 | h1
        · exact absurd (h1 ▸ ha) hne
        · exact h1
    · simp only [idxErase, ha, if_false]
      constructor
      · intro hmem
        rcases List.mem_cons.mp hmem with h1 | h1
        · exact ⟨h1 ▸ List.mem_cons_self _ _, h1 ▸ ha⟩
        · have := (ih hnd.2).mp h1
          exact ⟨List.mem_cons_of_mem _ this.1, this.2⟩
      · intro ⟨hmem, hne⟩
        rcases List.mem_cons.mp hmem with h1 | h1
        · exact h1 ▸ List.mem_cons_self _ _
        · exact List.mem_cons_of_mem _ ((ih hnd.2).mpr ⟨h1, hne⟩)

theorem idxInsert_fresh_append {k : Nat} (v : Nat) {l : List (Nat × Nat)}
    (hf : idxFind k l = none) : idxInsert k v l = l ++ [(k, v)] := by
  induction l with
  | nil => simp [idxInsert]
  | cons a rest ih =>
    by_cases ha : a.1 = k
    · simp [idxFind, ha] at hf
    · simp only [idxFind, ha, if_false] at hf
      simp [idxInsert, ha, ih hf]

theorem slotGet_set_self {slots : List Order} {h : Nat} (hlt : h < slots.length)
    (o : Order) : slotGet (slots.set h o) h = o := by
  unfold slotGet
  rw [List.getD_eq_getElem?_getD, List.getElem?_set_self (by simpa using hlt)]
  simp

theorem slotGet_set_ne {g h : Nat} (hne : g ≠ h) (slots : List Order) (o : Order) :
    slotGet (slots.set h o) g = slotGet slots g := by
  unfold slotGet
  rw [List.getD_eq_getElem?_getD, List.getD_eq_getElem?_getD,
    List.getElem?_set_ne (Ne.symm hne)]

theorem levelsHandles_cons (p : Int) (L : LimitLevel) (rest : List (Int × LimitLevel)) :
    levelsHandles ((p, L) :: rest) = L.orders ++ levelsHandles rest := by
  simp [levelsHandles]

theorem mem_levelsHandles {g : Nat} {m : List (Int × LimitLevel)} :
    g ∈ levelsHandles m ↔ ∃ pl ∈ m, g ∈ pl.2.orders := by
  simp [levelsHandles]

theorem addToLevels_handles_perm (before : Int → Int → Prop) [DecidableRel before]
    (p : Int) (h rem : Nat) (m : List (Int × LimitLevel)) :
    List.Perm (levelsHandles (addToLevels before p h rem m)) (h :: levelsHandles m) := by
  induction m with
  | nil => simp [addToLevels, levelsHandles, LimitLevel.addOrder, LimitLevel.init]
  | cons a rest ih =>
    obtain ⟨q, L⟩ := a
    by_cases hpq : p = q
    · simp only [addToLevels, hpq, if_true, levelsHandles_cons, LimitLevel.addOrder]
      rw [List.append_assoc]
      exact List.perm_middle
    · by_cases hb : before p q
      · simp only [addToLevels, hpq, hb, if_true, if_false, levelsHandles_cons,
          LimitLevel.addOrder, LimitLevel.init]
        simp
      · simp only [addToLevels, hpq, hb, if_false, levelsHandles_cons]
        exact (List.Perm.append_left L.orders ih).trans List.perm_middle

theorem addToLevels_mem_orders (before : Int → Int → Prop) [DecidableRel before]
    (p : Int) (h rem : Nat) (m : List (Int × LimitLevel)) (pl : Int × LimitLevel)
    (hpl : pl ∈ addToLevels before p h rem m) (g : Nat) (hg : g ∈ pl.2.orders) :
    (g = h ∧ pl.1 = p) ∨ ∃ pl0 ∈ m, pl0.1 = pl.1 ∧ g ∈ pl0.2.orders := by
  induction m with
  | nil =>
    simp only [addToLevels, List.mem_singleton] at hpl
    subst hpl
    simp only [LimitLevel.addOrder, LimitLevel.init] at hg
    simp at hg
    exact Or.inl ⟨hg, rfl⟩
  | cons a rest ih =>
    obtain ⟨q, L⟩ := a
    by_cases hpq : p = q
    · simp only [addToLevels, hpq, if_true] at hpl
      rcases List.mem_cons.mp hpl with h1 | h1
      · subst h1
        simp only [LimitLevel.addOrder] at hg
        rcases List.mem_append.mp hg with h2 | h2
        · exact Or.inr ⟨(q, L), List.mem_cons_self _ _, rfl, h2⟩
        · simp at h2
          exact Or.inl ⟨h2, hpq.symm⟩
      · exact Or.inr (by
          refine ⟨pl, List.mem_cons_of_mem _ h1, rfl, hg⟩)
    · by_cases hb : before p q
      · simp only [addToLevels, hpq, hb, if_true, if_false] at hpl
        rcases List.mem_cons.mp hpl with h1 | h1
        · subst h1
          simp only [LimitLevel.addOrder, LimitLevel.init] at hg
          simp at hg
          exact Or.inl ⟨hg, rfl⟩
        · exact Or.inr ⟨pl, h1, rfl, hg⟩
      · simp only [addToLevels, hpq, hb, if_false] at hpl
        rcases List.mem_cons.mp hpl with h1 | h1
        · exact Or.inr ⟨pl, h1 ▸ List.mem_cons_self _ _, rfl, hg⟩
        · rcases ih h1 with h2 | ⟨pl0, hpl0, hq0, hg0⟩
          · exact Or.inl h2
          · exact Or.inr ⟨pl0, List.mem_cons_of_mem _ hpl0, hq0, hg0⟩

theorem unlink_handles_sublist (p : Int) (h rem : Nat) (m : List (Int × LimitLevel)) :
    List.Sublist (levelsHandles (unlinkInLevels p h rem m)) (levelsHandles m) := by
  induction m with
  | nil => simp [unlinkInLevels]
  | cons a rest ih =>
    obtain ⟨q, L⟩ := a
    by_cases hpq : p = q
    · simp only [unlinkInLevels, hpq, if_true]
      split
      · rw [levelsHandles_cons]
        exact List.sublist_append_right _ _
      · rw [levelsHandles_cons, levelsHandles_cons]
        exact List.Sublist.append (List.erase_sublist h L.orders) (List.Sublist.refl _)
    · simp only [unlinkInLevels, hpq, if_false, levelsHandles_cons]
      exact List.Sublist.append (List.Sublist.refl _) ih

theorem unlink_mem_of_ne {g h : Nat} (p : Int) (rem : Nat) {m : List (Int × LimitLevel)}
    (hg : g ∈ levelsHandles m) (hne : g ≠ h) :
    g ∈ levelsHandles (unlinkInLevels p h rem m) := by
  induction m with
  | nil => simp [levelsHandles] at hg
  | cons a rest ih =>
    obtain ⟨q, L⟩ := a
    rw [levelsHandles_cons] at hg
    by_cases hpq : p = q
    · simp only [unlinkInLevels, hpq, if_true]
      rcases List.mem_append.mp hg with h1 | h1
      · have hmem : g ∈ L.orders.erase h := List.mem_erase_of_ne hne |>.mpr h1
        split
        · rename_i hempty
          rw [List.isEmpty_iff] at hempty
          rw [hempty] at hmem
          simp at hmem
        · rw [levelsHandles_cons]
          exact List.mem_append.mpr (Or.inl hmem)
      · split
        · exact h1
        · rw [levelsHandles_cons]
          exact List.mem_append.mpr (Or.inr h1)
    · simp only [unlinkInLevels, hpq, if_false, levelsHandles_cons]
      rcases List.mem_append.mp hg with h1 | h1
      · exact List.mem_append.mpr (Or.inl h1)
      · exact List.mem_append.mpr (Or.inr (ih h1))

theorem unlink_not_mem_self {h : Nat} {p : Int} (rem : Nat) {m : List (Int × LimitLevel)}
    {L : LimitLevel} (hkeys : (m.map Prod.fst).Nodup) (hnd : (levelsHandles m).Nodup)
    (hpl : (p, L) ∈ m) (hmem : h ∈ L.orders) :
    h ∉ levelsHandles (unlinkInLevels p h rem m) := by
  induction m with
  | nil => simp at hpl
  | cons a rest ih =>
    obtain ⟨q, L0⟩ := a
    simp only [List.map_cons, List.nodup_cons] at hkeys
    rw [levelsHandles_cons] at hnd
    by_cases hpq : p = q
    · have hL : L = L0 := by
        rcases List.mem_cons.mp hpl with h1 | h1
        · simpa using congrArg Prod.snd h1
        · exfalso
          exact hkeys.1 (hpq ▸ List.mem_map.mpr ⟨(p, L), h1, rfl⟩)
      subst hL
      simp only [unlinkInLevels, hpq, if_true]
      have hnotrest : h ∉ levelsHandles rest := by
        intro hc
        exact (List.disjoint_of_nodup_append hnd) hmem hc
      split
      · exact hnotrest
      · rw [levelsHandles_cons]
        intro hc
        rcases List.mem_append.mp hc with h1 | h1
        · exact ((List.nodup_append.mp hnd).1).not_mem_erase h1
        · exact hnotrest h1
    · have hLrest : (p, L) ∈ rest := by
        rcases List.mem_cons.mp hpl with h1 | h1
        · exfalso
          injection h1 with h2 h3
          exact hpq h2
        · exact h1
      simp only [unlinkInLevels, hpq, if_false, levelsHandles_cons]
      intro hc
      rcases List.mem_append.mp hc with h1 | h1
      · have hmem2 : h ∈ levelsHandles rest :=
          mem_levelsHandles.mpr ⟨(p, L), hLrest, hmem⟩
        exact (List.disjoint_of_nodup_append hnd) h1 hmem2
      · exact ih hkeys.2 (List.Nodup.of_append_right hnd) hLrest h1

theorem unlink_level_mem {p : Int} {h rem : Nat} {m : List (Int × LimitLevel)}
    {pl' : Int × LimitLevel} (hpl : pl' ∈ unlinkInLevels p h rem m) :
    ∃ pl ∈ m, pl'.1 = pl.1 ∧ ∀ g ∈ pl'.2.orders, g ∈ pl.2.orders := by
  induction m with
  | nil => simp [unlinkInLevels] at hpl
  | cons a rest ih =>
    obtain ⟨q, L⟩ := a
    by_cases hpq : p = q
    · simp only [unlinkInLevels, hpq, if_true] at hpl
      split at hpl
      · exact ⟨pl', List.mem_cons_of_mem _ hpl, rfl, fun g hg => hg⟩
      · rcases List.mem_cons.mp hpl with h1 | h1
        · subst h1
          exact ⟨(q, L), List.mem_cons_self _ _, rfl, fun g hg =>
            (List.erase_sublist h L.orders).subset hg⟩
        · exact ⟨pl', List.mem_cons_of_mem _ h1, rfl, fun g hg => hg⟩
    · simp only [unlinkInLevels, hpq, if_false] at hpl
      rcases List.mem_cons.mp hpl with h1 | h1
      · exact ⟨(q, L), h1 ▸ List.mem_cons_self _ _, h1 ▸ rfl, h1 ▸ fun g hg => hg⟩
      · obtain ⟨pl, hmem, hfst, hsub⟩ := ih h1
        exact ⟨pl, List.mem_cons_of_mem _ hmem, hfst, hsub⟩

theorem keys_nodup_inj {l : List (Nat × Nat)} (hnd : (l.map Prod.fst).Nodup)
    {k a b : Nat} (ha : (k, a) ∈ l) (hb : (k, b) ∈ l) : a = b := by
  have h1 := idxFind_of_mem_keysNodup hnd ha
  have h2 := idxFind_of_mem_keysNodup hnd hb
  rw [h1] at h2
  simpa using h2

theorem matchLevel_inv (agg : Order) (hs : List Nat) (vol cnt : Nat) (price : Int)
    (s : OrderBookState) (O : List Nat) (hAgg : Nat) (r : LevelMatchResult)
    (hr : r = matchLevel agg hs vol cnt price s)
    (p1 : (hs ++ O).Nodup)
    (p2 : ∀ g ∈ s.free, g ∉ hs ++ O)
    (p3 : s.free.Nodup)
    (p4 : ∀ e ∈ s.index, e = (agg.id, hAgg) ∨
      (e.2 ∈ hs ++ O ∧ (slotGet s.slots e.2).id = e.1))
    (p5 : ∀ g ∈ hs ++ O, ((slotGet s.slots g).id, g) ∈ s.index)
    (p6 : (s.index.map Prod.fst).Nodup)
    (p7 : (agg.id, hAgg) ∈ s.index)
    (p8 : hAgg ∉ hs ++ O)
    (p9 : hAgg ∉ s.free)
    (p10 : ∀ g ∈ hs ++ O, g < s.slots.length)
    (p11 : ∀ g ∈ hs ++ O, (slotGet s.slots g).id ≠ agg.id) :
    ∃ popped : List Nat,
      hs = popped ++ r.orders ∧
      r.st.free = popped.reverse ++ s.free ∧
      (∀ g, g ∉ hs → slotGet r.st.slots g = slotGet s.slots g) ∧
      (∀ g, (slotGet r.st.slots g).id = (slotGet s.slots g).id ∧
        (slotGet r.st.slots g).side = (slotGet s.slots g).side ∧
        (slotGet r.st.slots g).price = (slotGet s.slots g).price) ∧
      r.st.slots.length = s.slots.length ∧
      (∀ e ∈ r.st.index, e ∈ s.index) ∧
      (∀ e ∈ r.st.index, e = (agg.id, hAgg) ∨
        (e.2 ∈ r.orders ++ O ∧ (slotGet r.st.slots e.2).id = e.1)) ∧
      (∀ g ∈ r.orders ++ O, ((slotGet r.st.slots g).id, g) ∈ r.st.index) ∧
      (r.st.index.map Prod.fst).Nodup ∧
      (agg.id, hAgg) ∈ r.st.index := by
  induction hs generalizing agg vol cnt s r with
  | nil =>
    subst hr
    exact ⟨[], rfl, rfl, fun g _ => rfl, fun g => ⟨rfl, rfl, rfl⟩, rfl,
      fun e he => he, p4, p5, p6, p7⟩
  | cons h rest ih =>
    have hhmem : h ∈ (h :: rest) ++ O := by simp
    have hlt : h < s.slots.length := p10 h hhmem
    by_cases hq : agg.remaining_qty = 0
    · have req : matchLevel agg (h :: rest) vol cnt price s =
          ⟨agg, h :: rest, vol, cnt, s⟩ := by
        simp only [matchLevel, hq, if_true]
      subst hr
      rw [req]
      exact ⟨[], rfl, rfl, fun g _ => rfl, fun g => ⟨rfl, rfl, rfl⟩, rfl,
        fun e he => he, p4, p5, p6, p7⟩
    · have hsid : ∀ g, (slotGet (s.slots.set h
          { slotGet s.slots h with
            remaining_qty := (slotGet s.slots h).remaining_qty -
              min agg.remaining_qty (slotGet s.slots h).remaining_qty }) g).id =
            (slotGet s.slots g).id ∧
          (slotGet (s.slots.set h
          { slotGet s.slots h with
            remaining_qty := (slotGet s.slots h).remaining_qty -
              min agg.remaining_qty (slotGet s.slots h).remaining_qty }) g).side =
            (slotGet s.slots g).side ∧
          (slotGet (s.slots.set h
          { slotGet s.slots h with
            remaining_qty := (slotGet s.slots h).remaining_qty -
              min agg.remaining_qty (slotGet s.slots h).remaining_qty }) g).price =
            (slotGet s.slots g).price := by
        intro g
        by_cases hgh : g = h
        · subst hgh
          rw [slotGet_set_self hlt]
          exact ⟨rfl, rfl, rfl⟩
        · rw [slotGet_set_ne hgh]
          exact ⟨rfl, rfl, rfl⟩
      subst hr
      simp only [matchLevel, hq, if_false]
      split
      · -- passive filled: pop, unindex, deallocate, recurse
        rename_i hfil
        have hpid : ({ slotGet s.slots h with
            remaining_qty := (slotGet s.slots h).remaining_qty -
              min agg.remaining_qty (slotGet s.slots h).remaining_qty } : Order).id =
            (slotGet s.slots h).id := rfl
        have hcons : (h :: (rest ++ O)).Nodup := p1
        have hrestnd : (rest ++ O).Nodup := (List.nodup_cons.mp hcons).2
        have hnotin : h ∉ rest ++ O := (List.nodup_cons.mp hcons).1
        obtain ⟨popped', c1, c2, c3, c4, c5, c6, c7, c8, c9, c10⟩ :=
          ih
            { agg with
                remaining_qty := agg.remaining_qty -
                  min agg.remaining_qty (slotGet s.slots h).remaining_qty }
            (vol - min agg.remaining_qty (slotGet s.slots h).remaining_qty)
            (cnt - 1)
            { s with
                slots := s.slots.set h
                  { slotGet s.slots h with
                      remaining_qty := (slotGet s.slots h).remaining_qty -
                        min agg.remaining_qty (slotGet s.slots h).remaining_qty },
                log := s.log ++ [Event.trade (s.time + 1) (slotGet s.slots h).id agg.id
                  price (min agg.remaining_qty (slotGet s.slots h).remaining_qty)],
                time := s.time + 1,
                index := idxErase (slotGet s.slots h).id s.index,
                free := h :: s.free }
            _ rfl
            hrestnd
            (by
              intro g hg
              rcases List.mem_cons.mp hg with h1 | h1
              · subst h1
                exact hnotin
              · intro hc
                exact p2 g h1 (by
                  rcases List.mem_append.mp hc with h2 | h2
                  · exact List.mem_append.mpr (Or.inl (List.mem_cons_of_mem _ h2))
                  · exact List.mem_append.mpr (Or.inr h2))
            )
            (by
              refine List.nodup_cons.mpr ⟨?_, p3⟩
              intro hc
              exact p2 h hc hhmem)
            (by
              intro e he
              have hme := (mem_idxErase_iff p6 e).mp he
              rcases p4 e hme.1 with h1 | ⟨h2, h3⟩
              · exact Or.inl (by rw [h1])
              · refine Or.inr ⟨?_, ?_⟩
                · have hne : e.2 ≠ h := by
                    intro hc
                    apply hme.2
                    rw [← h3, hc]
                  rcases List.mem_append.mp h2 with h4 | h4
                  · rcases List.mem_cons.mp h4 with h5 | h5
                    · exact absurd h5 hne
                    · exact List.mem_append.mpr (Or.inl h5)
                  · exact List.mem_append.mpr (Or.inr h4)
                · rw [(hsid e.2).1, h3])
            (by
              intro g hg
              have hgmem : g ∈ (h :: rest) ++ O := by
                rcases List.mem_append.mp hg with h1 | h1
                · exact List.mem_append.mpr (Or.inl (List.mem_cons_of_mem _ h1))
                · exact List.mem_append.mpr (Or.inr h1)
              have hgh : g ≠ h := by
                intro hc
                subst hc
                exact hnotin hg
              rw [(hsid g).1]
              rw [mem_idxErase_iff p6]
              refine ⟨p5 g hgmem, ?_⟩
              intro hc
              have hc' : (slotGet s.slots g).id = (slotGet s.slots h).id := hc
              have := keys_nodup_inj p6 (hc' ▸ p5 g hgmem) (p5 h hhmem)
              exact hgh this)
            ((idxErase_keys_sublist _ _).nodup p6)
            (by
              rw [mem_idxErase_iff p6]
              refine ⟨p7, ?_⟩
              intro hc
              exact p11 h hhmem hc.symm)
            (by
              intro hc
              rcases List.mem_append.mp hc with h1 | h1
              · exact p8 (List.mem_append.mpr (Or.inl (List.mem_cons_of_mem _ h1)))
              · exact p8 (List.mem_append.mpr (Or.inr h1)))
            (by
              intro hc
              rcases List.mem_cons.mp hc with h1 | h1
              · exact p8 (h1 ▸ hhmem)
              · exact p9 h1)
            (by
              intro g hg
              rw [List.length_set]
              apply p10
              rcases List.mem_append.mp hg with h1 | h1
              · exact List.mem_append.mpr (Or.inl (List.mem_cons_of_mem _ h1))
              · exact List.mem_append.mpr (Or.inr h1))
            (by
              intro g hg
              rw [(hsid g).1]
              apply p11
              rcases List.mem_append.mp hg with h1 | h1
              · exact List.mem_append.mpr (Or.inl (List.mem_cons_of_mem _ h1))
              · exact List.mem_append.mpr (Or.inr h1))
        refine ⟨h :: popped', ?_, ?_, ?_, ?_, ?_, ?_, ?_, c8, c9, c10⟩
        · exact congrArg (List.cons h) c1
        · rw [List.reverse_cons, List.append_assoc]
          exact c2
        · intro g hg
          have hgh : g ≠ h := by
            intro hc
            exact hg (hc ▸ List.mem_cons_self _ _)
          have hgrest : g ∉ rest := fun hc => hg (List.mem_cons_of_mem _ hc)
          exact (c3 g hgrest).trans (slotGet_set_ne hgh _ _)
        · intro g
          obtain ⟨d1, d2, d3⟩ := c4 g
          obtain ⟨e1, e2, e3⟩ := hsid g
          exact ⟨d1.trans e1, d2.trans e2, d3.trans e3⟩
        · exact c5.trans (by simp)
        · intro e he
          exact (mem_idxErase_iff p6 e).mp (c6 e he) |>.1
        · intro e he
          rcases c7 e he with h1 | ⟨h2, h3⟩
          · exact Or.inl h1
          · exact Or.inr ⟨h2, h3⟩
      · -- passive only partially filled: the loop exits
        rename_i hfil
        refine ⟨[], rfl, by simp, ?_, ?_, by simp [List.length_set], fun e he => he,
          ?_, ?_, p6, p7⟩
        · intro g hg
          have hgh : g ≠ h := by
            intro hc
            exact hg (hc ▸ List.mem_cons_self _ _)
          exact slotGet_set_ne hgh _ _
        · exact hsid
        · intro e he
          rcases p4 e he with h1 | ⟨h2, h3⟩
          · exact Or.inl h1
          · exact Or.inr ⟨h2, by rw [(hsid e.2).1, h3]⟩
        · intro g hg
          rw [(hsid g).1]
          exact p5 g hg

theorem matchOrderBuyGo_inv (agg : Order) (asks : List (Int × LimitLevel))
    (s : OrderBookState) (O : List Nat) (hAgg : Nat) (r : SideMatchResult)
    (hr : r = matchOrderBuyGo agg asks s)
    (p1 : (levelsHandles asks ++ O).Nodup)
    (p2 : ∀ g ∈ s.free, g ∉ levelsHandles asks ++ O)
    (p3 : s.free.Nodup)
    (p4 : ∀ e ∈ s.index, e = (agg.id, hAgg) ∨
      (e.2 ∈ levelsHandles asks ++ O ∧ (slotGet s.slots e.2).id = e.1))
    (p5 : ∀ g ∈ levelsHandles asks ++ O, ((slotGet s.slots g).id, g) ∈ s.index)
    (p6 : (s.index.map Prod.fst).Nodup)
    (p7 : (agg.id, hAgg) ∈ s.index)
    (p8 : hAgg ∉ levelsHandles asks ++ O)
    (p9 : hAgg ∉ s.free)
    (p10 : ∀ g ∈ levelsHandles asks ++ O, g < s.slots.length)
    (p11 : ∀ g ∈ levelsHandles asks ++ O, (slotGet s.slots g).id ≠ agg.id) :
    ∃ popped : List Nat,
      levelsHandles asks = popped ++ levelsHandles r.levels ∧
      r.st.free = popped.reverse ++ s.free ∧
      (∀ g, g ∉ levelsHandles asks → slotGet r.st.slots g = slotGet s.slots g) ∧
      (∀ g, (slotGet r.st.slots g).id = (slotGet s.slots g).id ∧
        (slotGet r.st.slots g).side = (slotGet s.slots g).side ∧
        (slotGet r.st.slots g).price = (slotGet s.slots g).price) ∧
      r.st.slots.length = s.slots.length ∧
      (∀ e ∈ r.st.index, e ∈ s.index) ∧
      (∀ e ∈ r.st.index, e = (agg.id, hAgg) ∨
        (e.2 ∈ levelsHandles r.levels ++ O ∧ (slotGet r.st.slots e.2).id = e.1)) ∧
      (∀ g ∈ levelsHandles r.levels ++ O, ((slotGet r.st.slots g).id, g) ∈ r.st.index) ∧
      (r.st.index.map Prod.fst).Nodup ∧
      (agg.id, hAgg) ∈ r.st.index ∧
      (∀ pl ∈ r.levels, ∃ pl0 ∈ asks, pl.1 = pl0.1 ∧
        ∀ g ∈ pl.2.orders, g ∈ pl0.2.orders) := by
  induction asks generalizing agg s r with
  | nil =>
    subst hr
    exact ⟨[], rfl, rfl, fun g _ => rfl, fun g => ⟨rfl, rfl, rfl⟩, rfl,
      fun e he => he, p4, p5, p6, p7, fun pl hpl => absurd hpl (List.not_mem_nil pl)⟩
  | cons a rest ih =>
    obtain ⟨p, L⟩ := a
    have hLH : levelsHandles ((p, L) :: rest) ++ O =
        L.orders ++ (levelsHandles rest ++ O) := by
      rw [levelsHandles_cons, List.append_assoc]
    by_cases hq : agg.remaining_qty = 0
    · have req : matchOrderBuyGo agg ((p, L) :: rest) s =
          ⟨agg, (p, L) :: rest, s⟩ := by
        simp only [matchOrderBuyGo, hq, if_true]
      subst hr
      rw [req]
      exact ⟨[], rfl, rfl, fun g _ => rfl, fun g => ⟨rfl, rfl, rfl⟩, rfl,
        fun e he => he, p4, p5, p6, p7, fun pl hpl => ⟨pl, hpl, rfl, fun g hg => hg⟩⟩
    · by_cases hp : agg.price < p
      · have req : matchOrderBuyGo agg ((p, L) :: rest) s =
            ⟨agg, (p, L) :: rest, s⟩ := by
          simp only [matchOrderBuyGo, hq, hp, if_true, if_false]
        subst hr
        rw [req]
        exact ⟨[], rfl, rfl, fun g _ => rfl, fun g => ⟨rfl, rfl, rfl⟩, rfl,
          fun e he => he, p4, p5, p6, p7, fun pl hpl => ⟨pl, hpl, rfl, fun g hg => hg⟩⟩
      · have hp1' : (L.orders ++ (levelsHandles rest ++ O)).Nodup := by
          rw [← hLH]
          exact p1
        have hdisj : ∀ g ∈ L.orders, g ∉ levelsHandles rest ++ O :=
          fun g hg => List.disjoint_of_nodup_append hp1' hg
        have haggid : (matchLevel agg L.orders L.total_volume L.order_count p s).agg.id
            = agg.id :=
          (matchLevel_agg_fix agg L.orders L.total_volume L.order_count p s).1
        obtain ⟨pop1, m1, m2, m3, m4, m5, m6, m7, m8, m9, m10⟩ :=
          matchLevel_inv agg L.orders L.total_volume L.order_count p s
            (levelsHandles rest ++ O) hAgg _ rfl
            hp1'
            (by
              intro g hg
              rw [← hLH]
              exact p2 g hg)
            p3
            (by
              intro e he
              rw [← hLH]
              exact p4 e he)
            (by
              intro g hg
              exact p5 g (by rw [hLH]; exact hg))
            p6 p7
            (by
              rw [← hLH]
              exact p8)
            p9
            (by
              intro g hg
              exact p10 g (by rw [hLH]; exact hg))
            (by
              intro g hg
              exact p11 g (by rw [hLH]; exact hg))
        have hpop1sub : ∀ g ∈ pop1, g ∈ L.orders := by
          intro g hg
          rw [m1]
          exact List.mem_append_left _ hg
        have hdi := matchLevel_dichotomy agg L.orders L.total_volume L.order_count p s
        subst hr
        simp only [matchOrderBuyGo, hq, hp, if_false]
        split
        · rename_i hemp
          have hordnil :
              (matchLevel agg L.orders L.total_volume L.order_count p s).orders = [] := by
            simpa using hemp
          obtain ⟨pop2, n1, n2, n3, n4, n5, n6, n7, n8, n9, n10, n11⟩ :=
            ih (matchLevel agg L.orders L.total_volume L.order_count p s).agg
              (matchLevel agg L.orders L.total_volume L.order_count p s).st _ rfl
              ((by rw [hLH] at p1; exact p1.of_append_right :
                (levelsHandles rest ++ O).Nodup))
              (by
                intro g hg
                rw [m2] at hg
                rcases List.mem_append.mp hg with h1 | h1
                · exact hdisj g (hpop1sub g (List.mem_reverse.mp h1))
                · intro hc
                  exact p2 g h1 (by rw [hLH]; exact List.mem_append_right _ hc))
              (by
                rw [m2]
                refine List.nodup_append.mpr ⟨List.nodup_reverse.mpr ?_, p3, ?_⟩
                · exact (m1 ▸ hp1'.of_append_left).of_append_left
                · intro g h1 h2
                  exact p2 g h2 (by
                    rw [hLH]
                    exact List.mem_append_left _ (hpop1sub g (List.mem_reverse.mp h1))))
              (by
                intro e he
                rcases m7 e he with h1 | ⟨h2, h3⟩
                · exact Or.inl (h1.trans (by rw [haggid]))
                · rw [hordnil] at h2
                  exact Or.inr ⟨h2, h3⟩)
              (by
                intro g hg
                apply m8
                rw [hordnil]
                exact hg)
              m9
              (by
                rw [haggid]
                exact m10)
              (by
                intro hc
                exact p8 (by rw [hLH]; exact List.mem_append_right _ hc))
              (by
                rw [m2]
                intro hc
                rcases List.mem_append.mp hc with h1 | h1
                · exact p8 (by
                    rw [hLH]
                    exact List.mem_append_left _ (hpop1sub hAgg (List.mem_reverse.mp h1)))
                · exact p9 h1)
              (by
                intro g hg
                rw [m5]
                exact p10 g (by rw [hLH]; exact List.mem_append_right _ hg))
              (by
                intro g hg
                rw [haggid, (m4 g).1]
                exact p11 g (by rw [hLH]; exact List.mem_append_right _ hg))
          refine ⟨pop1 ++ pop2, ?_, ?_, ?_, ?_, ?_, ?_, ?_, n8, n9, ?_, ?_⟩
          · rw [levelsHandles_cons]
            conv_lhs => rw [m1, hordnil, n1]
            simp
          · rw [n2, m2]
            simp
          · intro g hg
            have hgl : g ∉ L.orders := fun hc =>
              hg (by rw [levelsHandles_cons]; exact List.mem_append_left _ hc)
            have hgr : g ∉ levelsHandles rest := fun hc =>
              hg (by rw [levelsHandles_cons]; exact List.mem_append_right _ hc)
            exact (n3 g hgr).trans (m3 g hgl)
          · intro g
            obtain ⟨d1, d2, d3⟩ := n4 g
            obtain ⟨e1, e2, e3⟩ := m4 g
            exact ⟨d1.trans e1, d2.trans e2, d3.trans e3⟩
          · exact n5.trans m5
          · intro e he
            exact m6 _ (n6 e he)
          · intro e he
            rcases n7 e he with h1 | ⟨h2, h3⟩
            · exact Or.inl (h1.trans (by rw [haggid]))
            · exact Or.inr ⟨h2, h3⟩
          · rw [← haggid]
            exact n10
          · intro pl hpl
            obtain ⟨pl0, hpl0, hfst, hsub⟩ := n11 pl hpl
            exact ⟨pl0, List.mem_cons_of_mem _ hpl0, hfst, hsub⟩
        · rename_i hemp
          have hzero :
              (matchLevel agg L.orders L.total_volume L.order_count p s).agg.remaining_qty
                = 0 := by
            rcases hdi with h1 | h1
            · exact absurd (by rw [h1]; rfl) hemp
            · exact h1
          have hfill : matchOrderBuyGo
              (matchLevel agg L.orders L.total_volume L.order_count p s).agg rest
              (matchLevel agg L.orders L.total_volume L.order_count p s).st =
              ⟨(matchLevel agg L.orders L.total_volume L.order_count p s).agg, rest,
                (matchLevel agg L.orders L.total_volume L.order_count p s).st⟩ :=
            matchOrderBuyGo_of_filled _ _ _ hzero
          rw [hfill]
          refine ⟨pop1, ?_, m2, ?_, m4, m5, m6, ?_, ?_, m9, m10, ?_⟩
          · rw [levelsHandles_cons, levelsHandles_cons]
            conv_lhs => rw [m1]
            simp
          · intro g hg
            exact m3 g (fun hc =>
              hg (by rw [levelsHandles_cons]; exact List.mem_append_left _ hc))
          · intro e he
            rcases m7 e he with h1 | ⟨h2, h3⟩
            · exact Or.inl h1
            · refine Or.inr ⟨?_, h3⟩
              rw [levelsHandles_cons, List.append_assoc]
              exact h2
          · intro g hg
            apply m8
            rw [levelsHandles_cons, List.append_assoc] at hg
            exact hg
          · intro pl hpl
            rcases List.mem_cons.mp hpl with h1 | h1
            · subst h1
              refine ⟨(p, L), List.mem_cons_self _ _, rfl, ?_⟩
              intro g hg
              rw [m1]
              exact List.mem_append_right _ hg
            · exact ⟨pl, List.mem_cons_of_mem _ h1, rfl, fun g hg => hg⟩

theorem matchOrderSellGo_inv (agg : Order) (bids : List (Int × LimitLevel))
    (s : OrderBookState) (O : List Nat) (hAgg : Nat) (r : SideMatchResult)
    (hr : r = matchOrderSellGo agg bids s)
    (p1 : (levelsHandles bids ++ O).Nodup)
    (p2 : ∀ g ∈ s.free, g ∉ levelsHandles bids ++ O)
    (p3 : s.free.Nodup)
    (p4 : ∀ e ∈ s.index, e = (agg.id, hAgg) ∨
      (e.2 ∈ levelsHandles bids ++ O ∧ (slotGet s.slots e.2).id = e.1))
    (p5 : ∀ g ∈ levelsHandles bids ++ O, ((slotGet s.slots g).id, g) ∈ s.index)
    (p6 : (s.index.map Prod.fst).Nodup)
    (p7 : (agg.id, hAgg) ∈ s.index)
    (p8 : hAgg ∉ levelsHandles bids ++ O)
    (p9 : hAgg ∉ s.free)
    (p10 : ∀ g ∈ levelsHandles bids ++ O, g < s.slots.length)
    (p11 : ∀ g ∈ levelsHandles bids ++ O, (slotGet s.slots g).id ≠ agg.id) :
    ∃ popped : List Nat,
      levelsHandles bids = popped ++ levelsHandles r.levels ∧
      r.st.free = popped.reverse ++ s.free ∧
      (∀ g, g ∉ levelsHandles bids → slotGet r.st.slots g = slotGet s.slots g) ∧
      (∀ g, (slotGet r.st.slots g).id = (slotGet s.slots g).id ∧
        (slotGet r.st.slots g).side = (slotGet s.slots g).side ∧
        (slotGet r.st.slots g).price = (slotGet s.slots g).price) ∧
      r.st.slots.length = s.slots.length ∧
      (∀ e ∈ r.st.index, e ∈ s.index) ∧
      (∀ e ∈ r.st.index, e = (agg.id, hAgg) ∨
        (e.2 ∈ levelsHandles r.levels ++ O ∧ (slotGet r.st.slots e.2).id = e.1)) ∧
      (∀ g ∈ levelsHandles r.levels ++ O, ((slotGet r.st.slots g).id, g) ∈ r.st.index) ∧
      (r.st.index.map Prod.fst).Nodup ∧
      (agg.id, hAgg) ∈ r.st.index ∧
      (∀ pl ∈ r.levels, ∃ pl0 ∈ bids, pl.1 = pl0.1 ∧
        ∀ g ∈ pl.2.orders, g ∈ pl0.2.orders) := by
  induction bids generalizing agg s r with
  | nil =>
    subst hr
    exact ⟨[], rfl, rfl, fun g _ => rfl, fun g => ⟨rfl, rfl, rfl⟩, rfl,
      fun e he => he, p4, p5, p6, p7, fun pl hpl => absurd hpl (List.not_mem_nil pl)⟩
  | cons a rest ih =>
    obtain ⟨p, L⟩ := a
    have hLH : levelsHandles ((p, L) :: rest) ++ O =
        L.orders ++ (levelsHandles rest ++ O) := by
      rw [levelsHandles_cons, List.append_assoc]
    by_cases hq : agg.remaining_qty = 0
    · have req : matchOrderSellGo agg ((p, L) :: rest) s =
          ⟨agg, (p, L) :: rest, s⟩ := by
        simp only [matchOrderSellGo, hq, if_true]
      subst hr
      rw [req]
      exact ⟨[], rfl, rfl, fun g _ => rfl, fun g => ⟨rfl, rfl, rfl⟩, rfl,
        fun e he => he, p4, p5, p6, p7, fun pl hpl => ⟨pl, hpl, rfl, fun g hg => hg⟩⟩
    · by_cases hp : p < agg.price
      · have req : matchOrderSellGo agg ((p, L) :: rest) s =
            ⟨agg, (p, L) :: rest, s⟩ := by
          simp only [matchOrderSellGo, hq, hp, if_true, if_false]
        subst hr
        rw [req]
        exact ⟨[], rfl, rfl, fun g _ => rfl, fun g => ⟨rfl, rfl, rfl⟩, rfl,
          fun e he => he, p4, p5, p6, p7, fun pl hpl => ⟨pl, hpl, rfl, fun g hg => hg⟩⟩
      · have hp1' : (L.orders ++ (levelsHandles rest ++ O)).Nodup := by
          rw [← hLH]
          exact p1
        have hdisj : ∀ g ∈ L.orders, g ∉ levelsHandles rest ++ O :=
          fun g hg => List.disjoint_of_nodup_append hp1' hg
        have haggid : (matchLevel agg L.orders L.total_volume L.order_count p s).agg.id
            = agg.id :=
          (matchLevel_agg_fix agg L.orders L.total_volume L.order_count p s).1
        obtain ⟨pop1, m1, m2, m3, m4, m5, m6, m7, m8, m9, m10⟩ :=
          matchLevel_inv agg L.orders L.total_volume L.order_count p s
            (levelsHandles rest ++ O) hAgg _ rfl
            hp1'
            (by
              intro g hg
              rw [← hLH]
              exact p2 g hg)
            p3
            (by
              intro e he
              rw [← hLH]
              exact p4 e he)
            (by
              intro g hg
              exact p5 g (by rw [hLH]; exact hg))
            p6 p7
            (by
              rw [← hLH]
              exact p8)
            p9
            (by
              intro g hg
              exact p10 g (by rw [hLH]; exact hg))
            (by
              intro g hg
              exact p11 g (by rw [hLH]; exact hg))
        have hpop1sub : ∀ g ∈ pop1, g ∈ L.orders := by
          intro g hg
          rw [m1]
          exact List.mem_append_left _ hg
        have hdi := matchLevel_dichotomy agg L.orders L.total_volume L.order_count p s
        subst hr
        simp only [matchOrderSellGo, hq, hp, if_false]
        split
        · rename_i hemp
          have hordnil :
              (matchLevel agg L.orders L.total_volume L.order_count p s).orders = [] := by
            simpa using hemp
          obtain ⟨pop2, n1, n2, n3, n4, n5, n6, n7, n8, n9, n10, n11⟩ :=
            ih (matchLevel agg L.orders L.total_volume L.order_count p s).agg
              (matchLevel agg L.orders L.total_volume L.order_count p s).st _ rfl
              ((by rw [hLH] at p1; exact p1.of_append_right :
                (levelsHandles rest ++ O).Nodup))
              (by
                intro g hg
                rw [m2] at hg
                rcases List.mem_append.mp hg with h1 | h1
                · exact hdisj g (hpop1sub g (List.mem_reverse.mp h1))
                · intro hc
                  exact p2 g h1 (by rw [hLH]; exact List.mem_append_right _ hc))
              (by
                rw [m2]
                refine List.nodup_append.mpr ⟨List.nodup_reverse.mpr ?_, p3, ?_⟩
                · exact (m1 ▸ hp1'.of_append_left).of_append_left
                · intro g h1 h2
                  exact p2 g h2 (by
                    rw [hLH]
                    exact List.mem_append_left _ (hpop1sub g (List.mem_reverse.mp h1))))
              (by
                intro e he
                rcases m7 e he with h1 | ⟨h2, h3⟩
                · exact Or.inl (h1.trans (by rw [haggid]))
                · rw [hordnil] at h2
                  exact Or.inr ⟨h2, h3⟩)
              (by
                intro g hg
                apply m8
                rw [hordnil]
                exact hg)
              m9
              (by
                rw [haggid]
                exact m10)
              (by
                intro hc
                exact p8 (by rw [hLH]; exact List.mem_append_right _ hc))
              (by
                rw [m2]
                intro hc
                rcases List.mem_append.mp hc with h1 | h1
                · exact p8 (by
                    rw [hLH]
                    exact List.mem_append_left _ (hpop1sub hAgg (List.mem_reverse.mp h1)))
                · exact p9 h1)
              (by
                intro g hg
                rw [m5]
                exact p10 g (by rw [hLH]; exact List.mem_append_right _ hg))
              (by
                intro g hg
                rw [haggid, (m4 g).1]
                exact p11 g (by rw [hLH]; exact List.mem_append_right _ hg))
          refine ⟨pop1 ++ pop2, ?_, ?_, ?_, ?_, ?_, ?_, ?_, n8, n9, ?_, ?_⟩
          · rw [levelsHandles_cons]
            conv_lhs => rw [m1, hordnil, n1]
            simp
          · rw [n2, m2]
            simp
          · intro g hg
            have hgl : g ∉ L.orders := fun hc =>
              hg (by rw [levelsHandles_cons]; exact List.mem_append_left _ hc)
            have hgr : g ∉ levelsHandles rest := fun hc =>
              hg (by rw [levelsHandles_cons]; exact List.mem_append_right _ hc)
            exact (n3 g hgr).trans (m3 g hgl)
          · intro g
            obtain ⟨d1, d2, d3⟩ := n4 g
            obtain ⟨e1, e2, e3⟩ := m4 g
            exact ⟨d1.trans e1, d2.trans e2, d3.trans e3⟩
          · exact n5.trans m5
          · intro e he
            exact m6 _ (n6 e he)
          · intro e he
            rcases n7 e he with h1 | ⟨h2, h3⟩
            · exact Or.inl (h1.trans (by rw [haggid]))
            · exact Or.inr ⟨h2, h3⟩
          · rw [← haggid]
            exact n10
          · intro pl hpl
            obtain ⟨pl0, hpl0, hfst, hsub⟩ := n11 pl hpl
            exact ⟨pl0, List.mem_cons_of_mem _ hpl0, hfst, hsub⟩
        · rename_i hemp
          have hzero :
              (matchLevel agg L.orders L.total_volume L.order_count p s).agg.remaining_qty
                = 0 := by
            rcases hdi with h1 | h1
            · exact absurd (by rw [h1]; rfl) hemp
            · exact h1
          have hfill : matchOrderSellGo
              (matchLevel agg L.orders L.total_volume L.order_count p s).agg rest
              (matchLevel agg L.orders L.total_volume L.order_count p s).st =
              ⟨(matchLevel agg L.orders L.total_volume L.order_count p s).agg, rest,
                (matchLevel agg L.orders L.total_volume L.order_count p s).st⟩ :=
            matchOrderSellGo_of_filled _ _ _ hzero
          rw [hfill]
          refine ⟨pop1, ?_, m2, ?_, m4, m5, m6, ?_, ?_, m9, m10, ?_⟩
          · rw [levelsHandles_cons, levelsHandles_cons]
            conv_lhs => rw [m1]
            simp
          · intro g hg
            exact m3 g (fun hc =>
              hg (by rw [levelsHandles_cons]; exact List.mem_append_left _ hc))
          · intro e he
            rcases m7 e he with h1 | ⟨h2, h3⟩
            · exact Or.inl h1
            · refine Or.inr ⟨?_, h3⟩
              rw [levelsHandles_cons, List.append_assoc]
              exact h2
          · intro g hg
            apply m8
            rw [levelsHandles_cons, List.append_assoc] at hg
            exact hg
          · intro pl hpl
            rcases List.mem_cons.mp hpl with h1 | h1
            · subst h1
              refine ⟨(p, L), List.mem_cons_self _ _, rfl, ?_⟩
              intro g hg
              rw [m1]
              exact List.mem_append_right _ hg
            · exact ⟨pl, List.mem_cons_of_mem _ h1, rfl, fun g hg => hg⟩

/-- Bookkeeping for the tail of `process_new_order` on a BUY whose
aggressive order ends fully filled: the index entry is erased, the slot
freed, and the invariant fields hold of the final state's components. -/
theorem buyFilledFinish (s st : OrderBookState) (lv : List (Int × LimitLevel))
    (ag : Order) (h id : Nat) (t : List Nat) (pop : List Nat)
    (hinv : IdxInv s)
    (hft : s.free = h :: t)
    (hmid : idxFind id s.index = none)
    (hbids : st.bids = s.bids)
    (hlen : st.slots.length = s.slots.length)
    (hfree2 : st.free = pop.reverse ++ t)
    (hdec : levelsHandles s.asks = pop ++ levelsHandles lv)
    (kslot : ∀ g, g ≠ h → g ∉ levelsHandles s.asks →
      slotGet st.slots g = slotGet s.slots g)
    (kid : ∀ g, g ≠ h → (slotGet st.slots g).id = (slotGet s.slots g).id ∧
      (slotGet st.slots g).side = (slotGet s.slots g).side ∧
      (slotGet st.slots g).price = (slotGet s.slots g).price)
    (hidx7 : ∀ e ∈ st.index, e = (id, h) ∨
      (e.2 ∈ levelsHandles lv ++ levelsHandles s.bids ∧ (slotGet st.slots e.2).id = e.1))
    (hidx8 : ∀ g ∈ levelsHandles lv ++ levelsHandles s.bids,
      ((slotGet st.slots g).id, g) ∈ st.index)
    (hkeys : (st.index.map Prod.fst).Nodup)
    (hlvorig : ∀ pl ∈ lv, ∃ pl0 ∈ s.asks, pl.1 = pl0.1 ∧
      ∀ g ∈ pl.2.orders, g ∈ pl0.2.orders) :
    (∀ e ∈ idxErase id st.index,
      e.2 ∈ levelsHandles st.bids ++ levelsHandles lv ∧
      (slotGet (st.slots.set h ag) e.2).id = e.1) ∧
    (∀ g ∈ levelsHandles st.bids ++ levelsHandles lv,
      ((slotGet (st.slots.set h ag) g).id, g) ∈ idxErase id st.index) ∧
    ((idxErase id st.index).map Prod.fst).Nodup ∧
    (levelsHandles st.bids ++ levelsHandles lv).Nodup ∧
    (∀ g ∈ h :: st.free, g ∉ levelsHandles st.bids ++ levelsHandles lv) ∧
    (h :: st.free).Nodup ∧
    (∀ g ∈ levelsHandles st.bids ++ levelsHandles lv, g < (st.slots.set h ag).length) ∧
    (∀ g ∈ h :: st.free, g < (st.slots.set h ag).length) ∧
    (∀ pl ∈ st.bids, ∀ g ∈ pl.2.orders,
      (slotGet (st.slots.set h ag) g).side = Side.BUY ∧
      (slotGet (st.slots.set h ag) g).price = pl.1) ∧
    (∀ pl ∈ lv, ∀ g ∈ pl.2.orders,
      (slotGet (st.slots.set h ag) g).side = Side.SELL ∧
      (slotGet (st.slots.set h ag) g).price = pl.1) := by
  have hnd : (levelsHandles s.bids ++ levelsHandles s.asks).Nodup := hinv.handlesNodup
  have hBnd : (levelsHandles s.bids).Nodup := hnd.of_append_left
  have hAnd : (levelsHandles s.asks).Nodup := hnd.of_append_right
  have hABdisj : ∀ g ∈ levelsHandles s.bids, g ∉ levelsHandles s.asks :=
    fun g hg => List.disjoint_of_nodup_append hnd hg
  have hVsubA : ∀ g ∈ levelsHandles lv, g ∈ levelsHandles s.asks := by
    intro g hg
    rw [hdec]
    exact List.mem_append_right _ hg
  have hPsubA : ∀ g ∈ pop, g ∈ levelsHandles s.asks := by
    intro g hg
    rw [hdec]
    exact List.mem_append_left _ hg
  have hVnd : (levelsHandles lv).Nodup := (hdec ▸ hAnd).of_append_right
  have hPVdisj : ∀ g ∈ pop, g ∉ levelsHandles lv :=
    fun g hg => List.disjoint_of_nodup_append (hdec ▸ hAnd) hg
  have hPnd : pop.Nodup := (hdec ▸ hAnd).of_append_left
  have hh_notAll : h ∉ allHandles s :=
    hinv.freeDisjoint h (by rw [hft]; exact List.mem_cons_self _ _)
  have hh_notA : h ∉ levelsHandles s.asks :=
    fun hc => hh_notAll (List.mem_append_right _ hc)
  have hh_notB : h ∉ levelsHandles s.bids :=
    fun hc => hh_notAll (List.mem_append_left _ hc)
  have hh_lt : h < s.slots.length :=
    hinv.freeLt h (by rw [hft]; exact List.mem_cons_self _ _)
  have hfnd : (h :: t).Nodup := by
    have := hinv.freeNodup
    rw [hft] at this
    exact this
  have hh_nott : h ∉ t := (List.nodup_cons.mp hfnd).1
  have htnd : t.Nodup := (List.nodup_cons.mp hfnd).2
  have ht_not : ∀ g ∈ t, g ∉ allHandles s :=
    fun g hg => hinv.freeDisjoint g (by rw [hft]; exact List.mem_cons_of_mem _ hg)
  have hid_notkeys : id ∉ s.index.map Prod.fst := (idxFind_eq_none_iff id s.index).mp hmid
  have hsid_notid : ∀ g ∈ allHandles s, (slotGet s.slots g).id ≠ id := by
    intro g hg hc
    exact hid_notkeys (hc ▸ List.mem_map.mpr ⟨((slotGet s.slots g).id, g),
      hinv.complete g hg, rfl⟩)
  have hAll_of_B : ∀ g ∈ levelsHandles s.bids, g ∈ allHandles s :=
    fun g hg => List.mem_append_left _ hg
  have hAll_of_A : ∀ g ∈ levelsHandles s.asks, g ∈ allHandles s :=
    fun g hg => List.mem_append_right _ hg
  refine ⟨?_, ?_, (idxErase_keys_sublist id st.index).nodup hkeys, ?_, ?_, ?_, ?_, ?_,
    ?_, ?_⟩
  · intro e he
    have hee := (mem_idxErase_iff hkeys e).mp he
    rcases hidx7 e hee.1 with h1 | ⟨h2, h3⟩
    · exact absurd (congrArg Prod.fst h1) hee.2
    · have hne : e.2 ≠ h := by
        intro hc
        rcases List.mem_append.mp h2 with h4 | h4
        · exact hh_notA (hVsubA h (hc ▸ h4))
        · exact hh_notB (hc ▸ h4)
      constructor
      · rcases List.mem_append.mp h2 with h4 | h4
        · exact List.mem_append_right _ h4
        · exact List.mem_append_left _ (hbids.symm ▸ h4)
      · rw [slotGet_set_ne hne]
        exact h3
  · intro g hg
    rcases List.mem_append.mp hg with h4 | h4
    · have h4' : g ∈ levelsHandles s.bids := hbids ▸ h4
      have hgh : g ≠ h := fun hc => hh_notB (hc ▸ h4')
      have hgnA : g ∉ levelsHandles s.asks := hABdisj g h4'
      have hkeq : (slotGet (st.slots.set h ag) g).id = (slotGet st.slots g).id :=
        congrArg Order.id (slotGet_set_ne hgh _ _)
      refine (mem_idxErase_iff hkeys _).mpr ⟨?_, ?_⟩
      · exact hkeq.symm ▸ hidx8 g (List.mem_append_right _ h4')
      · intro hc
        exact hsid_notid g (hAll_of_B g h4')
          ((kid g hgh).1.symm.trans (hkeq.symm.trans hc))
    · have hgA : g ∈ levelsHandles s.asks := hVsubA g h4
      have hgh : g ≠ h := fun hc => hh_notA (hc ▸ hgA)
      have hkeq : (slotGet (st.slots.set h ag) g).id = (slotGet st.slots g).id :=
        congrArg Order.id (slotGet_set_ne hgh _ _)
      refine (mem_idxErase_iff hkeys _).mpr ⟨?_, ?_⟩
      · exact hkeq.symm ▸ hidx8 g (List.mem_append_left _ h4)
      · intro hc
        exact hsid_notid g (hAll_of_A g hgA)
          ((kid g hgh).1.symm.trans (hkeq.symm.trans hc))
  · refine List.nodup_append.mpr ⟨hbids.symm ▸ hBnd, hVnd, ?_⟩
    intro a hma hmb
    exact hABdisj a (hbids ▸ hma) (hVsubA a hmb)
  · intro g hg
    rcases List.mem_cons.mp hg with h1 | h1
    · subst h1
      intro hc
      rcases List.mem_append.mp hc with h4 | h4
      · exact hh_notB (hbids ▸ h4)
      · exact hh_notA (hVsubA g h4)
    · have h1' : g ∈ pop.reverse ++ t := hfree2 ▸ h1
      rcases List.mem_append.mp h1' with h4 | h4
      · have hgA : g ∈ levelsHandles s.asks := hPsubA g (List.mem_reverse.mp h4)
        intro hc
        rcases List.mem_append.mp hc with h5 | h5
        · exact hABdisj g (hbids ▸ h5) hgA
        · exact hPVdisj g (List.mem_reverse.mp h4) h5
      · intro hc
        rcases List.mem_append.mp hc with h5 | h5
        · exact ht_not g h4 (hAll_of_B g (hbids ▸ h5))
        · exact ht_not g h4 (hAll_of_A g (hVsubA g h5))
  · refine List.nodup_cons.mpr ⟨?_, ?_⟩
    · intro hc
      have hc' : h ∈ pop.reverse ++ t := hfree2 ▸ hc
      rcases List.mem_append.mp hc' with h4 | h4
      · exact hh_notA (hPsubA h (List.mem_reverse.mp h4))
      · exact hh_nott h4
    · rw [hfree2]
      refine List.nodup_append.mpr ⟨List.nodup_reverse.mpr hPnd, htnd, ?_⟩
      intro a hma hmb
      exact ht_not a hmb (hAll_of_A a (hPsubA a (List.mem_reverse.mp hma)))
  · intro g hg
    rw [List.length_set, hlen]
    rcases List.mem_append.mp hg with h4 | h4
    · exact hinv.handlesLt g (hAll_of_B g (hbids ▸ h4))
    · exact hinv.handlesLt g (hAll_of_A g (hVsubA g h4))
  · intro g hg
    rw [List.length_set, hlen]
    rcases List.mem_cons.mp hg with h1 | h1
    · subst h1
      exact hh_lt
    · have h1' : g ∈ pop.reverse ++ t := hfree2 ▸ h1
      rcases List.mem_append.mp h1' with h4 | h4
      · exact hinv.handlesLt g (hAll_of_A g (hPsubA g (List.mem_reverse.mp h4)))
      · exact hinv.freeLt g (by rw [hft]; exact List.mem_cons_of_mem _ h4)
  · intro pl hpl g hg
    have hpl' : pl ∈ s.bids := hbids ▸ hpl
    have hgB : g ∈ levelsHandles s.bids := mem_levelsHandles.mpr ⟨pl, hpl', hg⟩
    have hgh : g ≠ h := fun hc => hh_notB (hc ▸ hgB)
    have hfull : slotGet (st.slots.set h ag) g = slotGet s.slots g :=
      (slotGet_set_ne hgh _ _).trans (kslot g hgh (hABdisj g hgB))
    rw [hfull]
    exact hinv.bidsSide pl hpl' g hg
  · intro pl hpl g hg
    obtain ⟨pl0, hpl0, hfst, hsubord⟩ := hlvorig pl hpl
    have hg0 : g ∈ pl0.2.orders := hsubord g hg
    have hgA : g ∈ levelsHandles s.asks := mem_levelsHandles.mpr ⟨pl0, hpl0, hg0⟩
    have hgh : g ≠ h := fun hc => hh_notA (hc ▸ hgA)
    have hside := hinv.asksSide pl0 hpl0 g hg0
    constructor
    · exact (congrArg Order.side (slotGet_set_ne hgh _ _)).trans
        ((kid g hgh).2.1.trans hside.1)
    · exact (congrArg Order.price (slotGet_set_ne hgh _ _)).trans
        ((kid g hgh).2.2.trans (hside.2.trans hfst.symm))

/-- Bookkeeping for the tail of `process_new_order` on a BUY with a
residual quantity: the aggressive order is written back to its slot and
rested on the bid book; the invariant fields hold of the final state's
components. -/
theorem buyRestFinish (s st : OrderBookState) (lv : List (Int × LimitLevel))
    (ag : Order) (h id : Nat) (pr : Int) (t : List Nat) (pop : List Nat)
    (hinv : IdxInv s)
    (hft : s.free = h :: t)
    (hmid : idxFind id s.index = none)
    (hbids : st.bids = s.bids)
    (hlen : st.slots.length = s.slots.length)
    (hfree2 : st.free = pop.reverse ++ t)
    (hdec : levelsHandles s.asks = pop ++ levelsHandles lv)
    (kslot : ∀ g, g ≠ h → g ∉ levelsHandles s.asks →
      slotGet st.slots g = slotGet s.slots g)
    (kid : ∀ g, g ≠ h → (slotGet st.slots g).id = (slotGet s.slots g).id ∧
      (slotGet st.slots g).side = (slotGet s.slots g).side ∧
      (slotGet st.slots g).price = (slotGet s.slots g).price)
    (hidx7 : ∀ e ∈ st.index, e = (id, h) ∨
      (e.2 ∈ levelsHandles lv ++ levelsHandles s.bids ∧ (slotGet st.slots e.2).id = e.1))
    (hidx8 : ∀ g ∈ levelsHandles lv ++ levelsHandles s.bids,
      ((slotGet st.slots g).id, g) ∈ st.index)
    (hkeys : (st.index.map Prod.fst).Nodup)
    (hagg_mem : (id, h) ∈ st.index)
    (hlvorig : ∀ pl ∈ lv, ∃ pl0 ∈ s.asks, pl.1 = pl0.1 ∧
      ∀ g ∈ pl.2.orders, g ∈ pl0.2.orders)
    (hagid : ag.id = id)
    (hags : ag.side = Side.BUY)
    (hagp : ag.price = pr) :
    (∀ e ∈ st.index,
      e.2 ∈ levelsHandles (addToLevels bidBefore pr h ag.remaining_qty st.bids) ++
        levelsHandles lv ∧
      (slotGet (st.slots.set h ag) e.2).id = e.1) ∧
    (∀ g ∈ levelsHandles (addToLevels bidBefore pr h ag.remaining_qty st.bids) ++
        levelsHandles lv,
      ((slotGet (st.slots.set h ag) g).id, g) ∈ st.index) ∧
    (st.index.map Prod.fst).Nodup ∧
    (levelsHandles (addToLevels bidBefore pr h ag.remaining_qty st.bids) ++
      levelsHandles lv).Nodup ∧
    (∀ g ∈ st.free, g ∉ levelsHandles (addToLevels bidBefore pr h ag.remaining_qty
      st.bids) ++ levelsHandles lv) ∧
    st.free.Nodup ∧
    (∀ g ∈ levelsHandles (addToLevels bidBefore pr h ag.remaining_qty st.bids) ++
      levelsHandles lv, g < (st.slots.set h ag).length) ∧
    (∀ g ∈ st.free, g < (st.slots.set h ag).length) ∧
    (∀ pl ∈ addToLevels bidBefore pr h ag.remaining_qty st.bids, ∀ g ∈ pl.2.orders,
      (slotGet (st.slots.set h ag) g).side = Side.BUY ∧
      (slotGet (st.slots.set h ag) g).price = pl.1) ∧
    (∀ pl ∈ lv, ∀ g ∈ pl.2.orders,
      (slotGet (st.slots.set h ag) g).side = Side.SELL ∧
      (slotGet (st.slots.set h ag) g).price = pl.1) := by
  have hnd : (levelsHandles s.bids ++ levelsHandles s.asks).Nodup := hinv.handlesNodup
  have hBnd : (levelsHandles s.bids).Nodup := hnd.of_append_left
  have hAnd : (levelsHandles s.asks).Nodup := hnd.of_append_right
  have hABdisj : ∀ g ∈ levelsHandles s.bids, g ∉ levelsHandles s.asks :=
    fun g hg => List.disjoint_of_nodup_append hnd hg
  have hVsubA : ∀ g ∈ levelsHandles lv, g ∈ levelsHandles s.asks := by
    intro g hg
    rw [hdec]
    exact List.mem_append_right _ hg
  have hPsubA : ∀ g ∈ pop, g ∈ levelsHandles s.asks := by
    intro g hg
    rw [hdec]
    exact List.mem_append_left _ hg
  have hVnd : (levelsHandles lv).Nodup := (hdec ▸ hAnd).of_append_right
  have hPVdisj : ∀ g ∈ pop, g ∉ levelsHandles lv :=
    fun g hg => List.disjoint_of_nodup_append (hdec ▸ hAnd) hg
  have hPnd : pop.Nodup := (hdec ▸ hAnd).of_append_left
  have hh_notAll : h ∉ allHandles s :=
    hinv.freeDisjoint h (by rw [hft]; exact List.mem_cons_self _ _)
  have hh_notA : h ∉ levelsHandles s.asks :=
    fun hc => hh_notAll (List.mem_append_right _ hc)
  have hh_notB : h ∉ levelsHandles s.bids :=
    fun hc => hh_notAll (List.mem_append_left _ hc)
  have hh_lt : h < s.slots.length :=
    hinv.freeLt h (by rw [hft]; exact List.mem_cons_self _ _)
  have hlt' : h < st.slots.length := hlen.symm ▸ hh_lt
  have hfnd : (h :: t).Nodup := by
    have := hinv.freeNodup
    rw [hft] at this
    exact this
  have hh_nott : h ∉ t := (List.nodup_cons.mp hfnd).1
  have htnd : t.Nodup := (List.nodup_cons.mp hfnd).2
  have ht_not : ∀ g ∈ t, g ∉ allHandles s :=
    fun g hg => hinv.freeDisjoint g (by rw [hft]; exact List.mem_cons_of_mem _ hg)
  have hid_notkeys : id ∉ s.index.map Prod.fst := (idxFind_eq_none_iff id s.index).mp hmid
  have hsid_notid : ∀ g ∈ allHandles s, (slotGet s.slots g).id ≠ id := by
    intro g hg hc
    exact hid_notkeys (hc ▸ List.mem_map.mpr ⟨((slotGet s.slots g).id, g),
      hinv.complete g hg, rfl⟩)
  have hAll_of_B : ∀ g ∈ levelsHandles s.bids, g ∈ allHandles s :=
    fun g hg => List.mem_append_left _ hg
  have hAll_of_A : ∀ g ∈ levelsHandles s.asks, g ∈ allHandles s :=
    fun g hg => List.mem_append_right _ hg
  have hperm := addToLevels_handles_perm bidBefore pr h ag.remaining_qty st.bids
  have hmemNew : ∀ g, g ∈ levelsHandles
      (addToLevels bidBefore pr h ag.remaining_qty st.bids) ↔
      g = h ∨ g ∈ levelsHandles st.bids := by
    intro g
    rw [hperm.mem_iff]
    exact List.mem_cons
  have hkeqh : (slotGet (st.slots.set h ag) h).id = id :=
    (congrArg Order.id (slotGet_set_self hlt' ag)).trans hagid
  refine ⟨?_, ?_, hkeys, ?_, ?_, ?_, ?_, ?_, ?_, ?_⟩
  · intro e he
    rcases hidx7 e he with h1 | ⟨h2, h3⟩
    · subst h1
      exact ⟨List.mem_append_left _ ((hmemNew h).mpr (Or.inl rfl)), hkeqh⟩
    · have hne : e.2 ≠ h := by
        intro hc
        rcases List.mem_append.mp h2 with h4 | h4
        · exact hh_notA (hVsubA h (hc ▸ h4))
        · exact hh_notB (hc ▸ h4)
      constructor
      · rcases List.mem_append.mp h2 with h4 | h4
        · exact List.mem_append_right _ h4
        · exact List.mem_append_left _ ((hmemNew e.2).mpr (Or.inr (hbids.symm ▸ h4)))
      · rw [slotGet_set_ne hne]
        exact h3
  · intro g hg
    rcases List.mem_append.mp hg with h4 | h4
    · rcases (hmemNew g).mp h4 with h5 | h5
      · subst h5
        exact hkeqh.symm ▸ hagg_mem
      · have h5' : g ∈ levelsHandles s.bids := hbids ▸ h5
        have hgh : g ≠ h := fun hc => hh_notB (hc ▸ h5')
        have hkeq : (slotGet (st.slots.set h ag) g).id = (slotGet st.slots g).id :=
          congrArg Order.id (slotGet_set_ne hgh _ _)
        exact hkeq.symm ▸ hidx8 g (List.mem_append_right _ h5')
    · have hgA : g ∈ levelsHandles s.asks := hVsubA g h4
      have hgh : g ≠ h := fun hc => hh_notA (hc ▸ hgA)
      have hkeq : (slotGet (st.slots.set h ag) g).id = (slotGet st.slots g).id :=
        congrArg Order.id (slotGet_set_ne hgh _ _)
      exact hkeq.symm ▸ hidx8 g (List.mem_append_left _ h4)
  · refine List.nodup_append.mpr ⟨?_, hVnd, ?_⟩
    · refine hperm.nodup_iff.mpr (List.nodup_cons.mpr ⟨?_, hbids.symm ▸ hBnd⟩)
      intro hc
      exact hh_notB (hbids ▸ hc)
    · intro a hma hmb
      rcases (hmemNew a).mp hma with h5 | h5
      · exact hh_notA (h5 ▸ hVsubA a hmb)
      · exact hABdisj a (hbids ▸ h5) (hVsubA a hmb)
  · intro g hg
    have hg' : g ∈ pop.reverse ++ t := hfree2 ▸ hg
    intro hc
    rcases List.mem_append.mp hg' with h4 | h4
    · have hgA : g ∈ levelsHandles s.asks := hPsubA g (List.mem_reverse.mp h4)
      rcases List.mem_append.mp hc with h5 | h5
      · rcases (hmemNew g).mp h5 with h6 | h6
        · exact hh_notA (h6 ▸ hgA)
        · exact hABdisj g (hbids ▸ h6) hgA
      · exact hPVdisj g (List.mem_reverse.mp h4) h5
    · rcases List.mem_append.mp hc with h5 | h5
      · rcases (hmemNew g).mp h5 with h6 | h6
        · exact hh_nott (h6 ▸ h4)
        · exact ht_not g h4 (hAll_of_B g (hbids ▸ h6))
      · exact ht_not g h4 (hAll_of_A g (hVsubA g h5))
  · rw [hfree2]
    refine List.nodup_append.mpr ⟨List.nodup_reverse.mpr hPnd, htnd, ?_⟩
    intro a hma hmb
    exact ht_not a hmb (hAll_of_A a (hPsubA a (List.mem_reverse.mp hma)))
  · intro g hg
    rw [List.length_set, hlen]
    rcases List.mem_append.mp hg with h4 | h4
    · rcases (hmemNew g).mp h4 with h5 | h5
      · exact h5 ▸ hh_lt
      · exact hinv.handlesLt g (hAll_of_B g (hbids ▸ h5))
    · exact hinv.handlesLt g (hAll_of_A g (hVsubA g h4))
  · intro g hg
    rw [List.length_set, hlen]
    have hg' : g ∈ pop.reverse ++ t := hfree2 ▸ hg
    rcases List.mem_append.mp hg' with h4 | h4
    · exact hinv.handlesLt g (hAll_of_A g (hPsubA g (List.mem_reverse.mp h4)))
    · exact hinv.freeLt g (by rw [hft]; exact List.mem_cons_of_mem _ h4)
  · intro pl hpl g hg
    rcases addToLevels_mem_orders bidBefore pr h ag.remaining_qty st.bids pl hpl g hg
      with ⟨h5, h6⟩ | ⟨pl0, hpl0, hq0, hg0⟩
    · subst h5
      constructor
      · exact (congrArg Order.side (slotGet_set_self hlt' ag)).trans hags
      · exact (congrArg Order.price (slotGet_set_self hlt' ag)).trans
          (hagp.trans h6.symm)
    · have hpl0' : pl0 ∈ s.bids := hbids ▸ hpl0
      have hgB : g ∈ levelsHandles s.bids := mem_levelsHandles.mpr ⟨pl0, hpl0', hg0⟩
      have hgh : g ≠ h := fun hc => hh_notB (hc ▸ hgB)
      have hfull : slotGet (st.slots.set h ag) g = slotGet s.slots g :=
        (slotGet_set_ne hgh _ _).trans (kslot g hgh (hABdisj g hgB))
      rw [hfull]
      have hbs := hinv.bidsSide pl0 hpl0' g hg0
      exact ⟨hbs.1, hbs.2.trans hq0⟩
  · intro pl hpl g hg
    obtain ⟨pl0, hpl0, hfst, hsubord⟩ := hlvorig pl hpl
    have hg0 : g ∈ pl0.2.orders := hsubord g hg
    have hgA : g ∈ levelsHandles s.asks := mem_levelsHandles.mpr ⟨pl0, hpl0, hg0⟩
    have hgh : g ≠ h := fun hc => hh_notA (hc ▸ hgA)
    have hside := hinv.asksSide pl0 hpl0 g hg0
    constructor
    · exact (congrArg Order.side (slotGet_set_ne hgh _ _)).trans
        ((kid g hgh).2.1.trans hside.1)
    · exact (congrArg Order.price (slotGet_set_ne hgh _ _)).trans
        ((kid g hgh).2.2.trans (hside.2.trans hfst.symm))

/-- Bookkeeping for the tail of `process_new_order` on a SELL whose
aggressive order ends fully filled. -/
theorem sellFilledFinish (s st : OrderBookState) (lv : List (Int × LimitLevel))
    (ag : Order) (h id : Nat) (t : List Nat) (pop : List Nat)
    (hinv : IdxInv s)
    (hft : s.free = h :: t)
    (hmid : idxFind id s.index = none)
    (hasks : st.asks = s.asks)
    (hlen : st.slots.length = s.slots.length)
    (hfree2 : st.free = pop.reverse ++ t)
    (hdec : levelsHandles s.bids = pop ++ levelsHandles lv)
    (kslot : ∀ g, g ≠ h → g ∉ levelsHandles s.bids →
      slotGet st.slots g = slotGet s.slots g)
    (kid : ∀ g, g ≠ h → (slotGet st.slots g).id = (slotGet s.slots g).id ∧
      (slotGet st.slots g).side = (slotGet s.slots g).side ∧
      (slotGet st.slots g).price = (slotGet s.slots g).price)
    (hidx7 : ∀ e ∈ st.index, e = (id, h) ∨
      (e.2 ∈ levelsHandles lv ++ levelsHandles s.asks ∧ (slotGet st.slots e.2).id = e.1))
    (hidx8 : ∀ g ∈ levelsHandles lv ++ levelsHandles s.asks,
      ((slotGet st.slots g).id, g) ∈ st.index)
    (hkeys : (st.index.map Prod.fst).Nodup)
    (hlvorig : ∀ pl ∈ lv, ∃ pl0 ∈ s.bids, pl.1 = pl0.1 ∧
      ∀ g ∈ pl.2.orders, g ∈ pl0.2.orders) :
    (∀ e ∈ idxErase id st.index,
      e.2 ∈ levelsHandles lv ++ levelsHandles st.asks ∧
      (slotGet (st.slots.set h ag) e.2).id = e.1) ∧
    (∀ g ∈ levelsHandles lv ++ levelsHandles st.asks,
      ((slotGet (st.slots.set h ag) g).id, g) ∈ idxErase id st.index) ∧
    ((idxErase id st.index).map Prod.fst).Nodup ∧
    (levelsHandles lv ++ levelsHandles st.asks).Nodup ∧
    (∀ g ∈ h :: st.free, g ∉ levelsHandles lv ++ levelsHandles st.asks) ∧
    (h :: st.free).Nodup ∧
    (∀ g ∈ levelsHandles lv ++ levelsHandles st.asks, g < (st.slots.set h ag).length) ∧
    (∀ g ∈ h :: st.free, g < (st.slots.set h ag).length) ∧
    (∀ pl ∈ lv, ∀ g ∈ pl.2.orders,
      (slotGet (st.slots.set h ag) g).side = Side.BUY ∧
      (slotGet (st.slots.set h ag) g).price = pl.1) ∧
    (∀ pl ∈ st.asks, ∀ g ∈ pl.2.orders,
      (slotGet (st.slots.set h ag) g).side = Side.SELL ∧
      (slotGet (st.slots.set h ag) g).price = pl.1) := by
  have hnd : (levelsHandles s.bids ++ levelsHandles s.asks).Nodup := hinv.handlesNodup
  have hBnd : (levelsHandles s.bids).Nodup := hnd.of_append_left
  have hAnd : (levelsHandles s.asks).Nodup := hnd.of_append_right
  have hBAdisj : ∀ g ∈ levelsHandles s.bids, g ∉ levelsHandles s.asks :=
    fun g hg => List.disjoint_of_nodup_append hnd hg
  have hVsubB : ∀ g ∈ levelsHandles lv, g ∈ levelsHandles s.bids := by
    intro g hg
    rw [hdec]
    exact List.mem_append_right _ hg
  have hPsubB : ∀ g ∈ pop, g ∈ levelsHandles s.bids := by
    intro g hg
    rw [hdec]
    exact List.mem_append_left _ hg
  have hVnd : (levelsHandles lv).Nodup := (hdec ▸ hBnd).of_append_right
  have hPVdisj : ∀ g ∈ pop, g ∉ levelsHandles lv :=
    fun g hg => List.disjoint_of_nodup_append (hdec ▸ hBnd) hg
  have hPnd : pop.Nodup := (hdec ▸ hBnd).of_append_left
  have hh_notAll : h ∉ allHandles s :=
    hinv.freeDisjoint h (by rw [hft]; exact List.mem_cons_self _ _)
  have hh_notA : h ∉ levelsHandles s.asks :=
    fun hc => hh_notAll (List.mem_append_right _ hc)
  have hh_notB : h ∉ levelsHandles s.bids :=
    fun hc => hh_notAll (List.mem_append_left _ hc)
  have hh_lt : h < s.slots.length :=
    hinv.freeLt h (by rw [hft]; exact List.mem_cons_self _ _)
  have hfnd : (h :: t).Nodup := by
    have := hinv.freeNodup
    rw [hft] at this
    exact this
  have hh_nott : h ∉ t := (List.nodup_cons.mp hfnd).1
  have htnd : t.Nodup := (List.nodup_cons.mp hfnd).2
  have ht_not : ∀ g ∈ t, g ∉ allHandles s :=
    fun g hg => hinv.freeDisjoint g (by rw [hft]; exact List.mem_cons_of_mem _ hg)
  have hid_notkeys : id ∉ s.index.map Prod.fst := (idxFind_eq_none_iff id s.index).mp hmid
  have hsid_notid : ∀ g ∈ allHandles s, (slotGet s.slots g).id ≠ id := by
    intro g hg hc
    exact hid_notkeys (hc ▸ List.mem_map.mpr ⟨((slotGet s.slots g).id, g),
      hinv.complete g hg, rfl⟩)
  have hAll_of_B : ∀ g ∈ levelsHandles s.bids, g ∈ allHandles s :=
    fun g hg => List.mem_append_left _ hg
  have hAll_of_A : ∀ g ∈ levelsHandles s.asks, g ∈ allHandles s :=
    fun g hg => List.mem_append_right _ hg
  refine ⟨?_, ?_, (idxErase_keys_sublist id st.index).nodup hkeys, ?_, ?_, ?_, ?_, ?_,
    ?_, ?_⟩
  · intro e he
    have hee := (mem_idxErase_iff hkeys e).mp he
    rcases hidx7 e hee.1 with h1 | ⟨h2, h3⟩
    · exact absurd (congrArg Prod.fst h1) hee.2
    · have hne : e.2 ≠ h := by
        intro hc
        rcases List.mem_append.mp h2 with h4 | h4
        · exact hh_notB (hVsubB h (hc ▸ h4))
        · exact hh_notA (hc ▸ h4)
      constructor
      · rcases List.mem_append.mp h2 with h4 | h4
        · exact List.mem_append_left _ h4
        · exact List.mem_append_right _ (hasks.symm ▸ h4)
      · rw [slotGet_set_ne hne]
        exact h3
  · intro g hg
    rcases List.mem_append.mp hg with h4 | h4
    · have hgB : g ∈ levelsHandles s.bids := hVsubB g h4
      have hgh : g ≠ h := fun hc => hh_notB (hc ▸ hgB)
      have hkeq : (slotGet (st.slots.set h ag) g).id = (slotGet st.slots g).id :=
        congrArg Order.id (slotGet_set_ne hgh _ _)
      refine (mem_idxErase_iff hkeys _).mpr ⟨?_, ?_⟩
      · exact hkeq.symm ▸ hidx8 g (List.mem_append_left _ h4)
      · intro hc
        exact hsid_notid g (hAll_of_B g hgB)
          ((kid g hgh).1.symm.trans (hkeq.symm.trans hc))
    · have h4' : g ∈ levelsHandles s.asks := hasks ▸ h4
      have hgh : g ≠ h := fun hc => hh_notA (hc ▸ h4')
      have hkeq : (slotGet (st.slots.set h ag) g).id = (slotGet st.slots g).id :=
        congrArg Order.id (slotGet_set_ne hgh _ _)
      refine (mem_idxErase_iff hkeys _).mpr ⟨?_, ?_⟩
      · exact hkeq.symm ▸ hidx8 g (List.mem_append_right _ h4')
      · intro hc
        exact hsid_notid g (hAll_of_A g h4')
          ((kid g hgh).1.symm.trans (hkeq.symm.trans hc))
  · refine List.nodup_append.mpr ⟨hVnd, hasks.symm ▸ hAnd, ?_⟩
    intro a hma hmb
    exact hBAdisj a (hVsubB a hma) (hasks ▸ hmb)
  · intro g hg
    rcases List.mem_cons.mp hg with h1 | h1
    · subst h1
      intro hc
      rcases List.mem_append.mp hc with h4 | h4
      · exact hh_notB (hVsubB g h4)
      · exact hh_notA (hasks ▸ h4)
    · have h1' : g ∈ pop.reverse ++ t := hfree2 ▸ h1
      rcases List.mem_append.mp h1' with h4 | h4
      · have hgB : g ∈ levelsHandles s.bids := hPsubB g (List.mem_reverse.mp h4)
        intro hc
        rcases List.mem_append.mp hc with h5 | h5
        · exact hPVdisj g (List.mem_reverse.mp h4) h5
        · exact hBAdisj g hgB (hasks ▸ h5)
      · intro hc
        rcases List.mem_append.mp hc with h5 | h5
        · exact ht_not g h4 (hAll_of_B g (hVsubB g h5))
        · exact ht_not g h4 (hAll_of_A g (hasks ▸ h5))
  · refine List.nodup_cons.mpr ⟨?_, ?_⟩
    · intro hc
      have hc' : h ∈ pop.reverse ++ t := hfree2 ▸ hc
      rcases List.mem_append.mp hc' with h4 | h4
      · exact hh_notB (hPsubB h (List.mem_reverse.mp h4))
      · exact hh_nott h4
    · rw [hfree2]
      refine List.nodup_append.mpr ⟨List.nodup_reverse.mpr hPnd, htnd, ?_⟩
      intro a hma hmb
      exact ht_not a hmb (hAll_of_B a (hPsubB a (List.mem_reverse.mp hma)))
  · intro g hg
    rw [List.length_set, hlen]
    rcases List.mem_append.mp hg with h4 | h4
    · exact hinv.handlesLt g (hAll_of_B g (hVsubB g h4))
    · exact hinv.handlesLt g (hAll_of_A g (hasks ▸ h4))
  · intro g hg
    rw [List.length_set, hlen]
    rcases List.mem_cons.mp hg with h1 | h1
    · subst h1
      exact hh_lt
    · have h1' : g ∈ pop.reverse ++ t := hfree2 ▸ h1
      rcases List.mem_append.mp h1' with h4 | h4
      · exact hinv.handlesLt g (hAll_of_B g (hPsubB g (List.mem_reverse.mp h4)))
      · exact hinv.freeLt g (by rw [hft]; exact List.mem_cons_of_mem _ h4)
  · intro pl hpl g hg
    obtain ⟨pl0, hpl0, hfst, hsubord⟩ := hlvorig pl hpl
    have hg0 : g ∈ pl0.2.orders := hsubord g hg
    have hgB : g ∈ levelsHandles s.bids := mem_levelsHandles.mpr ⟨pl0, hpl0, hg0⟩
    have hgh : g ≠ h := fun hc => hh_notB (hc ▸ hgB)
    have hside := hinv.bidsSide pl0 hpl0 g hg0
    constructor
    · exact (congrArg Order.side (slotGet_set_ne hgh _ _)).trans
        ((kid g hgh).2.1.trans hside.1)
    · exact (congrArg Order.price (slotGet_set_ne hgh _ _)).trans
        ((kid g hgh).2.2.trans (hside.2.trans hfst.symm))
  · intro pl hpl g hg
    have hpl' : pl ∈ s.asks := hasks ▸ hpl
    have hgA : g ∈ levelsHandles s.asks := mem_levelsHandles.mpr ⟨pl, hpl', hg⟩
    have hgh : g ≠ h := fun hc => hh_notA (hc ▸ hgA)
    have hfull : slotGet (st.slots.set h ag) g = slotGet s.slots g :=
      (slotGet_set_ne hgh _ _).trans
        (kslot g hgh (fun hc => hBAdisj g hc hgA))
    rw [hfull]
    exact hinv.asksSide pl hpl' g hg

/-- Bookkeeping for the tail of `process_new_order` on a SELL with a
residual quantity. -/
theorem sellRestFinish (s st : OrderBookState) (lv : List (Int × LimitLevel))
    (ag : Order) (h id : Nat) (pr : Int) (t : List Nat) (pop : List Nat)
    (hinv : IdxInv s)
    (hft : s.free = h :: t)
    (hmid : idxFind id s.index = none)
    (hasks : st.asks = s.asks)
    (hlen : st.slots.length = s.slots.length)
    (hfree2 : st.free = pop.reverse ++ t)
    (hdec : levelsHandles s.bids = pop ++ levelsHandles lv)
    (kslot : ∀ g, g ≠ h → g ∉ levelsHandles s.bids →
      slotGet st.slots g = slotGet s.slots g)
    (kid : ∀ g, g ≠ h → (slotGet st.slots g).id = (slotGet s.slots g).id ∧
      (slotGet st.slots g).side = (slotGet s.slots g).side ∧
      (slotGet st.slots g).price = (slotGet s.slots g).price)
    (hidx7 : ∀ e ∈ st.index, e = (id, h) ∨
      (e.2 ∈ levelsHandles lv ++ levelsHandles s.asks ∧ (slotGet st.slots e.2).id = e.1))
    (hidx8 : ∀ g ∈ levelsHandles lv ++ levelsHandles s.asks,
      ((slotGet st.slots g).id, g) ∈ st.index)
    (hkeys : (st.index.map Prod.fst).Nodup)
    (hagg_mem : (id, h) ∈ st.index)
    (hlvorig : ∀ pl ∈ lv, ∃ pl0 ∈ s.bids, pl.1 = pl0.1 ∧
      ∀ g ∈ pl.2.orders, g ∈ pl0.2.orders)
    (hagid : ag.id = id)
    (hags : ag.side = Side.SELL)
    (hagp : ag.price = pr) :
    (∀ e ∈ st.index,
      e.2 ∈ levelsHandles lv ++
        levelsHandles (addToLevels askBefore pr h ag.remaining_qty st.asks) ∧
      (slotGet (st.slots.set h ag) e.2).id = e.1) ∧
    (∀ g ∈ levelsHandles lv ++
        levelsHandles (addToLevels askBefore pr h ag.remaining_qty st.asks),
      ((slotGet (st.slots.set h ag) g).id, g) ∈ st.index) ∧
    (st.index.map Prod.fst).Nodup ∧
    (levelsHandles lv ++
      levelsHandles (addToLevels askBefore pr h ag.remaining_qty st.asks)).Nodup ∧
    (∀ g ∈ st.free, g ∉ levelsHandles lv ++
      levelsHandles (addToLevels askBefore pr h ag.remaining_qty st.asks)) ∧
    st.free.Nodup ∧
    (∀ g ∈ levelsHandles lv ++
      levelsHandles (addToLevels askBefore pr h ag.remaining_qty st.asks),
      g < (st.slots.set h ag).length) ∧
    (∀ g ∈ st.free, g < (st.slots.set h ag).length) ∧
    (∀ pl ∈ lv, ∀ g ∈ pl.2.orders,
      (slotGet (st.slots.set h ag) g).side = Side.BUY ∧
      (slotGet (st.slots.set h ag) g).price = pl.1) ∧
    (∀ pl ∈ addToLevels askBefore pr h ag.remaining_qty st.asks, ∀ g ∈ pl.2.orders,
      (slotGet (st.slots.set h ag) g).side = Side.SELL ∧
      (slotGet (st.slots.set h ag) g).price = pl.1) := by
  have hnd : (levelsHandles s.bids ++ levelsHandles s.asks).Nodup := hinv.handlesNodup
  have hBnd : (levelsHandles s.bids).Nodup := hnd.of_append_left
  have hAnd : (levelsHandles s.asks).Nodup := hnd.of_append_right
  have hBAdisj : ∀ g ∈ levelsHandles s.bids, g ∉ levelsHandles s.asks :=
    fun g hg => List.disjoint_of_nodup_append hnd hg
  have hVsubB : ∀ g ∈ levelsHandles lv, g ∈ levelsHandles s.bids := by
    intro g hg
    rw [hdec]
    exact List.mem_append_right _ hg
  have hPsubB : ∀ g ∈ pop, g ∈ levelsHandles s.bids := by
    intro g hg
    rw [hdec]
    exact List.mem_append_left _ hg
  have hVnd : (levelsHandles lv).Nodup := (hdec ▸ hBnd).of_append_right
  have hPVdisj : ∀ g ∈ pop, g ∉ levelsHandles lv :=
    fun g hg => List.disjoint_of_nodup_append (hdec ▸ hBnd) hg
  have hPnd : pop.Nodup := (hdec ▸ hBnd).of_append_left
  have hh_notAll : h ∉ allHandles s :=
    hinv.freeDisjoint h (by rw [hft]; exact List.mem_cons_self _ _)
  have hh_notA : h ∉ levelsHandles s.asks :=
    fun hc => hh_notAll (List.mem_append_right _ hc)
  have hh_notB : h ∉ levelsHandles s.bids :=
    fun hc => hh_notAll (List.mem_append_left _ hc)
  have hh_lt : h < s.slots.length :=
    hinv.freeLt h (by rw [hft]; exact List.mem_cons_self _ _)
  have hlt' : h < st.slots.length := hlen.symm ▸ hh_lt
  have hfnd : (h :: t).Nodup := by
    have := hinv.freeNodup
    rw [hft] at this
    exact this
  have hh_nott : h ∉ t := (List.nodup_cons.mp hfnd).1
  have htnd : t.Nodup := (List.nodup_cons.mp hfnd).2
  have ht_not : ∀ g ∈ t, g ∉ allHandles s :=
    fun g hg => hinv.freeDisjoint g (by rw [hft]; exact List.mem_cons_of_mem _ hg)
  have hid_notkeys : id ∉ s.index.map Prod.fst := (idxFind_eq_none_iff id s.index).mp hmid
  have hsid_notid : ∀ g ∈ allHandles s, (slotGet s.slots g).id ≠ id := by
    intro g hg hc
    exact hid_notkeys (hc ▸ List.mem_map.mpr ⟨((slotGet s.slots g).id, g),
      hinv.complete g hg, rfl⟩)
  have hAll_of_B : ∀ g ∈ levelsHandles s.bids, g ∈ allHandles s :=
    fun g hg => List.mem_append_left _ hg
  have hAll_of_A : ∀ g ∈ levelsHandles s.asks, g ∈ allHandles s :=
    fun g hg => List.mem_append_right _ hg
  have hperm := addToLevels_handles_perm askBefore pr h ag.remaining_qty st.asks
  have hmemNew : ∀ g, g ∈ levelsHandles
      (addToLevels askBefore pr h ag.remaining_qty st.asks) ↔
      g = h ∨ g ∈ levelsHandles st.asks := by
    intro g
    rw [hperm.mem_iff]
    exact List.mem_cons
  have hkeqh : (slotGet (st.slots.set h ag) h).id = id :=
    (congrArg Order.id (slotGet_set_self hlt' ag)).trans hagid
  refine ⟨?_, ?_, hkeys, ?_, ?_, ?_, ?_, ?_, ?_, ?_⟩
  · intro e he
    rcases hidx7 e he with h1 | ⟨h2, h3⟩
    · subst h1
      exact ⟨List.mem_append_right _ ((hmemNew h).mpr (Or.inl rfl)), hkeqh⟩
    · have hne : e.2 ≠ h := by
        intro hc
        rcases List.mem_append.mp h2 with h4 | h4
        · exact hh_notB (hVsubB h (hc ▸ h4))
        · exact hh_notA (hc ▸ h4)
      constructor
      · rcases List.mem_append.mp h2 with h4 | h4
        · exact List.mem_append_left _ h4
        · exact List.mem_append_right _ ((hmemNew e.2).mpr (Or.inr (hasks.symm ▸ h4)))
      · rw [slotGet_set_ne hne]
        exact h3
  · intro g hg
    rcases List.mem_append.mp hg with h4 | h4
    · have hgB : g ∈ levelsHandles s.bids := hVsubB g h4
      have hgh : g ≠ h := fun hc => hh_notB (hc ▸ hgB)
      have hkeq : (slotGet (st.slots.set h ag) g).id = (slotGet st.slots g).id :=
        congrArg Order.id (slotGet_set_ne hgh _ _)
      exact hkeq.symm ▸ hidx8 g (List.mem_append_left _ h4)
    · rcases (hmemNew g).mp h4 with h5 | h5
      · subst h5
        exact hkeqh.symm ▸ hagg_mem
      · have h5' : g ∈ levelsHandles s.asks := hasks ▸ h5
        have hgh : g ≠ h := fun hc => hh_notA (hc ▸ h5')
        have hkeq : (slotGet (st.slots.set h ag) g).id = (slotGet st.slots g).id :=
          congrArg Order.id (slotGet_set_ne hgh _ _)
        exact hkeq.symm ▸ hidx8 g (List.mem_append_right _ h5')
  · refine List.nodup_append.mpr ⟨hVnd, ?_, ?_⟩
    · refine hperm.nodup_iff.mpr (List.nodup_cons.mpr ⟨?_, hasks.symm ▸ hAnd⟩)
      intro hc
      exact hh_notA (hasks ▸ hc)
    · intro a hma hmb
      rcases (hmemNew a).mp hmb with h5 | h5
      · exact hh_notB (h5 ▸ hVsubB a hma)
      · exact hBAdisj a (hVsubB a hma) (hasks ▸ h5)
  · intro g hg
    have hg' : g ∈ pop.reverse ++ t := hfree2 ▸ hg
    intro hc
    rcases List.mem_append.mp hg' with h4 | h4
    · have hgB : g ∈ levelsHandles s.bids := hPsubB g (List.mem_reverse.mp h4)
      rcases List.mem_append.mp hc with h5 | h5
      · exact hPVdisj g (List.mem_reverse.mp h4) h5
      · rcases (hmemNew g).mp h5 with h6 | h6
        · exact hh_notB (h6 ▸ hgB)
        · exact hBAdisj g hgB (hasks ▸ h6)
    · rcases List.mem_append.mp hc with h5 | h5
      · exact ht_not g h4 (hAll_of_B g (hVsubB g h5))
      · rcases (hmemNew g).mp h5 with h6 | h6
        · exact hh_nott (h6 ▸ h4)
        · exact ht_not g h4 (hAll_of_A g (hasks ▸ h6))
  · rw [hfree2]
    refine List.nodup_append.mpr ⟨List.nodup_reverse.mpr hPnd, htnd, ?_⟩
    intro a hma hmb
    exact ht_not a hmb (hAll_of_B a (hPsubB a (List.mem_reverse.mp hma)))
  · intro g hg
    rw [List.length_set, hlen]
    rcases List.mem_append.mp hg with h4 | h4
    · exact hinv.handlesLt g (hAll_of_B g (hVsubB g h4))
    · rcases (hmemNew g).mp h4 with h5 | h5
      · exact h5 ▸ hh_lt
      · exact hinv.handlesLt g (hAll_of_A g (hasks ▸ h5))
  · intro g hg
    rw [List.length_set, hlen]
    have hg' : g ∈ pop.reverse ++ t := hfree2 ▸ hg
    rcases List.mem_append.mp hg' with h4 | h4
    · exact hinv.handlesLt g (hAll_of_B g (hPsubB g (List.mem_reverse.mp h4)))
    · exact hinv.freeLt g (by rw [hft]; exact List.mem_cons_of_mem _ h4)
  · intro pl hpl g hg
    obtain ⟨pl0, hpl0, hfst, hsubord⟩ := hlvorig pl hpl
    have hg0 : g ∈ pl0.2.orders := hsubord g hg
    have hgB : g ∈ levelsHandles s.bids := mem_levelsHandles.mpr ⟨pl0, hpl0, hg0⟩
    have hgh : g ≠ h := fun hc => hh_notB (hc ▸ hgB)
    have hside := hinv.bidsSide pl0 hpl0 g hg0
    constructor
    · exact (congrArg Order.side (slotGet_set_ne hgh _ _)).trans
        ((kid g hgh).2.1.trans hside.1)
    · exact (congrArg Order.price (slotGet_set_ne hgh _ _)).trans
        ((kid g hgh).2.2.trans (hside.2.trans hfst.symm))
  · intro pl hpl g hg
    rcases addToLevels_mem_orders askBefore pr h ag.remaining_qty st.asks pl hpl g hg
      with ⟨h5, h6⟩ | ⟨pl0, hpl0, hq0, hg0⟩
    · subst h5
      constructor
      · exact (congrArg Order.side (slotGet_set_self hlt' ag)).trans hags
      · exact (congrArg Order.price (slotGet_set_self hlt' ag)).trans
          (hagp.trans h6.symm)
    · have hpl0' : pl0 ∈ s.asks := hasks ▸ hpl0
      have hgA : g ∈ levelsHandles s.asks := mem_levelsHandles.mpr ⟨pl0, hpl0', hg0⟩
      have hgh : g ≠ h := fun hc => hh_notA (hc ▸ hgA)
      have hfull : slotGet (st.slots.set h ag) g = slotGet s.slots g :=
        (slotGet_set_ne hgh _ _).trans
          (kslot g hgh (fun hc => hBAdisj g hc hgA))
      rw [hfull]
      have hbs := hinv.asksSide pl0 hpl0' g hg0
      exact ⟨hbs.1, hbs.2.trans hq0⟩

theorem processNewOrder_idxInv (id : Nat) (side : Side) (price : Int) (qty : Nat)
    (s : OrderBookState) (hinv : IdxInv s) (hfresh : idxFind id s.index = none) :
    IdxInv (processNewOrder id side price qty s) := by
  cases hf : s.free with
  | nil =>
    simp only [processNewOrder, hf]
    refine ⟨hinv.entries, hinv.complete, hinv.keysNodup, hinv.handlesNodup, ?_,
      List.nodup_nil, hinv.handlesLt, ?_, hinv.bidsSide, hinv.asksSide⟩
    · intro g hg
      have hg' : g ∈ s.free := by
        rw [hf]
        exact hg
      exact hinv.freeDisjoint g hg'
    · intro g hg
      have hg' : g ∈ s.free := by
        rw [hf]
        exact hg
      exact hinv.freeLt g hg'
  | cons h t =>
    have hh_notall : h ∉ allHandles s :=
      hinv.freeDisjoint h (by rw [hf]; exact List.mem_cons_self _ _)
    have hh_lt : h < s.slots.length :=
      hinv.freeLt h (by rw [hf]; exact List.mem_cons_self _ _)
    have hfreshkeys : id ∉ s.index.map Prod.fst :=
      (idxFind_eq_none_iff id s.index).mp hfresh
    have hsid_neq : ∀ g ∈ allHandles s, (slotGet s.slots g).id ≠ id := by
      intro g hg hc
      exact hfreshkeys (hc ▸ List.mem_map.mpr ⟨_, hinv.complete g hg, rfl⟩)
    have happ : idxInsert id h s.index = s.index ++ [(id, h)] :=
      idxInsert_fresh_append h hfresh
    have hfnd : (h :: t).Nodup := by
      have := hinv.freeNodup
      rw [hf] at this
      exact this
    have hswapAB : ∀ g, g ∈ levelsHandles s.asks ++ levelsHandles s.bids →
        g ∈ allHandles s := by
      intro g hg
      rcases List.mem_append.mp hg with h1 | h1
      · exact List.mem_append_right _ h1
      · exact List.mem_append_left _ h1
    have hswapBA : ∀ g, g ∈ levelsHandles s.bids ++ levelsHandles s.asks →
        g ∈ allHandles s := fun g hg => hg
    cases side with
    | BUY =>
      obtain ⟨pop, n1, n2, n3, n4, n5, n6, n7, n8, n9, n10, n11⟩ :=
        matchOrderBuyGo_inv ⟨id, s.time + 1, Side.BUY, price, qty, qty⟩ s.asks
          { s with
              slots := s.slots.set h ⟨id, s.time + 1, Side.BUY, price, qty, qty⟩,
              free := t,
              index := idxInsert id h s.index,
              log := s.log ++ [Event.newOrder (s.time + 1) id Side.BUY price qty],
              time := s.time + 1 }
          (levelsHandles s.bids) h _ rfl
          (by
            have hnd := hinv.handlesNodup
            exact List.nodup_append.mpr ⟨(List.nodup_append.mp hnd).2.1,
              (List.nodup_append.mp hnd).1, (List.nodup_append.mp hnd).2.2.symm⟩)
          (by
            intro g hg
            have hg' : g ∈ t := hg
            have hgf : g ∈ s.free := by
              rw [hf]
              exact List.mem_cons_of_mem _ hg'
            have hnotall := hinv.freeDisjoint g hgf
            intro hc
            exact hnotall (hswapAB g hc))
          (List.nodup_cons.mp hfnd).2
          (by
            intro e he
            have he' : e ∈ s.index ++ [(id, h)] := by
              rw [← happ]
              exact he
            rcases List.mem_append.mp he' with h1 | h1
            · right
              have hent := hinv.entries e h1
              have hne : e.2 ≠ h := fun hc => hh_notall (hc ▸ hent.1)
              refine ⟨?_, (congrArg Order.id (slotGet_set_ne hne s.slots _)).trans
                hent.2⟩
              rcases List.mem_append.mp hent.1 with h2 | h2
              · exact List.mem_append_right _ h2
              · exact List.mem_append_left _ h2
            · left
              have he2 : e = (id, h) := by simpa using h1
              exact he2)
          (by
            intro g hg
            have hgall : g ∈ allHandles s := hswapAB g hg
            have hne : g ≠ h := fun hc => hh_notall (hc ▸ hgall)
            have hkeq := congrArg Order.id (slotGet_set_ne hne s.slots
              (⟨id, s.time + 1, Side.BUY, price, qty, qty⟩ : Order))
            exact hkeq.symm ▸ (happ.symm ▸
              List.mem_append_left _ (hinv.complete g hgall)))
          (by
            rw [happ, List.map_append]
            refine List.nodup_append.mpr ⟨hinv.keysNodup, List.nodup_singleton id, ?_⟩
            intro a hma hmb
            have ha2 : a = id := by simpa using hmb
            exact hfreshkeys (ha2 ▸ hma))
          (by
            exact happ.symm ▸ List.mem_append_right _ (List.mem_singleton.mpr rfl))
          (by
            intro hc
            exact hh_notall (hswapAB h hc))
          (List.nodup_cons.mp hfnd).1
          (by
            intro g hg
            exact lt_of_lt_of_eq (hinv.handlesLt g (hswapAB g hg))
              (List.length_set s.slots h _).symm)
          (by
            intro g hg
            have hgall : g ∈ allHandles s := hswapAB g hg
            have hne : g ≠ h := fun hc => hh_notall (hc ▸ hgall)
            intro hc
            have hc' : (slotGet s.slots g).id = id :=
              (congrArg Order.id (slotGet_set_ne hne s.slots _)).symm.trans hc
            exact hsid_neq g hgall hc')
      simp only [processNewOrder, hf]
      split
      · obtain ⟨c1, c2, c3, c4, c5, c6, c7, c8, c9, c10⟩ :=
          buyFilledFinish s
            (matchOrderBuyGo ⟨id, s.time + 1, Side.BUY, price, qty, qty⟩ s.asks
              { s with
                  slots := s.slots.set h ⟨id, s.time + 1, Side.BUY, price, qty, qty⟩,
                  free := t,
                  index := idxInsert id h s.index,
                  log := s.log ++ [Event.newOrder (s.time + 1) id Side.BUY price qty],
                  time := s.time + 1 }).st
            (matchOrderBuyGo ⟨id, s.time + 1, Side.BUY, price, qty, qty⟩ s.asks
              { s with
                  slots := s.slots.set h ⟨id, s.time + 1, Side.BUY, price, qty, qty⟩,
                  free := t,
                  index := idxInsert id h s.index,
                  log := s.log ++ [Event.newOrder (s.time + 1) id Side.BUY price qty],
                  time := s.time + 1 }).levels
            (matchOrderBuyGo ⟨id, s.time + 1, Side.BUY, price, qty, qty⟩ s.asks
              { s with
                  slots := s.slots.set h ⟨id, s.time + 1, Side.BUY, price, qty, qty⟩,
                  free := t,
                  index := idxInsert id h s.index,
                  log := s.log ++ [Event.newOrder (s.time + 1) id Side.BUY price qty],
                  time := s.time + 1 }).agg
            h id t pop hinv hf hfresh
            (matchOrderBuyGo_frame _ _ _).1
            (n5.trans (by simp))
            n2 n1
            (by
              intro g hgh hga
              exact (n3 g hga).trans (slotGet_set_ne hgh s.slots _))
            (by
              intro g hgh
              obtain ⟨d1, d2, d3⟩ := n4 g
              exact ⟨d1.trans (congrArg Order.id (slotGet_set_ne hgh s.slots _)),
                d2.trans (congrArg Order.side (slotGet_set_ne hgh s.slots _)),
                d3.trans (congrArg Order.price (slotGet_set_ne hgh s.slots _))⟩)
            n7 n8 n9 n11
        exact ⟨c1, c2, c3, c4, c5, c6, c7, c8, c9, c10⟩
      · obtain ⟨c1, c2, c3, c4, c5, c6, c7, c8, c9, c10⟩ :=
          buyRestFinish s
            (matchOrderBuyGo ⟨id, s.time + 1, Side.BUY, price, qty, qty⟩ s.asks
              { s with
                  slots := s.slots.set h ⟨id, s.time + 1, Side.BUY, price, qty, qty⟩,
                  free := t,
                  index := idxInsert id h s.index,
                  log := s.log ++ [Event.newOrder (s.time + 1) id Side.BUY price qty],
                  time := s.time + 1 }).st
            (matchOrderBuyGo ⟨id, s.time + 1, Side.BUY, price, qty, qty⟩ s.asks
              { s with
                  slots := s.slots.set h ⟨id, s.time + 1, Side.BUY, price, qty, qty⟩,
                  free := t,
                  index := idxInsert id h s.index,
                  log := s.log ++ [Event.newOrder (s.time + 1) id Side.BUY price qty],
                  time := s.time + 1 }).levels
            (matchOrderBuyGo ⟨id, s.time + 1, Side.BUY, price, qty, qty⟩ s.asks
              { s with
                  slots := s.slots.set h ⟨id, s.time + 1, Side.BUY, price, qty, qty⟩,
                  free := t,
                  index := idxInsert id h s.index,
                  log := s.log ++ [Event.newOrder (s.time + 1) id Side.BUY price qty],
                  time := s.time + 1 }).agg
            h id price t pop hinv hf hfresh
            (matchOrderBuyGo_frame _ _ _).1
            (n5.trans (by simp))
            n2 n1
            (by
              intro g hgh hga
              exact (n3 g hga).trans (slotGet_set_ne hgh s.slots _))
            (by
              intro g hgh
              obtain ⟨d1, d2, d3⟩ := n4 g
              exact ⟨d1.trans (congrArg Order.id (slotGet_set_ne hgh s.slots _)),
                d2.trans (congrArg Order.side (slotGet_set_ne hgh s.slots _)),
                d3.trans (congrArg Order.price (slotGet_set_ne hgh s.slots _))⟩)
            n7 n8 n9 n10 n11
            (matchOrderBuyGo_agg_fix _ _ _).1
            (matchOrderBuyGo_agg_fix _ _ _).2.1
            (matchOrderBuyGo_agg_fix _ _ _).2.2.1
        exact ⟨c1, c2, c3, c4, c5, c6, c7, c8, c9, c10⟩
    | SELL =>
      obtain ⟨pop, n1, n2, n3, n4, n5, n6, n7, n8, n9, n10, n11⟩ :=
        matchOrderSellGo_inv ⟨id, s.time + 1, Side.SELL, price, qty, qty⟩ s.bids
          { s with
              slots := s.slots.set h ⟨id, s.time + 1, Side.SELL, price, qty, qty⟩,
              free := t,
              index := idxInsert id h s.index,
              log := s.log ++ [Event.newOrder (s.time + 1) id Side.SELL price qty],
              time := s.time + 1 }
          (levelsHandles s.asks) h _ rfl
          hinv.handlesNodup
          (by
            intro g hg
            have hg' : g ∈ t := hg
            have hgf : g ∈ s.free := by
              rw [hf]
              exact List.mem_cons_of_mem _ hg'
            exact hinv.freeDisjoint g hgf)
          (List.nodup_cons.mp hfnd).2
          (by
            intro e he
            have he' : e ∈ s.index ++ [(id, h)] := by
              rw [← happ]
              exact he
            rcases List.mem_append.mp he' with h1 | h1
            · right
              have hent := hinv.entries e h1
              have hne : e.2 ≠ h := fun hc => hh_notall (hc ▸ hent.1)
              exact ⟨hent.1, (congrArg Order.id (slotGet_set_ne hne s.slots _)).trans
                hent.2⟩
            · left
              have he2 : e = (id, h) := by simpa using h1
              exact he2)
          (by
            intro g hg
            have hgall : g ∈ allHandles s := hg
            have hne : g ≠ h := fun hc => hh_notall (hc ▸ hgall)
            have hkeq := congrArg Order.id (slotGet_set_ne hne s.slots
              (⟨id, s.time + 1, Side.SELL, price, qty, qty⟩ : Order))
            exact hkeq.symm ▸ (happ.symm ▸
              List.mem_append_left _ (hinv.complete g hgall)))
          (by
            rw [happ, List.map_append]
            refine List.nodup_append.mpr ⟨hinv.keysNodup, List.nodup_singleton id, ?_⟩
            intro a hma hmb
            have ha2 : a = id := by simpa using hmb
            exact hfreshkeys (ha2 ▸ hma))
          (by
            exact happ.symm ▸ List.mem_append_right _ (List.mem_singleton.mpr rfl))
          (by
            intro hc
            exact hh_notall hc)
          (List.nodup_cons.mp hfnd).1
          (by
            intro g hg
            exact lt_of_lt_of_eq (hinv.handlesLt g hg)
              (List.length_set s.slots h _).symm)
          (by
            intro g hg
            have hgall : g ∈ allHandles s := hg
            have hne : g ≠ h := fun hc => hh_notall (hc ▸ hgall)
            intro hc
            have hc' : (slotGet s.slots g).id = id :=
              (congrArg Order.id (slotGet_set_ne hne s.slots _)).symm.trans hc
            exact hsid_neq g hgall hc')
      simp only [processNewOrder, hf]
      split
      · obtain ⟨c1, c2, c3, c4, c5, c6, c7, c8, c9, c10⟩ :=
          sellFilledFinish s
            (matchOrderSellGo ⟨id, s.time + 1, Side.SELL, price, qty, qty⟩ s.bids
              { s with
                  slots := s.slots.set h ⟨id, s.time + 1, Side.SELL, price, qty, qty⟩,
                  free := t,
                  index := idxInsert id h s.index,
                  log := s.log ++ [Event.newOrder (s.time + 1) id Side.SELL price qty],
                  time := s.time + 1 }).st
            (matchOrderSellGo ⟨id, s.time + 1, Side.SELL, price, qty, qty⟩ s.bids
              { s with
                  slots := s.slots.set h ⟨id, s.time + 1, Side.SELL, price, qty, qty⟩,
                  free := t,
                  index := idxInsert id h s.index,
                  log := s.log ++ [Event.newOrder (s.time + 1) id Side.SELL price qty],
                  time := s.time + 1 }).levels
            (matchOrderSellGo ⟨id, s.time + 1, Side.SELL, price, qty, qty⟩ s.bids
              { s with
                  slots := s.slots.set h ⟨id, s.time + 1, Side.SELL, price, qty, qty⟩,
                  free := t,
                  index := idxInsert id h s.index,
                  log := s.log ++ [Event.newOrder (s.time + 1) id Side.SELL price qty],
                  time := s.time + 1 }).agg
            h id t pop hinv hf hfresh
            (matchOrderSellGo_frame _ _ _).2
            (n5.trans (by simp))
            n2 n1
            (by
              intro g hgh hga
              exact (n3 g hga).trans (slotGet_set_ne hgh s.slots _))
            (by
              intro g hgh
              obtain ⟨d1, d2, d3⟩ := n4 g
              exact ⟨d1.trans (congrArg Order.id (slotGet_set_ne hgh s.slots _)),
                d2.trans (congrArg Order.side (slotGet_set_ne hgh s.slots _)),
                d3.trans (congrArg Order.price (slotGet_set_ne hgh s.slots _))⟩)
            n7 n8 n9 n11
        exact ⟨c1, c2, c3, c4, c5, c6, c7, c8, c9, c10⟩
      · obtain ⟨c1, c2, c3, c4, c5, c6, c7, c8, c9, c10⟩ :=
          sellRestFinish s
            (matchOrderSellGo ⟨id, s.time + 1, Side.SELL, price, qty, qty⟩ s.bids
              { s with
                  slots := s.slots.set h ⟨id, s.time + 1, Side.SELL, price, qty, qty⟩,
                  free := t,
                  index := idxInsert id h s.index,
                  log := s.log ++ [Event.newOrder (s.time + 1) id Side.SELL price qty],
                  time := s.time + 1 }).st
            (matchOrderSellGo ⟨id, s.time + 1, Side.SELL, price, qty, qty⟩ s.bids
              { s with
                  slots := s.slots.set h ⟨id, s.time + 1, Side.SELL, price, qty, qty⟩,
                  free := t,
                  index := idxInsert id h s.index,
                  log := s.log ++ [Event.newOrder (s.time + 1) id Side.SELL price qty],
                  time := s.time + 1 }).levels
            (matchOrderSellGo ⟨id, s.time + 1, Side.SELL, price, qty, qty⟩ s.bids
              { s with
                  slots := s.slots.set h ⟨id, s.time + 1, Side.SELL, price, qty, qty⟩,
                  free := t,
                  index := idxInsert id h s.index,
                  log := s.log ++ [Event.newOrder (s.time + 1) id Side.SELL price qty],
                  time := s.time + 1 }).agg
            h id price t pop hinv hf hfresh
            (matchOrderSellGo_frame _ _ _).2
            (n5.trans (by simp))
            n2 n1
            (by
              intro g hgh hga
              exact (n3 g hga).trans (slotGet_set_ne hgh s.slots _))
            (by
              intro g hgh
              obtain ⟨d1, d2, d3⟩ := n4 g
              exact ⟨d1.trans (congrArg Order.id (slotGet_set_ne hgh s.slots _)),
                d2.trans (congrArg Order.side (slotGet_set_ne hgh s.slots _)),
                d3.trans (congrArg Order.price (slotGet_set_ne hgh s.slots _))⟩)
            n7 n8 n9 n10 n11
            (matchOrderSellGo_agg_fix _ _ _).1
            (matchOrderSellGo_agg_fix _ _ _).2.1
            (matchOrderSellGo_agg_fix _ _ _).2.2.1
        exact ⟨c1, c2, c3, c4, c5, c6, c7, c8, c9, c10⟩

/-- Bookkeeping for `process_cancel` of a resting BUY order: the order is
unlinked from its bid level, unindexed and its slot freed. -/
theorem cancelFinishBuy (s : OrderBookState) (h id : Nat)
    (hinv : IdxInv s)
    (hbk : (s.bids.map Prod.fst).Nodup)
    (hfind : idxFind id s.index = some h)
    (hside : (slotGet s.slots h).side = Side.BUY) :
    (∀ e ∈ idxErase id s.index,
      e.2 ∈ levelsHandles (unlinkInLevels (slotGet s.slots h).price h
        (slotGet s.slots h).remaining_qty s.bids) ++ levelsHandles s.asks ∧
      (slotGet s.slots e.2).id = e.1) ∧
    (∀ g ∈ levelsHandles (unlinkInLevels (slotGet s.slots h).price h
        (slotGet s.slots h).remaining_qty s.bids) ++ levelsHandles s.asks,
      ((slotGet s.slots g).id, g) ∈ idxErase id s.index) ∧
    ((idxErase id s.index).map Prod.fst).Nodup ∧
    (levelsHandles (unlinkInLevels (slotGet s.slots h).price h
      (slotGet s.slots h).remaining_qty s.bids) ++ levelsHandles s.asks).Nodup ∧
    (∀ g ∈ h :: s.free, g ∉ levelsHandles (unlinkInLevels (slotGet s.slots h).price h
      (slotGet s.slots h).remaining_qty s.bids) ++ levelsHandles s.asks) ∧
    (h :: s.free).Nodup ∧
    (∀ g ∈ levelsHandles (unlinkInLevels (slotGet s.slots h).price h
      (slotGet s.slots h).remaining_qty s.bids) ++ levelsHandles s.asks,
      g < s.slots.length) ∧
    (∀ g ∈ h :: s.free, g < s.slots.length) ∧
    (∀ pl ∈ unlinkInLevels (slotGet s.slots h).price h
      (slotGet s.slots h).remaining_qty s.bids, ∀ g ∈ pl.2.orders,
      (slotGet s.slots g).side = Side.BUY ∧ (slotGet s.slots g).price = pl.1) ∧
    (∀ pl ∈ s.asks, ∀ g ∈ pl.2.orders,
      (slotGet s.slots g).side = Side.SELL ∧ (slotGet s.slots g).price = pl.1) := by
  have hmem : (id, h) ∈ s.index := idxFind_mem hfind
  have hent := hinv.entries (id, h) hmem
  have hhall : h ∈ allHandles s := hent.1
  have hhid : (slotGet s.slots h).id = id := hent.2
  have hnd : (levelsHandles s.bids ++ levelsHandles s.asks).Nodup := hinv.handlesNodup
  have hBnd : (levelsHandles s.bids).Nodup := hnd.of_append_left
  have hBAdisj : ∀ g ∈ levelsHandles s.bids, g ∉ levelsHandles s.asks :=
    fun g hg => List.disjoint_of_nodup_append hnd hg
  have hhB : h ∈ levelsHandles s.bids := by
    rcases List.mem_append.mp hhall with h1 | h1
    · exact h1
    · exfalso
      obtain ⟨pl, hpl, hhin⟩ := mem_levelsHandles.mp h1
      exact Side.noConfusion (hside.symm.trans (hinv.asksSide pl hpl h hhin).1)
  obtain ⟨plh, hplh, hhin⟩ := mem_levelsHandles.mp hhB
  have hplK : ((slotGet s.slots h).price, plh.2) ∈ s.bids := by
    have h1 : (plh.1, plh.2) ∈ s.bids := by simpa using hplh
    have h2 : plh.1 = (slotGet s.slots h).price :=
      ((hinv.bidsSide plh hplh h hhin).2).symm
    exact h2 ▸ h1
  have hnotunlink : h ∉ levelsHandles (unlinkInLevels (slotGet s.slots h).price h
      (slotGet s.slots h).remaining_qty s.bids) :=
    unlink_not_mem_self _ hbk hBnd hplK hhin
  have hsub' := unlink_handles_sublist (slotGet s.slots h).price h
    (slotGet s.slots h).remaining_qty s.bids
  have hsubmem : ∀ g ∈ levelsHandles (unlinkInLevels (slotGet s.slots h).price h
      (slotGet s.slots h).remaining_qty s.bids), g ∈ levelsHandles s.bids :=
    fun g hg => hsub'.subset hg
  have hgid_ne : ∀ g ∈ allHandles s, g ≠ h → (slotGet s.slots g).id ≠ id := by
    intro g hg hne hc
    have hmem2 : (id, g) ∈ s.index := hc ▸ hinv.complete g hg
    exact hne (keys_nodup_inj hinv.keysNodup hmem2 hmem)
  have h_free_not : h ∉ s.free := fun hc => hinv.freeDisjoint h hc hhall
  have hh_notA : h ∉ levelsHandles s.asks := hBAdisj h hhB
  refine ⟨?_, ?_, (idxErase_keys_sublist id s.index).nodup hinv.keysNodup, ?_, ?_,
    List.nodup_cons.mpr ⟨h_free_not, hinv.freeNodup⟩, ?_, ?_, ?_, hinv.asksSide⟩
  · intro e he
    have hee := (mem_idxErase_iff hinv.keysNodup e).mp he
    have hold := hinv.entries e hee.1
    have hne2 : e.2 ≠ h := by
      intro hc
      exact hee.2 (((hc ▸ hold.2).symm.trans hhid).symm ▸ rfl)
    refine ⟨?_, hold.2⟩
    rcases List.mem_append.mp hold.1 with h1 | h1
    · exact List.mem_append_left _ (unlink_mem_of_ne _ _ h1 hne2)
    · exact List.mem_append_right _ h1
  · intro g hg
    rcases List.mem_append.mp hg with h1 | h1
    · have hgB : g ∈ levelsHandles s.bids := hsubmem g h1
      have hne : g ≠ h := fun hc => hnotunlink (hc ▸ h1)
      exact (mem_idxErase_iff hinv.keysNodup _).mpr
        ⟨hinv.complete g (List.mem_append_left _ hgB),
          hgid_ne g (List.mem_append_left _ hgB) hne⟩
    · have hne : g ≠ h := fun hc => hh_notA (hc ▸ h1)
      exact (mem_idxErase_iff hinv.keysNodup _).mpr
        ⟨hinv.complete g (List.mem_append_right _ h1),
          hgid_ne g (List.mem_append_right _ h1) hne⟩
  · exact (hsub'.append (List.Sublist.refl _)).nodup hnd
  · intro g hg
    rcases List.mem_cons.mp hg with h1 | h1
    · subst h1
      intro hc
      rcases List.mem_append.mp hc with h2 | h2
      · exact hnotunlink h2
      · exact hh_notA h2
    · intro hc
      have := hinv.freeDisjoint g h1
      rcases List.mem_append.mp hc with h2 | h2
      · exact this (List.mem_append_left _ (hsubmem g h2))
      · exact this (List.mem_append_right _ h2)
  · intro g hg
    rcases List.mem_append.mp hg with h1 | h1
    · exact hinv.handlesLt g (List.mem_append_left _ (hsubmem g h1))
    · exact hinv.handlesLt g (List.mem_append_right _ h1)
  · intro g hg
    rcases List.mem_cons.mp hg with h1 | h1
    · subst h1
      exact hinv.handlesLt g hhall
    · exact hinv.freeLt g h1
  · intro pl hpl g hg
    obtain ⟨pl0, hpl0, hfst, hsubord⟩ := unlink_level_mem hpl
    have := hinv.bidsSide pl0 hpl0 g (hsubord g hg)
    exact ⟨this.1, this.2.trans hfst.symm⟩

/-- Bookkeeping for `process_cancel` of a resting SELL order. -/
theorem cancelFinishSell (s : OrderBookState) (h id : Nat)
    (hinv : IdxInv s)
    (hak : (s.asks.map Prod.fst).Nodup)
    (hfind : idxFind id s.index = some h)
    (hside : (slotGet s.slots h).side = Side.SELL) :
    (∀ e ∈ idxErase id s.index,
      e.2 ∈ levelsHandles s.bids ++ levelsHandles (unlinkInLevels
        (slotGet s.slots h).price h (slotGet s.slots h).remaining_qty s.asks) ∧
      (slotGet s.slots e.2).id = e.1) ∧
    (∀ g ∈ levelsHandles s.bids ++ levelsHandles (unlinkInLevels
        (slotGet s.slots h).price h (slotGet s.slots h).remaining_qty s.asks),
      ((slotGet s.slots g).id, g) ∈ idxErase id s.index) ∧
    ((idxErase id s.index).map Prod.fst).Nodup ∧
    (levelsHandles s.bids ++ levelsHandles (unlinkInLevels
      (slotGet s.slots h).price h (slotGet s.slots h).remaining_qty s.asks)).Nodup ∧
    (∀ g ∈ h :: s.free, g ∉ levelsHandles s.bids ++ levelsHandles (unlinkInLevels
      (slotGet s.slots h).price h (slotGet s.slots h).remaining_qty s.asks)) ∧
    (h :: s.free).Nodup ∧
    (∀ g ∈ levelsHandles s.bids ++ levelsHandles (unlinkInLevels
      (slotGet s.slots h).price h (slotGet s.slots h).remaining_qty s.asks),
      g < s.slots.length) ∧
    (∀ g ∈ h :: s.free, g < s.slots.length) ∧
    (∀ pl ∈ s.bids, ∀ g ∈ pl.2.orders,
      (slotGet s.slots g).side = Side.BUY ∧ (slotGet s.slots g).price = pl.1) ∧
    (∀ pl ∈ unlinkInLevels (slotGet s.slots h).price h
      (slotGet s.slots h).remaining_qty s.asks, ∀ g ∈ pl.2.orders,
      (slotGet s.slots g).side = Side.SELL ∧ (slotGet s.slots g).price = pl.1) := by
  have hmem : (id, h) ∈ s.index := idxFind_mem hfind
  have hent := hinv.entries (id, h) hmem
  have hhall : h ∈ allHandles s := hent.1
  have hhid : (slotGet s.slots h).id = id := hent.2
  have hnd : (levelsHandles s.bids ++ levelsHandles s.asks).Nodup := hinv.handlesNodup
  have hAnd : (levelsHandles s.asks).Nodup := hnd.of_append_right
  have hBAdisj : ∀ g ∈ levelsHandles s.bids, g ∉ levelsHandles s.asks :=
    fun g hg => List.disjoint_of_nodup_append hnd hg
  have hhA : h ∈ levelsHandles s.asks := by
    rcases List.mem_append.mp hhall with h1 | h1
    · exfalso
      obtain ⟨pl, hpl, hhin⟩ := mem_levelsHandles.mp h1
      exact Side.noConfusion ((hinv.bidsSide pl hpl h hhin).1.symm.trans hside)
    · exact h1
  obtain ⟨plh, hplh, hhin⟩ := mem_levelsHandles.mp hhA
  have hplK : ((slotGet s.slots h).price, plh.2) ∈ s.asks := by
    have h1 : (plh.1, plh.2) ∈ s.asks := by simpa using hplh
    have h2 : plh.1 = (slotGet s.slots h).price :=
      ((hinv.asksSide plh hplh h hhin).2).symm
    exact h2 ▸ h1
  have hnotunlink : h ∉ levelsHandles (unlinkInLevels (slotGet s.slots h).price h
      (slotGet s.slots h).remaining_qty s.asks) :=
    unlink_not_mem_self _ hak hAnd hplK hhin
  have hsub' := unlink_handles_sublist (slotGet s.slots h).price h
    (slotGet s.slots h).remaining_qty s.asks
  have hsubmem : ∀ g ∈ levelsHandles (unlinkInLevels (slotGet s.slots h).price h
      (slotGet s.slots h).remaining_qty s.asks), g ∈ levelsHandles s.asks :=
    fun g hg => hsub'.subset hg
  have hgid_ne : ∀ g ∈ allHandles s, g ≠ h → (slotGet s.slots g).id ≠ id := by
    intro g hg hne hc
    have hmem2 : (id, g) ∈ s.index := hc ▸ hinv.complete g hg
    exact hne (keys_nodup_inj hinv.keysNodup hmem2 hmem)
  have h_free_not : h ∉ s.free := fun hc => hinv.freeDisjoint h hc hhall
  have hh_notB : h ∉ levelsHandles s.bids := fun hc => hBAdisj h hc hhA
  refine ⟨?_, ?_, (idxErase_keys_sublist id s.index).nodup hinv.keysNodup, ?_, ?_,
    List.nodup_cons.mpr ⟨h_free_not, hinv.freeNodup⟩, ?_, ?_, hinv.bidsSide, ?_⟩
  · intro e he
    have hee := (mem_idxErase_iff hinv.keysNodup e).mp he
    have hold := hinv.entries e hee.1
    have hne2 : e.2 ≠ h := by
      intro hc
      exact hee.2 (((hc ▸ hold.2).symm.trans hhid).symm ▸ rfl)
    refine ⟨?_, hold.2⟩
    rcases List.mem_append.mp hold.1 with h1 | h1
    · exact List.mem_append_left _ h1
    · exact List.mem_append_right _ (unlink_mem_of_ne _ _ h1 hne2)
  · intro g hg
    rcases List.mem_append.mp hg with h1 | h1
    · have hne : g ≠ h := fun hc => hh_notB (hc ▸ h1)
      exact (mem_idxErase_iff hinv.keysNodup _).mpr
        ⟨hinv.complete g (List.mem_append_left _ h1),
          hgid_ne g (List.mem_append_left _ h1) hne⟩
    · have hgA : g ∈ levelsHandles s.asks := hsubmem g h1
      have hne : g ≠ h := fun hc => hnotunlink (hc ▸ h1)
      exact (mem_idxErase_iff hinv.keysNodup _).mpr
        ⟨hinv.complete g (List.mem_append_right _ hgA),
          hgid_ne g (List.mem_append_right _ hgA) hne⟩
  · exact ((List.Sublist.refl _).append hsub').nodup hnd
  · intro g hg
    rcases List.mem_cons.mp hg with h1 | h1
    · subst h1
      intro hc
      rcases List.mem_append.mp hc with h2 | h2
      · exact hh_notB h2
      · exact hnotunlink h2
    · intro hc
      have := hinv.freeDisjoint g h1
      rcases List.mem_append.mp hc with h2 | h2
      · exact this (List.mem_append_left _ h2)
      · exact this (List.mem_append_right _ (hsubmem g h2))
  · intro g hg
    rcases List.mem_append.mp hg with h1 | h1
    · exact hinv.handlesLt g (List.mem_append_left _ h1)
    · exact hinv.handlesLt g (List.mem_append_right _ (hsubmem g h1))
  · intro g hg
    rcases List.mem_cons.mp hg with h1 | h1
    · subst h1
      exact hinv.handlesLt g hhall
    · exact hinv.freeLt g h1
  · intro pl hpl g hg
    obtain ⟨pl0, hpl0, hfst, hsubord⟩ := unlink_level_mem hpl
    have := hinv.asksSide pl0 hpl0 g (hsubord g hg)
    exact ⟨this.1, this.2.trans hfst.symm⟩

theorem processCancel_idxInv (id : Nat) (s : OrderBookState) (hinv : IdxInv s)
    (hbook : BookInv s) : IdxInv (processCancel id s) := by
  have hbk : (s.bids.map Prod.fst).Nodup :=
    hbook.1.imp (fun hab => ne_of_gt hab)
  have hak : (s.asks.map Prod.fst).Nodup :=
    hbook.2.1.imp (fun hab => ne_of_lt hab)
  simp only [processCancel]
  split
  · exact ⟨hinv.entries, hinv.complete, hinv.keysNodup, hinv.handlesNodup,
      hinv.freeDisjoint, hinv.freeNodup, hinv.handlesLt, hinv.freeLt,
      hinv.bidsSide, hinv.asksSide⟩
  · rename_i h hfind
    have hfind' : idxFind id s.index = some h := hfind
    split
    · rename_i hside
      have hside' : (slotGet s.slots h).side = Side.BUY := hside
      obtain ⟨c1, c2, c3, c4, c5, c6, c7, c8, c9, c10⟩ :=
        cancelFinishBuy s h id hinv hbk hfind' hside'
      exact ⟨c1, c2, c3, c4, c5, c6, c7, c8, c9, c10⟩
    · rename_i hside
      have hside' : (slotGet s.slots h).side = Side.SELL := hside
      obtain ⟨c1, c2, c3, c4, c5, c6, c7, c8, c9, c10⟩ :=
        cancelFinishSell s h id hinv hak hfind' hside'
      exact ⟨c1, c2, c3, c4, c5, c6, c7, c8, c9, c10⟩

/-! ### Claim C4: index completeness -/

theorem reachableFresh_reachable {s : OrderBookState} (h : ReachableFresh s) :
    Reachable s := by
  induction h with
  | init capacity => exact Reachable.init capacity
  | stepNew id side price qty hprev hfresh ih =>
    exact Reachable.step (Cmd.newOrder id side price qty) ih
  | stepCancel id hprev ih =>
    exact Reachable.step (Cmd.cancel id) ih

theorem initState_idxInv (capacity : Nat) : IdxInv (initState capacity) := by
  refine ⟨?_, ?_, List.nodup_nil, List.nodup_nil, ?_, ?_, ?_, ?_, ?_, ?_⟩
  · intro e he
    exact absurd he (List.not_mem_nil e)
  · intro g hg
    exact absurd hg (List.not_mem_nil g)
  · intro g hg hc
    exact absurd hc (List.not_mem_nil g)
  · exact List.nodup_reverse.mpr (List.nodup_range capacity)
  · intro g hg
    exact absurd hg (List.not_mem_nil g)
  · intro g hg
    have hg' : g < capacity := List.mem_range.mp (List.mem_reverse.mp hg)
    exact lt_of_lt_of_eq hg' (List.length_replicate capacity defaultOrder).symm
  · intro pl hpl
    exact absurd hpl (List.not_mem_nil pl)
  · intro pl hpl
    exact absurd hpl (List.not_mem_nil pl)

theorem reachableFresh_idxInv {s : OrderBookState} (h : ReachableFresh s) :
    IdxInv s := by
  induction h with
  | init capacity => exact initState_idxInv capacity
  | stepNew id side price qty hprev hfresh ih =>
    exact processNewOrder_idxInv id side price qty _ ih hfresh
  | stepCancel id hprev ih =>
    exact processCancel_idxInv id _ ih (reachable_bookInv _ (reachableFresh_reachable hprev))

/-- C4 (counterexample): reusing a live id breaks index completeness.
A resting SELL `id=1` is overwritten in the Index by an aggressive BUY
with the same id; the BUY fills against it and the passive-fill cleanup
erases `order_index_[1]`, which now points at the aggressive order.  The
BUY's residue then rests on the bid book, so an order with id 1 rests on
a level while the Index has no entry for id 1. -/
theorem c4_index_counterexample :
    restingB (runCmds (initState 4) [Cmd.newOrder 1 Side.SELL 10 5,
      Cmd.newOrder 1 Side.BUY 10 10]) 1 = true ∧
    idxFind 1 (runCmds (initState 4) [Cmd.newOrder 1 Side.SELL 10 5,
      Cmd.newOrder 1 Side.BUY 10 10]).index = none :=
  ⟨by decide, by decide⟩

/-- C4 (amended): a fully filled aggressive order is unindexed and
deallocated, and under the fresh-id discipline — every new order uses an
id that is not currently bound in the Index — every reachable state
satisfies index completeness: an id is bound in the Index iff a resting
order with that id exists on some level. -/
theorem c4_index_complete (id : Nat) (s : OrderBookState) (h : ReachableFresh s) :
    (idxFind id s.index).isSome = true ↔ restingB s id = true := by
  have hinv := reachableFresh_idxInv h
  constructor
  · intro hs
    obtain ⟨v, hv⟩ := Option.isSome_iff_exists.mp hs
    have hmem : (id, v) ∈ s.index := idxFind_mem hv
    have hent := hinv.entries (id, v) hmem
    exact List.any_eq_true.mpr ⟨v, hent.1, beq_iff_eq.mpr hent.2⟩
  · intro hr
    obtain ⟨g, hgmem, hgp⟩ := List.any_eq_true.mp hr
    have hgid : (slotGet s.slots g).id = id := beq_iff_eq.mp hgp
    have hidx : (id, g) ∈ s.index := hgid ▸ hinv.complete g hgmem
    have hfind := idxFind_of_mem_keysNodup hinv.keysNodup hidx
    rw [hfind]
    rfl

/-- Witness for C4 at a concrete fresh-id state: one resting SELL. -/
theorem c4_index_complete_witness :
    (idxFind 5 (processNewOrder 5 Side.SELL 10 7 (initState 2)).index).isSome = true ↔
      restingB (processNewOrder 5 Side.SELL 10 7 (initState 2)) 5 = true :=
  c4_index_complete 5 (processNewOrder 5 Side.SELL 10 7 (initState 2))
    (ReachableFresh.stepNew 5 Side.SELL 10 7 (ReachableFresh.init 2) (by decide))
